import Mathlib

/-!
Verification development for the pyconfetti repository: a shallow embedding of
the Confetti configuration-language lexer, parser and object mapper.

The repository ships only the test files, the conformance-suite runner and the
example programs; the `pyconfetti` package itself (source cursor, lexer,
parser, AST and mapper) is not present.  Every definition below whose doc
comment starts with `Modelled from the spec:` therefore embeds the missing
component faithfully from the natural-language specification (spec.md), with
the in-repository tests (`tests.py`) used only where the spec is silent and
the tests pin down behaviour.

Modelling conventions.
* The input is a sequence of decoded code points (`List Char`); offsets and
  lengths count code points.  Byte-level UTF-8 decoding (and hence the
  `MalformedEncoding` error) is below the abstraction level of this embedding.
* Fallible operations return `Except ConfettiError _`; no partial AST exists
  on failure by construction.
* The `expression_arguments` and `punctuator_arguments` extensions are carried
  in the options record but not implemented: every claim under scrutiny uses
  inputs and options with those extensions at their defaults (off / empty).
-/

namespace PyConfetti

/-- Modelled from the spec: the `ConfettiOptions` configuration record of the
missing `pyconfetti` package (spec §6).  Defaults: all extensions off and a
block-nesting cap of 1024. -/
structure ConfettiOptions where
  c_style_comments : Bool := false
  expression_arguments : Bool := false
  punctuator_arguments : List (List Char) := []
  max_depth : Nat := 1024
deriving Repr, DecidableEq

/-- Modelled from the spec: the parse-error kinds of §7.  The extra
`CStyleCommentsDisabled` kind models the behaviour pinned down by
`tests.py::test_custom_options`: a `/*` sequence is refused when the
`c_style_comments` option is off (the spec's kind list does not name the
kind this error carries, only the tests show that parsing fails).
`ExpectedTerminator` models the grammar requirement of §4.3 that a closed
block is followed by a terminator; the spec names no kind for its violation. -/
inductive ErrKind where
  | MalformedEncoding
  | ControlCharacter
  | BadEscape
  | EscapeAtEof
  | DanglingContinuation
  | UnterminatedQuote
  | UnterminatedTripleQuote
  | UnterminatedComment
  | UnbalancedExpression
  | UnexpectedOpeningBrace
  | UnexpectedClosingBrace
  | UnclosedBlock
  | NestingTooDeep
  | CStyleCommentsDisabled
  | ExpectedTerminator
deriving Repr, DecidableEq

/-- Modelled from the spec: a categorized parse error carrying the offset of
the offending code point (spec §7). -/
structure ConfettiError where
  kind : ErrKind
  offset : Nat
deriving Repr, DecidableEq

/-- Line terminators (spec §4.1): LF, CR (CRLF is treated as one), NEL, LS, PS. -/
def isLineTermCh (c : Char) : Bool :=
  c = '\n' || c = '\r' || c.toNat = 0x85 || c.toNat = 0x2028 || c.toNat = 0x2029

/-- Horizontal whitespace (spec §4.1): Unicode Zs plus ASCII HT. -/
def isWhiteCh (c : Char) : Bool :=
  c = ' ' || c = '\t' || c.toNat = 0xA0 || c.toNat = 0x1680 ||
  (0x2000 ≤ c.toNat && c.toNat ≤ 0x200A) || c.toNat = 0x202F ||
  c.toNat = 0x205F || c.toNat = 0x3000

/-- Control code points rejected in unquoted contexts (spec §4.1): Cc minus
the whitelisted whitespace and line terminators. -/
def isControlCh (c : Char) : Bool :=
  (c.toNat < 0x20 || (0x7F ≤ c.toNat && c.toNat ≤ 0x9F)) &&
  !(c = '\t' || c = '\n' || c = '\r' || c.toNat = 0x85)

/-- The punctuator / escapable code points of spec §4.2. -/
def isPunctCh (c : Char) : Bool :=
  c = '{' || c = '}' || c = ';' || c = '#' || c = '"' || c = '\'' || c = '\\'

/-- Modelled from the spec: the token kinds produced by the missing lexer
(spec §4.2).  Quoted, triple-quoted and bare arguments all surface as `arg`
with the logical (escape-processed) value and the syntactic span. -/
inductive Tok where
  | arg (value : List Char) (offset length : Nat)
  | lbrace (offset : Nat)
  | rbrace (offset : Nat)
  | term
  | comment (text : List Char) (offset length : Nat)
deriving Repr, DecidableEq

/-- Modelled from the spec: the mode component of the lexer state.  Each mode
records the start offset and accumulated logical value of the token in
progress (spec §4.2). -/
inductive LexMode where
  /-- Between tokens.  `cont` records that the character just consumed closed
  a line continuation (for the `DanglingContinuation`-at-EOF check, §8). -/
  | normal (cont : Bool)
  /-- Inside a bare argument. -/
  | bare (start : Nat) (acc : List Char) (cont : Bool)
  /-- After a backslash in bare/normal position. -/
  | bareEsc (start : Nat) (acc : List Char)
  /-- Immediately after one opening quote (body still empty, a second quote
  may still grow into a triple opener). -/
  | q1 (delim : Char) (start : Nat)
  /-- Inside a single- or double-quoted argument with nonempty progress. -/
  | quoted (delim : Char) (start : Nat) (acc : List Char)
  /-- After a backslash inside a quoted argument. -/
  | quotedEsc (delim : Char) (start : Nat) (acc : List Char)
  /-- After two identical opening quotes: an empty quoted argument unless a
  third quote arrives (triple-quote opening scans greedily, §4.3 tie-break). -/
  | q2 (delim : Char) (start : Nat)
  /-- Inside a triple-quoted argument; `closeCnt` counts the pending run of
  closing-delimiter candidates. -/
  | triple (delim : Char) (start : Nat) (acc : List Char) (closeCnt : Nat)
  /-- Inside a `#` (or `//`) line comment. -/
  | comment (start : Nat) (acc : List Char)
  /-- After a token-initial `/`. -/
  | slash (start : Nat)
  /-- Inside a `/* ... */` block comment; `sawStar` marks a pending `*`. -/
  | blockComment (start : Nat) (acc : List Char) (sawStar : Bool)
deriving Repr, DecidableEq

/-- Modelled from the spec: the full lexer state.  `skipLF` marks that a CR
was just consumed as a line terminator, so that an immediately following LF
belongs to the same terminator (spec §4.1: CRLF treated as one). -/
structure LexSt where
  pos : Nat
  skipLF : Bool
  mode : LexMode
deriving Repr, DecidableEq

/-- The initial lexer state. -/
def initLexSt : LexSt := ⟨0, false, .normal false⟩

/-- The lexical class of a code point in unquoted position (spec §4.1-§4.2):
exactly one of the classes below applies, tried in this order. -/
inductive CharClass where
  | lineTerm
  | white
  | lbraceC
  | rbraceC
  | semi
  | hash
  | quoteC
  | backslashC
  | slashC
  | controlC
  | data
deriving Repr, DecidableEq

/-- Classify a code point (spec §4.1-§4.2). -/
def classify (c : Char) : CharClass :=
  if isLineTermCh c then .lineTerm
  else if isWhiteCh c then .white
  else if c = '{' then .lbraceC
  else if c = '}' then .rbraceC
  else if c = ';' then .semi
  else if c = '#' then .hash
  else if c = '"' || c = '\'' then .quoteC
  else if c = '\\' then .backslashC
  else if c = '/' then .slashC
  else if isControlCh c then .controlC
  else .data

/-- One lexer step from between-token position (spec §4.2): dispatch on the
class of the code point at offset `pos`.  Returns the successor mode, the
emitted tokens, and the new `skipLF` flag. -/
def stepNormal (pos : Nat) (c : Char) :
    Except ConfettiError (LexMode × List Tok × Bool) :=
  match classify c with
  | .lineTerm => .ok (.normal false, [.term], c = '\r')
  | .white => .ok (.normal false, [], false)
  | .lbraceC => .ok (.normal false, [.lbrace pos], false)
  | .rbraceC => .ok (.normal false, [.rbrace pos], false)
  | .semi => .ok (.normal false, [.term], false)
  | .hash => .ok (.comment pos [], [], false)
  | .quoteC => .ok (.q1 c pos, [], false)
  | .backslashC => .ok (.bareEsc pos [], [], false)
  | .slashC => .ok (.slash pos, [], false)
  | .controlC => .error ⟨.ControlCharacter, pos⟩
  | .data => .ok (.bare pos [c] false, [], false)

/-- One lexer step inside a bare argument (spec §4.2): terminators,
whitespace and the structural punctuators end the token; `#` and `/` inside
an argument token are data (§4.3 tie-break); backslash opens an escape. -/
def stepBare (pos : Nat) (start : Nat)
    (acc : List Char) (c : Char) :
    Except ConfettiError (LexMode × List Tok × Bool) :=
  match classify c with
  | .lineTerm => .ok (.normal false, [.arg acc start (pos - start), .term], c = '\r')
  | .white => .ok (.normal false, [.arg acc start (pos - start)], false)
  | .lbraceC => .ok (.normal false, [.arg acc start (pos - start), .lbrace pos], false)
  | .rbraceC => .ok (.normal false, [.arg acc start (pos - start), .rbrace pos], false)
  | .semi => .ok (.normal false, [.arg acc start (pos - start), .term], false)
  | .hash => .ok (.bare start (acc ++ [c]) false, [], false)
  | .quoteC => .ok (.q1 c pos, [.arg acc start (pos - start)], false)
  | .backslashC => .ok (.bareEsc start acc, [], false)
  | .slashC => .ok (.bare start (acc ++ [c]) false, [], false)
  | .controlC => .error ⟨.ControlCharacter, pos⟩
  | .data => .ok (.bare start (acc ++ [c]) false, [], false)

/-- Pack a mode-level step result into a full-state step result, advancing
the cursor by one code point. -/
def packE (pos : Nat) :
    Except ConfettiError (LexMode × List Tok × Bool) →
      Except ConfettiError (LexSt × List Tok)
  | .error e => .error e
  | .ok (m, ts, sk) => .ok (⟨pos + 1, sk, m⟩, ts)

/-- Modelled from the spec: one step of the lexer (spec §4.1-§4.2).  Consumes
exactly the code point at `st.pos` and yields the emitted tokens. -/
def lexStep (opts : ConfettiOptions) (st : LexSt) (c : Char) :
    Except ConfettiError (LexSt × List Tok) :=
  if st.skipLF && c = '\n' then
    .ok ({ st with pos := st.pos + 1, skipLF := false }, [])
  else
    let pos := st.pos
    match st.mode with
    | .normal _ => packE pos (stepNormal pos c)
    | .bare start acc _ => packE pos (stepBare pos start acc c)
    | .bareEsc start acc =>
      if isLineTermCh c then
        -- line continuation: contributes nothing to the value (spec §4.2)
        if acc.isEmpty then packE pos (.ok (.normal true, [], c = '\r'))
        else packE pos (.ok (.bare start acc true, [], c = '\r'))
      else if isPunctCh c then packE pos (.ok (.bare start (acc ++ [c]) false, [], false))
      else .error ⟨.BadEscape, pos⟩
    | .q1 delim start =>
      if c = delim then packE pos (.ok (.q2 delim start, [], false))
      else if isLineTermCh c then .error ⟨.UnterminatedQuote, pos⟩
      else if c = '\\' then packE pos (.ok (.quotedEsc delim start [], [], false))
      else packE pos (.ok (.quoted delim start [c], [], false))
    | .quoted delim start acc =>
      if c = delim then
        packE pos (.ok (.normal false, [.arg acc start (pos + 1 - start)], false))
      else if isLineTermCh c then .error ⟨.UnterminatedQuote, pos⟩
      else if c = '\\' then packE pos (.ok (.quotedEsc delim start acc, [], false))
      else packE pos (.ok (.quoted delim start (acc ++ [c]), [], false))
    | .quotedEsc delim start acc =>
      if isLineTermCh c then packE pos (.ok (.quoted delim start acc, [], c = '\r'))
      else if isPunctCh c then packE pos (.ok (.quoted delim start (acc ++ [c]), [], false))
      else .error ⟨.BadEscape, pos⟩
    | .q2 delim start =>
      if c = delim then packE pos (.ok (.triple delim start [] 0, [], false))
      else
        -- an empty quoted argument, then re-dispatch the current code point
        match stepNormal pos c with
        | .error e => .error e
        | .ok (m, ts, sk) => .ok (⟨pos + 1, sk, m⟩, .arg [] start 2 :: ts)
    | .triple delim start acc closeCnt =>
      if c = delim then
        if closeCnt = 2 then
          packE pos (.ok (.normal false, [.arg acc start (pos + 1 - start)], false))
        else packE pos (.ok (.triple delim start acc (closeCnt + 1), [], false))
      else
        packE pos (.ok (.triple delim start (acc ++ List.replicate closeCnt delim ++ [c]) 0, [], false))
    | .comment start acc =>
      if isLineTermCh c then
        packE pos (.ok (.normal false, [.comment acc start (pos - start), .term], c = '\r'))
      else packE pos (.ok (.comment start (acc ++ [c]), [], false))
    | .slash start =>
      if c = '*' then
        if opts.c_style_comments then packE pos (.ok (.blockComment start [] false, [], false))
        else .error ⟨.CStyleCommentsDisabled, start⟩
      else if c = '/' && opts.c_style_comments then
        packE pos (.ok (.comment start [], [], false))
      else packE pos (stepBare pos start ['/'] c)
    | .blockComment start acc sawStar =>
      if c = '/' && sawStar then
        packE pos (.ok (.normal false, [.comment acc start (pos + 1 - start)], false))
      else if c = '*' then
        packE pos (.ok (.blockComment start (if sawStar then acc ++ ['*'] else acc) true, [], false))
      else
        packE pos (.ok (.blockComment start (acc ++ (if sawStar then ['*'] else []) ++ [c]) false, [], false))

/-- Run the lexer over a sequence of code points, accumulating tokens. -/
def lexRun (opts : ConfettiOptions) (st : LexSt) : List Char →
    Except ConfettiError (LexSt × List Tok)
  | [] => .ok (st, [])
  | c :: cs =>
    match lexStep opts st c with
    | .error e => .error e
    | .ok (st', ts) =>
      match lexRun opts st' cs with
      | .error e => .error e
      | .ok (st'', ts') => .ok (st'', ts ++ ts')

/-- Modelled from the spec: end-of-input finalization of the lexer
(spec §4.2, §8 boundary behaviours). -/
def lexFinish (st : LexSt) : Except ConfettiError (List Tok) :=
  match st.mode with
  | .normal cont =>
    if cont then .error ⟨.DanglingContinuation, st.pos⟩ else .ok []
  | .bare start acc cont =>
    if cont then .error ⟨.DanglingContinuation, st.pos⟩
    else .ok [.arg acc start (st.pos - start)]
  | .bareEsc _ _ => .error ⟨.EscapeAtEof, st.pos⟩
  | .q1 _ _ => .error ⟨.UnterminatedQuote, st.pos⟩
  | .quoted _ _ _ => .error ⟨.UnterminatedQuote, st.pos⟩
  | .quotedEsc _ _ _ => .error ⟨.EscapeAtEof, st.pos⟩
  | .q2 _ start => .ok [.arg [] start 2]
  | .triple _ _ _ _ => .error ⟨.UnterminatedTripleQuote, st.pos⟩
  | .comment start acc => .ok [.comment acc start (st.pos - start)]
  | .slash start => .ok [.arg ['/'] start (st.pos - start)]
  | .blockComment _ _ _ => .error ⟨.UnterminatedComment, st.pos⟩

/-- The byte-order mark. -/
def bomChar : Char := Char.ofNat 0xFEFF

/-- Modelled from the spec: the lexer of the missing `pyconfetti` package
(spec §4.1-§4.2).  A leading U+FEFF is silently consumed (spec §4.1). -/
def lex (opts : ConfettiOptions) (input : List Char) :
    Except ConfettiError (List Tok) :=
  let (st0, rest) :=
    match input with
    | c :: cs => if c = bomChar then ((⟨1, false, .normal false⟩ : LexSt), cs) else (initLexSt, input)
    | [] => (initLexSt, input)
  match lexRun opts st0 rest with
  | .error e => .error e
  | .ok (st, ts) =>
    match lexFinish st with
    | .error e => .error e
    | .ok ts' => .ok (ts ++ ts')

end PyConfetti

namespace PyConfetti

/-- Modelled from the spec: an `Argument` AST node (spec §3): the logical
string value after escape and quote processing, plus the half-open span
`[offset, offset+length)` of its syntactic form in the source. -/
structure Argument where
  value : List Char
  offset : Nat
  length : Nat
deriving Repr, DecidableEq

/-- Modelled from the spec: a `Comment` AST node (spec §3): the text content
without the comment introducer, plus its source span. -/
structure Comment where
  text : List Char
  offset : Nat
  length : Nat
deriving Repr, DecidableEq

/-- Modelled from the spec: a `Directive` AST node (spec §3): an ordered
sequence of arguments plus an ordered sequence of child directives. -/
inductive Directive where
  | mk (arguments : List Argument) (subdirectives : List Directive)

/-- The arguments of a directive. -/
def Directive.arguments : Directive → List Argument
  | .mk args _ => args

/-- The child directives of a directive. -/
def Directive.subdirectives : Directive → List Directive
  | .mk _ subs => subs

/-- Modelled from the spec: the `Unit` AST root (spec §3): the ordered
top-level directives plus the flat, source-ordered comment list.  The Python
source exposes the top-level directives as `unit.root.subdirectives`, the
`root` being an implicit argument-less holder; the embedding stores that
list directly. -/
structure ConfettiUnit where
  directives : List Directive
  comments : List Comment

/-- A frame of the parser's explicit block stack (spec §5): the arguments of
the directive whose block is open, and the completed directives that precede
it at its own nesting level. -/
structure PFrame where
  parentArgs : List Argument
  siblings : List Directive

/-- The parser's position inside the current directive (spec §4.3): either
accumulating arguments (possibly none yet), or just after a closed block,
where only a terminator (or implicit termination) may follow. -/
inductive PMode where
  | args (cur : List Argument)
  | afterBlock

/-- The parser state: current directive mode, completed directives at the
current level, the explicit stack of open blocks, and the comments seen. -/
structure PSt where
  mode : PMode
  done : List Directive
  stack : List PFrame
  comments : List Comment

/-- The initial parser state. -/
def initPSt : PSt := ⟨.args [], [], [], []⟩

/-- Finalize the pending directive, if any, at the current level: used when a
terminator, a closing brace, or EOF ends the directive (spec §4.3). -/
def levelOf (mode : PMode) (done : List Directive) : List Directive :=
  match mode with
  | .args [] => done
  | .args (a :: cur) => done ++ [Directive.mk (a :: cur) []]
  | .afterBlock => done

/-- Modelled from the spec: one step of the recursive-descent parser,
consuming one token (spec §4.3, grammar and parse algorithm; spec §5,
explicit stack with nesting cap). -/
def pstep (opts : ConfettiOptions) (st : PSt) (t : Tok) :
    Except ConfettiError PSt :=
  match t with
  | .comment text off len =>
    .ok { st with comments := st.comments ++ [⟨text, off, len⟩] }
  | .term =>
    .ok { st with mode := .args [], done := levelOf st.mode st.done }
  | .arg v off len =>
    match st.mode with
    | .args cur => .ok { st with mode := .args (cur ++ [⟨v, off, len⟩]) }
    | .afterBlock => .error ⟨.ExpectedTerminator, off⟩
  | .lbrace off =>
    match st.mode with
    | .args [] => .error ⟨.UnexpectedOpeningBrace, off⟩
    | .args (a :: cur) =>
      if opts.max_depth ≤ st.stack.length then .error ⟨.NestingTooDeep, off⟩
      else .ok ⟨.args [], [], ⟨a :: cur, st.done⟩ :: st.stack, st.comments⟩
    | .afterBlock => .error ⟨.UnexpectedOpeningBrace, off⟩
  | .rbrace off =>
    match st.stack with
    | [] => .error ⟨.UnexpectedClosingBrace, off⟩
    | frame :: rest =>
      .ok ⟨.afterBlock,
           frame.siblings ++ [Directive.mk frame.parentArgs (levelOf st.mode st.done)],
           rest, st.comments⟩

/-- Run the parser over a token list. -/
def pRun (opts : ConfettiOptions) (st : PSt) : List Tok → Except ConfettiError PSt
  | [] => .ok st
  | t :: ts =>
    match pstep opts st t with
    | .error e => .error e
    | .ok st' => pRun opts st' ts

/-- Modelled from the spec: end-of-input finalization of the parser
(spec §4.3): at top level the pending directive is finalized; inside a block
the parse fails with `UnclosedBlock` at the EOF offset. -/
def pfinish (eofPos : Nat) (st : PSt) : Except ConfettiError ConfettiUnit :=
  match st.stack with
  | [] => .ok ⟨levelOf st.mode st.done, st.comments⟩
  | _ :: _ => .error ⟨.UnclosedBlock, eofPos⟩

/-- Modelled from the spec: the `parse` entry point of the missing
`pyconfetti` package (spec §4.1-§4.3): lex the code points, run the parser
over the token stream, and finalize at EOF.  Fail-fast: on error no AST is
surfaced (spec §7). -/
def parse (opts : ConfettiOptions) (input : List Char) :
    Except ConfettiError ConfettiUnit :=
  match lex opts input with
  | .error e => .error e
  | .ok ts =>
    match pRun opts initPSt ts with
    | .error e => .error e
    | .ok st => pfinish input.length st

/-- The default options value. -/
def defOpts : ConfettiOptions := {}

end PyConfetti

namespace PyConfetti

theorem lexRun_append (opts : ConfettiOptions) (st : LexSt) (xs ys : List Char) :
    lexRun opts st (xs ++ ys) =
      match lexRun opts st xs with
      | .error e => .error e
      | .ok (st', ts) =>
        match lexRun opts st' ys with
        | .error e => .error e
        | .ok (st'', ts') => .ok (st'', ts ++ ts') := by
  induction xs generalizing st with
  | nil =>
    simp only [List.nil_append, lexRun]
    cases h : lexRun opts st ys with
    | error e => rfl
    | ok p => cases p with | mk st'' ts' => simp
  | cons c cs ih =>
    cases hs : lexStep opts st c with
    | error e => simp only [List.cons_append, lexRun, hs]
    | ok p =>
      cases p with
      | mk st' ts =>
        simp only [List.cons_append, lexRun, hs, List.append_eq]
        rw [ih st']
        cases h1 : lexRun opts st' cs with
        | error e => rfl
        | ok q =>
          cases q with
          | mk st'' ts1 =>
            cases h2 : lexRun opts st'' ys with
            | error e => simp [h2]
            | ok r => cases r with | mk st3 ts2 => simp [h2, List.append_assoc]

theorem pRun_append (opts : ConfettiOptions) (st : PSt) (xs ys : List Tok) :
    pRun opts st (xs ++ ys) =
      match pRun opts st xs with
      | .error e => .error e
      | .ok st' => pRun opts st' ys := by
  induction xs generalizing st with
  | nil => simp [pRun]
  | cons t ts ih =>
    cases hs : pstep opts st t with
    | error e => simp only [List.cons_append, pRun, hs]
    | ok st' => simp only [List.cons_append, pRun, hs]; exact ih st'

theorem pRun_cons (opts : ConfettiOptions) (st : PSt) (t : Tok) (ts : List Tok) :
    pRun opts st (t :: ts) =
      match pstep opts st t with
      | .error e => .error e
      | .ok st' => pRun opts st' ts := rfl

end PyConfetti

namespace PyConfetti

/-- Shape of a directive tree with only the logical argument values: used to
state structural expectations and to drive the dump side of the mapper. -/
inductive DTree where
  | node (args : List (List Char)) (children : List DTree)

/-- The argument values of a shape node. -/
def DTree.args : DTree → List (List Char)
  | .node a _ => a

/-- The children of a shape node. -/
def DTree.children : DTree → List DTree
  | .node _ c => c

mutual

/-- Forget offsets: the value-only shape of a directive. -/
def Directive.strip : Directive → DTree
  | .mk args subs => .node (args.map Argument.value) (stripList subs)

/-- Forget offsets on a list of directives. -/
def stripList : List Directive → List DTree
  | [] => []
  | d :: ds => d.strip :: stripList ds

end

mutual

/-- All arguments of a directive, its own then its descendants', in order. -/
def dirArgs : Directive → List Argument
  | .mk args subs => args ++ dirsArgs subs

/-- All arguments in a list of directives. -/
def dirsArgs : List Directive → List Argument
  | [] => []
  | d :: ds => dirArgs d ++ dirsArgs ds

end

mutual

/-- The spec §3 invariant, recursively: every directive carries at least one
argument. -/
def dirOk : Directive → Bool
  | .mk args subs => !args.isEmpty && dirsOk subs

/-- `dirOk` on a list of directives. -/
def dirsOk : List Directive → Bool
  | [] => true
  | d :: ds => dirOk d && dirsOk ds

end

/-- All arguments of a parsed unit (top level and descendants). -/
def unitArgs (u : ConfettiUnit) : List Argument := dirsArgs u.directives

/-- The flat sequence of argument values of a parsed unit, in source order. -/
def unitArgValues (u : ConfettiUnit) : List (List Char) :=
  (unitArgs u).map Argument.value

theorem dirsArgs_append (xs ys : List Directive) :
    dirsArgs (xs ++ ys) = dirsArgs xs ++ dirsArgs ys := by
  induction xs with
  | nil => simp [dirsArgs]
  | cons d ds ih => simp [dirsArgs, ih]

theorem dirsOk_append (xs ys : List Directive) :
    dirsOk (xs ++ ys) = (dirsOk xs && dirsOk ys) := by
  induction xs with
  | nil => simp [dirsOk]
  | cons d ds ih => simp [dirsOk, ih, Bool.and_assoc]

theorem stripList_append (xs ys : List Directive) :
    stripList (xs ++ ys) = stripList xs ++ stripList ys := by
  induction xs with
  | nil => simp [stripList]
  | cons d ds ih => simp [stripList, ih]

end PyConfetti

namespace PyConfetti

/-- Tokens whose source span ends at or before offset `n`. -/
def tokLE (t : Tok) (n : Nat) : Prop :=
  match t with
  | .arg _ o l => o + l ≤ n
  | .lbrace o => o + 1 ≤ n
  | .rbrace o => o + 1 ≤ n
  | .term => True
  | .comment _ o l => o + l ≤ n

/-- The lexer-state well-formedness used for the span invariant: every token
in progress started no later than the cursor. -/
def modeStartOk (m : LexMode) (pos : Nat) : Prop :=
  match m with
  | .normal _ => True
  | .bare start _ _ => start ≤ pos
  | .bareEsc start _ => start ≤ pos
  | .q1 _ start => start + 1 ≤ pos
  | .quoted _ start _ => start + 1 ≤ pos
  | .quotedEsc _ start _ => start + 1 ≤ pos
  | .q2 _ start => start + 2 ≤ pos
  | .triple _ start _ _ => start + 3 ≤ pos
  | .comment start _ => start ≤ pos
  | .slash start => start + 1 ≤ pos
  | .blockComment start _ _ => start + 2 ≤ pos

theorem tokLE_mono {t : Tok} {n m : Nat} (h : tokLE t n) (hnm : n ≤ m) : tokLE t m := by
  cases t <;> simp [tokLE] at h ⊢ <;> omega

theorem stepNormal_bound {pos : Nat} {c : Char} {m : LexMode} {ts : List Tok} {sk : Bool}
    (h : stepNormal pos c = .ok (m, ts, sk)) :
    modeStartOk m (pos + 1) ∧ ∀ t ∈ ts, tokLE t (pos + 1) := by
  unfold stepNormal at h
  cases hc : classify c <;>
    simp only [hc, reduceCtorEq, Except.ok.injEq, Prod.mk.injEq] at h
  all_goals obtain ⟨h1, h2, h3⟩ := h
  all_goals subst h1
  all_goals subst h2
  all_goals
    exact ⟨by simp only [modeStartOk]; try omega,
           by intro t ht; fin_cases ht <;> (simp only [tokLE]; try omega)⟩

theorem stepBare_bound {pos start : Nat} {acc : List Char} {c : Char} {m : LexMode}
    {ts : List Tok} {sk : Bool} (hs : start ≤ pos)
    (h : stepBare pos start acc c = .ok (m, ts, sk)) :
    modeStartOk m (pos + 1) ∧ ∀ t ∈ ts, tokLE t (pos + 1) := by
  unfold stepBare at h
  cases hc : classify c <;>
    simp only [hc, reduceCtorEq, Except.ok.injEq, Prod.mk.injEq] at h
  all_goals obtain ⟨h1, h2, h3⟩ := h
  all_goals subst h1
  all_goals subst h2
  all_goals
    exact ⟨by simp only [modeStartOk]; try omega,
           by intro t ht; fin_cases ht <;> (simp only [tokLE]; try omega)⟩

end PyConfetti

namespace PyConfetti

theorem modeStartOk_mono {m : LexMode} {p q : Nat} (h : modeStartOk m p)
    (hpq : p ≤ q) : modeStartOk m q := by
  cases m <;> (simp only [modeStartOk] at h ⊢; try omega)

theorem packE_ok {pos : Nat} {r : Except ConfettiError (LexMode × List Tok × Bool)}
    {st' : LexSt} {ts : List Tok} (h : packE pos r = .ok (st', ts)) :
    ∃ m sk, r = .ok (m, ts, sk) ∧ st' = ⟨pos + 1, sk, m⟩ := by
  cases r with
  | error e => simp [packE] at h
  | ok p =>
    obtain ⟨m, ts1, sk⟩ := p
    simp only [packE, Except.ok.injEq, Prod.mk.injEq] at h
    exact ⟨m, sk, by rw [h.2], h.1.symm⟩

theorem lexStep_bound {opts : ConfettiOptions} {st : LexSt} {c : Char} {st' : LexSt}
    {ts : List Tok} (hInv : modeStartOk st.mode st.pos)
    (h : lexStep opts st c = .ok (st', ts)) :
    st'.pos = st.pos + 1 ∧ modeStartOk st'.mode st'.pos ∧ ∀ t ∈ ts, tokLE t st'.pos := by
  obtain ⟨pos, skip, mode⟩ := st
  unfold lexStep at h
  split at h
  · simp only [Except.ok.injEq, Prod.mk.injEq] at h
    obtain ⟨h1, h2⟩ := h
    subst h1
    subst h2
    exact ⟨rfl, modeStartOk_mono hInv (Nat.le_succ _), by intro t ht; cases ht⟩
  · cases mode with
    | normal cont =>
      dsimp only at h hInv
      obtain ⟨m, sk, hr, rfl⟩ := packE_ok h
      obtain ⟨hm, hts⟩ := stepNormal_bound hr
      exact ⟨rfl, hm, hts⟩
    | bare start acc cont =>
      dsimp only at h hInv
      obtain ⟨m, sk, hr, rfl⟩ := packE_ok h
      obtain ⟨hm, hts⟩ := stepBare_bound hInv hr
      exact ⟨rfl, hm, hts⟩
    | q2 delim start =>
      dsimp only at h hInv
      have hs : start + 2 ≤ pos := hInv
      split_ifs at h
      · obtain ⟨m, sk, hr, rfl⟩ := packE_ok h
        simp only [Except.ok.injEq, Prod.mk.injEq] at hr
        obtain ⟨hm, hts, _⟩ := hr
        subst hm
        subst hts
        refine ⟨rfl, by simp only [modeStartOk]; omega, by intro t ht; cases ht⟩
      · cases hr : stepNormal pos c with
        | error e => rw [hr] at h; exact absurd h (by simp)
        | ok p =>
          obtain ⟨m, ts1, sk⟩ := p
          rw [hr] at h
          simp only [Except.ok.injEq, Prod.mk.injEq] at h
          obtain ⟨h1, h2⟩ := h
          subst h1
          subst h2
          obtain ⟨hm, hts⟩ := stepNormal_bound hr
          refine ⟨rfl, hm, ?_⟩
          intro t ht
          rcases List.mem_cons.mp ht with rfl | ht2
          · simp only [tokLE]; omega
          · exact hts t ht2
    | slash start =>
      dsimp only at h hInv
      have hs : start + 1 ≤ pos := hInv
      split_ifs at h <;> try (simp only [reduceCtorEq] at h)
      · obtain ⟨m, sk, hr, rfl⟩ := packE_ok h
        simp only [Except.ok.injEq, Prod.mk.injEq] at hr
        obtain ⟨hm, hts, _⟩ := hr
        subst hm
        subst hts
        exact ⟨rfl, by simp only [modeStartOk]; omega, by intro t ht; cases ht⟩
      · obtain ⟨m, sk, hr, rfl⟩ := packE_ok h
        simp only [Except.ok.injEq, Prod.mk.injEq] at hr
        obtain ⟨hm, hts, _⟩ := hr
        subst hm
        subst hts
        exact ⟨rfl, by simp only [modeStartOk]; omega, by intro t ht; cases ht⟩
      · obtain ⟨m, sk, hr, rfl⟩ := packE_ok h
        obtain ⟨hm, hts⟩ := stepBare_bound (by omega : start ≤ pos) hr
        exact ⟨rfl, hm, hts⟩
    | bareEsc start acc =>
      dsimp only at h hInv
      have hs : start ≤ pos := hInv
      split_ifs at h <;> try (simp only [reduceCtorEq] at h)
      all_goals obtain ⟨m, sk, hr, rfl⟩ := packE_ok h
      all_goals simp only [Except.ok.injEq, Prod.mk.injEq] at hr
      all_goals obtain ⟨hm, hts, _⟩ := hr
      all_goals subst hm
      all_goals subst hts
      all_goals refine ⟨rfl, ?_, ?_⟩
      all_goals first
        | (intro t ht; fin_cases ht <;> (simp only [tokLE]; try omega))
        | (intro t ht; cases ht)
        | (simp only [modeStartOk]; try omega)
    | q1 delim start =>
      dsimp only at h hInv
      have hs : start + 1 ≤ pos := hInv
      split_ifs at h <;> try (simp only [reduceCtorEq] at h)
      all_goals obtain ⟨m, sk, hr, rfl⟩ := packE_ok h
      all_goals simp only [Except.ok.injEq, Prod.mk.injEq] at hr
      all_goals obtain ⟨hm, hts, _⟩ := hr
      all_goals subst hm
      all_goals subst hts
      all_goals refine ⟨rfl, ?_, ?_⟩
      all_goals first
        | (intro t ht; fin_cases ht <;> (simp only [tokLE]; try omega))
        | (intro t ht; cases ht)
        | (simp only [modeStartOk]; try omega)
    | quoted delim start acc =>
      dsimp only at h hInv
      have hs : start + 1 ≤ pos := hInv
      split_ifs at h <;> try (simp only [reduceCtorEq] at h)
      all_goals obtain ⟨m, sk, hr, rfl⟩ := packE_ok h
      all_goals simp only [Except.ok.injEq, Prod.mk.injEq] at hr
      all_goals obtain ⟨hm, hts, _⟩ := hr
      all_goals subst hm
      all_goals subst hts
      all_goals refine ⟨rfl, ?_, ?_⟩
      all_goals first
        | (intro t ht; fin_cases ht <;> (simp only [tokLE]; try omega))
        | (intro t ht; cases ht)
        | (simp only [modeStartOk]; try omega)
    | quotedEsc delim start acc =>
      dsimp only at h hInv
      have hs : start + 1 ≤ pos := hInv
      split_ifs at h <;> try (simp only [reduceCtorEq] at h)
      all_goals obtain ⟨m, sk, hr, rfl⟩ := packE_ok h
      all_goals simp only [Except.ok.injEq, Prod.mk.injEq] at hr
      all_goals obtain ⟨hm, hts, _⟩ := hr
      all_goals subst hm
      all_goals subst hts
      all_goals refine ⟨rfl, ?_, ?_⟩
      all_goals first
        | (intro t ht; fin_cases ht <;> (simp only [tokLE]; try omega))
        | (intro t ht; cases ht)
        | (simp only [modeStartOk]; try omega)
    | triple delim start acc closeCnt =>
      dsimp only at h hInv
      have hs : start + 3 ≤ pos := hInv
      split_ifs at h <;> try (simp only [reduceCtorEq] at h)
      all_goals obtain ⟨m, sk, hr, rfl⟩ := packE_ok h
      all_goals simp only [Except.ok.injEq, Prod.mk.injEq] at hr
      all_goals obtain ⟨hm, hts, _⟩ := hr
      all_goals subst hm
      all_goals subst hts
      all_goals refine ⟨rfl, ?_, ?_⟩
      all_goals first
        | (intro t ht; fin_cases ht <;> (simp only [tokLE]; try omega))
        | (intro t ht; cases ht)
        | (simp only [modeStartOk]; try omega)
    | comment start acc =>
      dsimp only at h hInv
      have hs : start ≤ pos := hInv
      split_ifs at h <;> try (simp only [reduceCtorEq] at h)
      all_goals obtain ⟨m, sk, hr, rfl⟩ := packE_ok h
      all_goals simp only [Except.ok.injEq, Prod.mk.injEq] at hr
      all_goals obtain ⟨hm, hts, _⟩ := hr
      all_goals subst hm
      all_goals subst hts
      all_goals refine ⟨rfl, ?_, ?_⟩
      all_goals first
        | (intro t ht; fin_cases ht <;> (simp only [tokLE]; try omega))
        | (intro t ht; cases ht)
        | (simp only [modeStartOk]; try omega)
    | blockComment start acc sawStar =>
      dsimp only at h hInv
      have hs : start + 2 ≤ pos := hInv
      split_ifs at h <;> try (simp only [reduceCtorEq] at h)
      all_goals obtain ⟨m, sk, hr, rfl⟩ := packE_ok h
      all_goals simp only [Except.ok.injEq, Prod.mk.injEq] at hr
      all_goals obtain ⟨hm, hts, _⟩ := hr
      all_goals subst hm
      all_goals subst hts
      all_goals refine ⟨rfl, ?_, ?_⟩
      all_goals first
        | (intro t ht; fin_cases ht <;> (simp only [tokLE]; try omega))
        | (intro t ht; cases ht)
        | (simp only [modeStartOk]; try omega)

end PyConfetti

namespace PyConfetti

theorem lexRun_bound {opts : ConfettiOptions} {st : LexSt} {cs : List Char}
    {st' : LexSt} {ts : List Tok} (hInv : modeStartOk st.mode st.pos)
    (h : lexRun opts st cs = .ok (st', ts)) :
    st'.pos = st.pos + cs.length ∧ modeStartOk st'.mode st'.pos ∧
      ∀ t ∈ ts, tokLE t st'.pos := by
  induction cs generalizing st ts with
  | nil =>
    simp only [lexRun, Except.ok.injEq, Prod.mk.injEq] at h
    obtain ⟨h1, h2⟩ := h
    subst h1
    subst h2
    exact ⟨rfl, hInv, by intro t ht; cases ht⟩
  | cons c cs ih =>
    simp only [lexRun] at h
    cases h1 : lexStep opts st c with
    | error e => rw [h1] at h; exact absurd h (by simp)
    | ok p =>
      obtain ⟨st1, ts1⟩ := p
      rw [h1] at h
      dsimp only at h
      cases h2 : lexRun opts st1 cs with
      | error e => rw [h2] at h; exact absurd h (by simp)
      | ok q =>
        obtain ⟨st2, ts2⟩ := q
        rw [h2] at h
        dsimp only at h
        simp only [Except.ok.injEq, Prod.mk.injEq] at h
        obtain ⟨h3, h4⟩ := h
        subst h3
        subst h4
        obtain ⟨hp1, hi1, hb1⟩ := lexStep_bound hInv h1
        obtain ⟨hp2, hi2, hb2⟩ := ih hi1 h2
        refine ⟨by simp [hp2, hp1]; omega, hi2, ?_⟩
        intro t ht
        rcases List.mem_append.mp ht with h5 | h5
        · exact tokLE_mono (hb1 t h5) (by omega)
        · exact hb2 t h5

theorem lexFinish_bound {st : LexSt} {ts : List Tok}
    (hInv : modeStartOk st.mode st.pos) (h : lexFinish st = .ok ts) :
    ∀ t ∈ ts, tokLE t st.pos := by
  obtain ⟨pos, skip, mode⟩ := st
  unfold lexFinish at h
  cases mode <;> dsimp only at h hInv
  all_goals try (split_ifs at h <;> try (simp only [reduceCtorEq] at h))
  all_goals try (simp only [reduceCtorEq] at h)
  all_goals simp only [Except.ok.injEq] at h
  all_goals subst h
  all_goals intro t ht
  all_goals fin_cases ht
  all_goals simp only [tokLE]
  all_goals simp only [modeStartOk] at hInv
  all_goals omega

theorem lex_bound {opts : ConfettiOptions} {input : List Char} {ts : List Tok}
    (h : lex opts input = .ok ts) : ∀ t ∈ ts, tokLE t input.length := by
  unfold lex at h
  have main : ∀ (st0 : LexSt) (rest : List Char),
      st0.pos + rest.length = input.length → modeStartOk st0.mode st0.pos →
      (match lexRun opts st0 rest with
        | Except.error e => Except.error e
        | Except.ok (st, ts1) =>
          match lexFinish st with
          | Except.error e => Except.error e
          | Except.ok ts2 => Except.ok (ts1 ++ ts2)) = Except.ok ts →
      ∀ t ∈ ts, tokLE t input.length := by
    intro st0 rest hlen hinv hm
    cases h1 : lexRun opts st0 rest with
    | error e => rw [h1] at hm; exact absurd hm (by simp)
    | ok p =>
      obtain ⟨st1, ts1⟩ := p
      rw [h1] at hm
      dsimp only at hm
      cases h2 : lexFinish st1 with
      | error e => rw [h2] at hm; exact absurd hm (by simp)
      | ok ts2 =>
        rw [h2] at hm
        dsimp only at hm
        simp only [Except.ok.injEq] at hm
        subst hm
        obtain ⟨hp, hi, hb⟩ := lexRun_bound hinv h1
        have hfin := lexFinish_bound hi h2
        intro t ht
        rcases List.mem_append.mp ht with h5 | h5
        · exact tokLE_mono (hb t h5) (by omega)
        · exact tokLE_mono (hfin t h5) (by omega)
  cases input with
  | nil =>
    dsimp only at h
    exact main initLexSt [] rfl trivial h
  | cons c cs =>
    dsimp only at h
    by_cases hbom : c = bomChar
    · rw [if_pos hbom] at h
      exact main ⟨1, false, .normal false⟩ cs (by simp; omega) trivial h
    · rw [if_neg hbom] at h
      exact main initLexSt (c :: cs) (by simp [initLexSt]) trivial h

end PyConfetti

namespace PyConfetti

/-- The argument payload of a token, if any. -/
def tokArgs (t : Tok) : List Argument :=
  match t with
  | .arg v o l => [⟨v, o, l⟩]
  | _ => []

/-- The arguments pending in a parser mode. -/
def modeArgs (m : PMode) : List Argument :=
  match m with
  | .args cur => cur
  | .afterBlock => []

/-- All arguments reachable from a stack frame. -/
def frameArgs (f : PFrame) : List Argument :=
  f.parentArgs ++ dirsArgs f.siblings

/-- All arguments reachable from a frame stack. -/
def stackArgs : List PFrame → List Argument
  | [] => []
  | f :: fs => frameArgs f ++ stackArgs fs

/-- All arguments reachable from a parser state. -/
def pstArgs (st : PSt) : List Argument :=
  modeArgs st.mode ++ dirsArgs st.done ++ stackArgs st.stack

theorem levelOf_args {mode : PMode} {done : List Directive} :
    ∀ a ∈ dirsArgs (levelOf mode done), a ∈ modeArgs mode ∨ a ∈ dirsArgs done := by
  intro a ha
  cases mode with
  | afterBlock => exact Or.inr ha
  | args cur =>
    cases cur with
    | nil => exact Or.inr ha
    | cons x xs =>
      simp only [levelOf, dirsArgs_append] at ha
      rcases List.mem_append.mp ha with h | h
      · exact Or.inr h
      · simp only [dirsArgs, dirArgs, List.append_nil] at h
        exact Or.inl h

theorem pstep_argsSub {opts : ConfettiOptions} {st : PSt} {t : Tok} {st' : PSt}
    (h : pstep opts st t = .ok st') :
    ∀ a ∈ pstArgs st', a ∈ pstArgs st ∨ a ∈ tokArgs t := by
  intro a ha
  cases t with
  | comment text off len =>
    simp only [pstep, Except.ok.injEq] at h
    subst h
    exact Or.inl ha
  | term =>
    simp only [pstep, Except.ok.injEq] at h
    subst h
    simp only [pstArgs, modeArgs] at ha
    simp only [List.nil_append, List.mem_append] at ha
    rcases ha with h1 | h1
    · rcases levelOf_args a h1 with h2 | h2
      · exact Or.inl (by simp [pstArgs, List.mem_append]; tauto)
      · exact Or.inl (by simp [pstArgs, List.mem_append]; tauto)
    · exact Or.inl (by simp [pstArgs, List.mem_append]; tauto)
  | arg v off len =>
    simp only [pstep] at h
    cases hm : st.mode with
    | afterBlock => rw [hm] at h; exact absurd h (by simp)
    | args cur =>
      rw [hm] at h
      simp only [Except.ok.injEq] at h
      subst h
      simp only [pstArgs, modeArgs, hm, List.mem_append] at ha ⊢
      rcases ha with (h1 | h1) | h1
      · rcases h1 with h2 | h2
        · exact Or.inl (Or.inl (Or.inl h2))
        · simp only [List.mem_singleton] at h2
          subst h2
          exact Or.inr (by simp [tokArgs])
      · exact Or.inl (Or.inl (Or.inr h1))
      · exact Or.inl (Or.inr h1)
  | lbrace off =>
    simp only [pstep] at h
    cases hm : st.mode with
    | afterBlock => rw [hm] at h; exact absurd h (by simp)
    | args cur =>
      rw [hm] at h
      cases cur with
      | nil => exact absurd h (by simp)
      | cons x xs =>
        split_ifs at h
        simp only [Except.ok.injEq] at h
        subst h
        simp only [pstArgs, modeArgs, stackArgs, frameArgs, hm, dirsArgs,
          List.mem_append, List.nil_append, List.not_mem_nil, false_or] at ha ⊢
        tauto
  | rbrace off =>
    simp only [pstep] at h
    cases hs : st.stack with
    | nil => rw [hs] at h; exact absurd h (by simp)
    | cons f fs =>
      rw [hs] at h
      simp only [Except.ok.injEq] at h
      subst h
      simp only [pstArgs, modeArgs, stackArgs, frameArgs, hs, dirsArgs_append,
        List.mem_append, List.nil_append] at ha ⊢
      rcases ha with (h1 | h1) | h1
      · tauto
      · simp only [dirsArgs, dirArgs, List.append_nil] at h1
        rcases List.mem_append.mp h1 with h2 | h2
        · tauto
        · rcases levelOf_args a h2 with h3 | h3 <;> tauto
      · tauto

theorem pRun_argsSub {opts : ConfettiOptions} {st : PSt} {ts : List Tok} {st' : PSt}
    (h : pRun opts st ts = .ok st') :
    ∀ a ∈ pstArgs st', a ∈ pstArgs st ∨ ∃ t ∈ ts, a ∈ tokArgs t := by
  induction ts generalizing st with
  | nil =>
    simp only [pRun, Except.ok.injEq] at h
    subst h
    exact fun a ha => Or.inl ha
  | cons t ts ih =>
    rw [pRun_cons] at h
    cases h1 : pstep opts st t with
    | error e => rw [h1] at h; exact absurd h (by simp)
    | ok st1 =>
      rw [h1] at h
      dsimp only at h
      intro a ha
      rcases ih h a ha with h2 | ⟨t2, ht2, ha2⟩
      · rcases pstep_argsSub h1 a h2 with h3 | h3
        · exact Or.inl h3
        · exact Or.inr ⟨t, List.mem_cons_self t ts, h3⟩
      · exact Or.inr ⟨t2, List.mem_cons_of_mem t ht2, ha2⟩

end PyConfetti

namespace PyConfetti

/-- Parser-state well-formedness for the ≥1-argument invariant: completed
directives are well-formed and every open block has a nonempty argument
list for its parent directive. -/
def pstOk (st : PSt) : Prop :=
  dirsOk st.done = true ∧
    ∀ f ∈ st.stack, dirsOk f.siblings = true ∧ f.parentArgs ≠ []

theorem levelOf_ok {mode : PMode} {done : List Directive}
    (h : dirsOk done = true) : dirsOk (levelOf mode done) = true := by
  cases mode with
  | afterBlock => exact h
  | args cur =>
    cases cur with
    | nil => exact h
    | cons x xs =>
      simp only [levelOf, dirsOk_append, h, dirOk, dirsOk, List.isEmpty_cons,
        Bool.not_false, Bool.and_true, Bool.true_and]

theorem pstep_ok {opts : ConfettiOptions} {st : PSt} {t : Tok} {st' : PSt}
    (hI : pstOk st) (h : pstep opts st t = .ok st') : pstOk st' := by
  obtain ⟨hd, hf⟩ := hI
  cases t with
  | comment text off len =>
    simp only [pstep, Except.ok.injEq] at h
    subst h
    exact ⟨hd, hf⟩
  | term =>
    simp only [pstep, Except.ok.injEq] at h
    subst h
    exact ⟨levelOf_ok hd, hf⟩
  | arg v off len =>
    simp only [pstep] at h
    cases hm : st.mode with
    | afterBlock => rw [hm] at h; exact absurd h (by simp)
    | args cur =>
      rw [hm] at h
      simp only [Except.ok.injEq] at h
      subst h
      exact ⟨hd, hf⟩
  | lbrace off =>
    simp only [pstep] at h
    cases hm : st.mode with
    | afterBlock => rw [hm] at h; exact absurd h (by simp)
    | args cur =>
      rw [hm] at h
      cases cur with
      | nil => exact absurd h (by simp)
      | cons x xs =>
        split_ifs at h
        simp only [Except.ok.injEq] at h
        subst h
        refine ⟨rfl, ?_⟩
        intro f hmem
        rcases List.mem_cons.mp hmem with rfl | h2
        · exact ⟨hd, List.cons_ne_nil x xs⟩
        · exact hf f h2
  | rbrace off =>
    simp only [pstep] at h
    cases hs : st.stack with
    | nil => rw [hs] at h; exact absurd h (by simp)
    | cons f fs =>
      rw [hs] at h
      simp only [Except.ok.injEq] at h
      subst h
      obtain ⟨hsib, hpar⟩ := hf f (by simp [hs])
      refine ⟨?_, fun g hg => hf g (by simp [hs, hg])⟩
      cases hp : f.parentArgs with
      | nil => exact absurd hp hpar
      | cons a as =>
        simp [dirsOk_append, hsib, dirsOk, dirOk, hp, levelOf_ok hd]

theorem pRun_ok {opts : ConfettiOptions} {st : PSt} {ts : List Tok} {st' : PSt}
    (hI : pstOk st) (h : pRun opts st ts = .ok st') : pstOk st' := by
  induction ts generalizing st with
  | nil =>
    simp only [pRun, Except.ok.injEq] at h
    subst h
    exact hI
  | cons t ts ih =>
    rw [pRun_cons] at h
    cases h1 : pstep opts st t with
    | error e => rw [h1] at h; exact absurd h (by simp)
    | ok st1 =>
      rw [h1] at h
      dsimp only at h
      exact ih (pstep_ok hI h1) h

/-- C2, part of the span invariant (spec §3, §8): in a successfully parsed
unit every argument's half-open range lies inside the source. -/
theorem claim_C2 (opts : ConfettiOptions) (input : List Char) (u : ConfettiUnit)
    (h : parse opts input = .ok u) :
    ∀ a ∈ unitArgs u, a.offset + a.length ≤ input.length := by
  unfold parse at h
  cases h1 : lex opts input with
  | error e => rw [h1] at h; exact absurd h (by simp)
  | ok ts =>
    rw [h1] at h
    dsimp only at h
    cases h2 : pRun opts initPSt ts with
    | error e => rw [h2] at h; exact absurd h (by simp)
    | ok st =>
      rw [h2] at h
      dsimp only at h
      unfold pfinish at h
      cases hs : st.stack with
      | cons f fs => rw [hs] at h; exact absurd h (by simp)
      | nil =>
        rw [hs] at h
        simp only [Except.ok.injEq] at h
        subst h
        intro a ha
        simp only [unitArgs] at ha
        have hmem : a ∈ pstArgs st := by
          rcases levelOf_args a ha with h3 | h3 <;>
            simp [pstArgs, List.mem_append, h3]
        rcases pRun_argsSub h2 a hmem with h4 | ⟨t, ht, ha2⟩
        · simp [pstArgs, initPSt, modeArgs, stackArgs, dirsArgs] at h4
        · have hb := lex_bound h1 t ht
          cases t with
          | arg v o l =>
            simp only [tokArgs, List.mem_singleton] at ha2
            subst ha2
            exact hb
          | lbrace o => simp [tokArgs] at ha2
          | rbrace o => simp [tokArgs] at ha2
          | term => simp [tokArgs] at ha2
          | comment text o l => simp [tokArgs] at ha2

/-- Witness for C2 at the concrete input `a b` + LF. -/
theorem claim_C2_witness :
    (⟨['a'], 0, 1⟩ : Argument).offset + (⟨['a'], 0, 1⟩ : Argument).length ≤
      (("a b\n").data).length :=
  claim_C2 defOpts (("a b\n").data)
    ⟨[Directive.mk [⟨['a'], 0, 1⟩, ⟨['b'], 2, 1⟩] []], []⟩ rfl
    ⟨['a'], 0, 1⟩ (by simp [unitArgs, dirsArgs, dirArgs])

/-- C3: every directive in a successfully parsed unit has at least one
argument (spec §3 invariant), and an opening brace in argument position with
no preceding argument fails the parse with `UnexpectedOpeningBrace`
(spec §4.3). -/
theorem claim_C3 :
    (∀ (opts : ConfettiOptions) (input : List Char) (u : ConfettiUnit),
        parse opts input = .ok u → dirsOk u.directives = true) ∧
      parse defOpts (("\x7b x \x7d\n").data) =
        .error ⟨.UnexpectedOpeningBrace, 0⟩ := by
  constructor
  · intro opts input u h
    unfold parse at h
    cases h1 : lex opts input with
    | error e => rw [h1] at h; exact absurd h (by simp)
    | ok ts =>
      rw [h1] at h
      dsimp only at h
      cases h2 : pRun opts initPSt ts with
      | error e => rw [h2] at h; exact absurd h (by simp)
      | ok st =>
        rw [h2] at h
        dsimp only at h
        unfold pfinish at h
        cases hs : st.stack with
        | cons f fs => rw [hs] at h; exact absurd h (by simp)
        | nil =>
          rw [hs] at h
          simp only [Except.ok.injEq] at h
          subst h
          have hInit : pstOk initPSt := ⟨rfl, by intro f hf; cases hf⟩
          exact levelOf_ok (pRun_ok hInit h2).1
  · rfl

/-- Witness for C3 at the concrete input `a b` + LF. -/
theorem claim_C3_witness :
    dirsOk [Directive.mk [⟨['a'], 0, 1⟩, ⟨['b'], 2, 1⟩] []] = true :=
  claim_C3.1 defOpts (("a b\n").data)
    ⟨[Directive.mk [⟨['a'], 0, 1⟩, ⟨['b'], 2, 1⟩] []], []⟩ rfl

end PyConfetti

namespace PyConfetti

/-- C4: whenever the token stream of an input leaves the parser inside an
open block at EOF, the parse fails with `UnclosedBlock` at the EOF offset
(spec §4.3); no AST is surfaced, the error being the entire result
(spec §7).  Concretely, the spec §8 scenario 5 input `server LBRACE LF host
localhost LF` with no closing brace fails with `UnclosedBlock` at offset 25
(= the input length). -/
theorem claim_C4 :
    (∀ (opts : ConfettiOptions) (input : List Char) (ts : List Tok) (st : PSt),
        lex opts input = .ok ts → pRun opts initPSt ts = .ok st →
        st.stack ≠ [] →
        parse opts input = .error ⟨.UnclosedBlock, input.length⟩) ∧
      parse defOpts (("server \x7b\n host localhost\n").data) =
        .error ⟨.UnclosedBlock, 25⟩ := by
  constructor
  · intro opts input ts st h1 h2 hne
    unfold parse
    rw [h1]
    dsimp only
    rw [h2]
    dsimp only
    unfold pfinish
    cases hs : st.stack with
    | nil => exact absurd hs hne
    | cons f fs => rfl
  · rfl

/-- Witness for C4: the general statement applied at the scenario 5 input,
its token stream, and its final parser state. -/
theorem claim_C4_witness :
    parse defOpts (("server \x7b\n host localhost\n").data) =
      .error ⟨.UnclosedBlock, (("server \x7b\n host localhost\n").data).length⟩ :=
  claim_C4.1 defOpts (("server \x7b\n host localhost\n").data)
    [.arg (['s', 'e', 'r', 'v', 'e', 'r']) 0 6, .lbrace 7, .term,
     .arg (['h', 'o', 's', 't']) 10 4,
     .arg (['l', 'o', 'c', 'a', 'l', 'h', 'o', 's', 't']) 15 9, .term]
    ⟨.args [],
     [Directive.mk [⟨['h', 'o', 's', 't'], 10, 4⟩,
        ⟨['l', 'o', 'c', 'a', 'l', 'h', 'o', 's', 't'], 15, 9⟩] []],
     [⟨[⟨['s', 'e', 'r', 'v', 'e', 'r'], 0, 6⟩], []⟩], []⟩
    rfl rfl (List.cons_ne_nil _ _)

end PyConfetti

namespace PyConfetti

/-- The options with C-style comments enabled. -/
def cStyleOpts : ConfettiOptions := { c_style_comments := true }

/-- C6: a `/* ... */` block comment fails the parse with a `ParseError` under
the default options (pinned by `tests.py::test_custom_options`); with
`c_style_comments` on, the spec §8 scenario 6 input parses to one `server`
directive with one child while the comment's interior text `" c "` is
recorded as a `Comment`, the directive tree matching that of the same input
without the comment; an unterminated block comment fails with
`UnterminatedComment` (spec §6). -/
theorem claim_C6 :
    parse defOpts (("/* c */ server \x7b host h \x7d\n").data) =
        .error ⟨.CStyleCommentsDisabled, 0⟩ ∧
      parse cStyleOpts (("/* c */ server \x7b host h \x7d\n").data) =
        .ok ⟨[Directive.mk [⟨("server").data, 8, 6⟩]
                [Directive.mk [⟨("host").data, 17, 4⟩, ⟨("h").data, 22, 1⟩] []]],
             [⟨(" c ").data, 0, 7⟩]⟩ ∧
      (match parse cStyleOpts (("/* c */ server \x7b host h \x7d\n").data),
             parse cStyleOpts (("server \x7b host h \x7d\n").data) with
        | .ok u1, .ok u2 => stripList u1.directives = stripList u2.directives
        | _, _ => False) ∧
      parse cStyleOpts (("/* x").data) = .error ⟨.UnterminatedComment, 4⟩ :=
  ⟨rfl, rfl, rfl, rfl⟩

/-- C10: in the `tests.py::test_parse_with_comments` configuration, the one
whole-line `#` comment and the two inline `#` comments after directive
arguments all land in `Unit.comments` in source order — exactly three
entries — and the inline comments neither join the directives' arguments
nor cut a directive short. -/
theorem claim_C10 :
    parse defOpts (("\n        # This is a comment\n        server \x7b\n            host localhost  # Host directive\n            port 8080       # Port directive\n        \x7d\n        ").data) =
        .ok ⟨[Directive.mk [⟨("server").data, 37, 6⟩]
                [Directive.mk [⟨("host").data, 58, 4⟩, ⟨("localhost").data, 63, 9⟩] [],
                 Directive.mk [⟨("port").data, 103, 4⟩, ⟨("8080").data, 108, 4⟩] []]],
             [⟨(" This is a comment").data, 9, 19⟩,
              ⟨(" Host directive").data, 74, 16⟩,
              ⟨(" Port directive").data, 119, 16⟩]⟩ ∧
      (match parse defOpts (("\n        # This is a comment\n        server \x7b\n            host localhost  # Host directive\n            port 8080       # Port directive\n        \x7d\n        ").data) with
        | .ok u => u.comments.length = 3
        | .error _ => False) :=
  ⟨rfl, rfl⟩

end PyConfetti

namespace PyConfetti

/-- Modes that can legitimately carry a pending CRLF-swallow flag: only a CR
consumed as a terminator (back to between-token position) or as a line
continuation (bare argument or quoted body continues) sets it. -/
def skipCompat (m : LexMode) : Prop :=
  match m with
  | .normal _ => True
  | .bare _ _ cont => cont = true
  | .quoted _ _ _ => True
  | _ => False

/-- The reachability invariant for the `skipLF` flag. -/
def skipInv (st : LexSt) : Prop := st.skipLF = true → skipCompat st.mode

theorem stepNormal_sk {pos : Nat} {c : Char} {m : LexMode} {ts : List Tok} {sk : Bool}
    (h : stepNormal pos c = .ok (m, ts, sk)) (hsk : sk = true) : skipCompat m := by
  unfold stepNormal at h
  cases hc : classify c <;>
    simp only [hc, reduceCtorEq, Except.ok.injEq, Prod.mk.injEq] at h <;>
    obtain ⟨h1, h2, h3⟩ := h <;> subst h1 <;>
    simp_all [skipCompat]

theorem stepBare_sk {pos start : Nat} {acc : List Char} {c : Char} {m : LexMode}
    {ts : List Tok} {sk : Bool}
    (h : stepBare pos start acc c = .ok (m, ts, sk)) (hsk : sk = true) : skipCompat m := by
  unfold stepBare at h
  cases hc : classify c <;>
    simp only [hc, reduceCtorEq, Except.ok.injEq, Prod.mk.injEq] at h <;>
    obtain ⟨h1, h2, h3⟩ := h <;> subst h1 <;>
    simp_all [skipCompat]

theorem lexStep_skipInv {opts : ConfettiOptions} {st : LexSt} {c : Char} {st' : LexSt}
    {ts : List Tok} (h : lexStep opts st c = .ok (st', ts)) : skipInv st' := by
  obtain ⟨pos, skip, mode⟩ := st
  unfold lexStep at h
  split at h
  · simp only [Except.ok.injEq, Prod.mk.injEq] at h
    obtain ⟨h1, h2⟩ := h
    subst h1
    intro hsk
    simp at hsk
  · cases mode with
    | normal cont =>
      dsimp only at h
      obtain ⟨m, sk, hr, rfl⟩ := packE_ok h
      intro hsk
      exact stepNormal_sk hr hsk
    | bare start acc cont =>
      dsimp only at h
      obtain ⟨m, sk, hr, rfl⟩ := packE_ok h
      intro hsk
      exact stepBare_sk hr hsk
    | q2 delim start =>
      dsimp only at h
      split_ifs at h
      · obtain ⟨m, sk, hr, rfl⟩ := packE_ok h
        simp only [Except.ok.injEq, Prod.mk.injEq] at hr
        obtain ⟨hm, hts, hsk'⟩ := hr
        subst hm
        intro hsk
        simp [← hsk'] at hsk
      · cases hr : stepNormal pos c with
        | error e => rw [hr] at h; exact absurd h (by simp)
        | ok p =>
          obtain ⟨m, ts1, sk⟩ := p
          rw [hr] at h
          simp only [Except.ok.injEq, Prod.mk.injEq] at h
          obtain ⟨h1, h2⟩ := h
          subst h1
          intro hsk
          exact stepNormal_sk hr hsk
    | slash start =>
      dsimp only at h
      split_ifs at h <;> try (simp only [reduceCtorEq] at h)
      · obtain ⟨m, sk, hr, rfl⟩ := packE_ok h
        simp only [Except.ok.injEq, Prod.mk.injEq] at hr
        obtain ⟨hm, hts, hsk'⟩ := hr
        subst hm
        intro hsk
        simp [← hsk'] at hsk
      · obtain ⟨m, sk, hr, rfl⟩ := packE_ok h
        simp only [Except.ok.injEq, Prod.mk.injEq] at hr
        obtain ⟨hm, hts, hsk'⟩ := hr
        subst hm
        intro hsk
        simp [← hsk'] at hsk
      · obtain ⟨m, sk, hr, rfl⟩ := packE_ok h
        intro hsk
        exact stepBare_sk hr hsk
    | bareEsc start acc =>
      dsimp only at h
      split_ifs at h <;> try (simp only [reduceCtorEq] at h)
      all_goals obtain ⟨m, sk, hr, rfl⟩ := packE_ok h
      all_goals simp only [Except.ok.injEq, Prod.mk.injEq] at hr
      all_goals obtain ⟨hm, hts, hsk'⟩ := hr
      all_goals subst hm
      all_goals intro hsk
      all_goals simp only [skipCompat]
      all_goals try trivial
      all_goals simp [← hsk'] at hsk
    | q1 delim start =>
      dsimp only at h
      split_ifs at h <;> try (simp only [reduceCtorEq] at h)
      all_goals obtain ⟨m, sk, hr, rfl⟩ := packE_ok h
      all_goals simp only [Except.ok.injEq, Prod.mk.injEq] at hr
      all_goals obtain ⟨hm, hts, hsk'⟩ := hr
      all_goals subst hm
      all_goals intro hsk
      all_goals simp only [skipCompat]
      all_goals try trivial
      all_goals simp [← hsk'] at hsk
    | quoted delim start acc =>
      dsimp only at h
      split_ifs at h <;> try (simp only [reduceCtorEq] at h)
      all_goals obtain ⟨m, sk, hr, rfl⟩ := packE_ok h
      all_goals simp only [Except.ok.injEq, Prod.mk.injEq] at hr
      all_goals obtain ⟨hm, hts, hsk'⟩ := hr
      all_goals subst hm
      all_goals intro hsk
      all_goals simp only [skipCompat]
      all_goals try trivial
      all_goals simp [← hsk'] at hsk
    | quotedEsc delim start acc =>
      dsimp only at h
      split_ifs at h <;> try (simp only [reduceCtorEq] at h)
      all_goals obtain ⟨m, sk, hr, rfl⟩ := packE_ok h
      all_goals simp only [Except.ok.injEq, Prod.mk.injEq] at hr
      all_goals obtain ⟨hm, hts, hsk'⟩ := hr
      all_goals subst hm
      all_goals intro hsk
      all_goals simp only [skipCompat]
      all_goals try trivial
      all_goals simp [← hsk'] at hsk
    | triple delim start acc closeCnt =>
      dsimp only at h
      split_ifs at h <;> try (simp only [reduceCtorEq] at h)
      all_goals obtain ⟨m, sk, hr, rfl⟩ := packE_ok h
      all_goals simp only [Except.ok.injEq, Prod.mk.injEq] at hr
      all_goals obtain ⟨hm, hts, hsk'⟩ := hr
      all_goals subst hm
      all_goals intro hsk
      all_goals simp only [skipCompat]
      all_goals try trivial
      all_goals simp [← hsk'] at hsk
    | comment start acc =>
      dsimp only at h
      split_ifs at h <;> try (simp only [reduceCtorEq] at h)
      all_goals obtain ⟨m, sk, hr, rfl⟩ := packE_ok h
      all_goals simp only [Except.ok.injEq, Prod.mk.injEq] at hr
      all_goals obtain ⟨hm, hts, hsk'⟩ := hr
      all_goals subst hm
      all_goals intro hsk
      all_goals simp only [skipCompat]
      all_goals try trivial
      all_goals simp [← hsk'] at hsk
    | blockComment start acc sawStar =>
      dsimp only at h
      split_ifs at h <;> try (simp only [reduceCtorEq] at h)
      all_goals obtain ⟨m, sk, hr, rfl⟩ := packE_ok h
      all_goals simp only [Except.ok.injEq, Prod.mk.injEq] at hr
      all_goals obtain ⟨hm, hts, hsk'⟩ := hr
      all_goals subst hm
      all_goals intro hsk
      all_goals simp only [skipCompat]
      all_goals try trivial
      all_goals simp [← hsk'] at hsk

theorem lexRun_skipInv {opts : ConfettiOptions} {st : LexSt} {cs : List Char}
    {st' : LexSt} {ts : List Tok} (hI : skipInv st)
    (h : lexRun opts st cs = .ok (st', ts)) : skipInv st' := by
  induction cs generalizing st ts with
  | nil =>
    simp only [lexRun, Except.ok.injEq, Prod.mk.injEq] at h
    obtain ⟨h1, h2⟩ := h
    subst h1
    exact hI
  | cons c cs ih =>
    simp only [lexRun] at h
    cases h1 : lexStep opts st c with
    | error e => rw [h1] at h; exact absurd h (by simp)
    | ok p =>
      obtain ⟨st1, ts1⟩ := p
      rw [h1] at h
      dsimp only at h
      cases h2 : lexRun opts st1 cs with
      | error e => rw [h2] at h; exact absurd h (by simp)
      | ok q =>
        obtain ⟨st2, ts2⟩ := q
        rw [h2] at h
        dsimp only at h
        simp only [Except.ok.injEq, Prod.mk.injEq] at h
        obtain ⟨h3, h4⟩ := h
        subst h3
        exact ih (lexStep_skipInv h1) h2

end PyConfetti

namespace PyConfetti

/-- Quoting modes only ever carry an actual quote character as delimiter. -/
def delimOk (m : LexMode) : Prop :=
  match m with
  | .q1 d _ => d = '"' ∨ d = '\''
  | .quoted d _ _ => d = '"' ∨ d = '\''
  | .quotedEsc d _ _ => d = '"' ∨ d = '\''
  | .q2 d _ => d = '"' ∨ d = '\''
  | .triple d _ _ _ => d = '"' ∨ d = '\''
  | _ => True

theorem classify_quote {c : Char} (h : classify c = .quoteC) : c = '"' ∨ c = '\'' := by
  unfold classify at h
  split_ifs at h <;> simp_all

theorem stepNormal_delim {pos : Nat} {c : Char} {m : LexMode} {ts : List Tok} {sk : Bool}
    (h : stepNormal pos c = .ok (m, ts, sk)) : delimOk m := by
  unfold stepNormal at h
  cases hc : classify c <;>
    simp only [hc, reduceCtorEq, Except.ok.injEq, Prod.mk.injEq] at h <;>
    obtain ⟨h1, h2, h3⟩ := h <;> subst h1 <;>
    first
      | exact classify_quote hc
      | trivial

theorem stepBare_delim {pos start : Nat} {acc : List Char} {c : Char} {m : LexMode}
    {ts : List Tok} {sk : Bool}
    (h : stepBare pos start acc c = .ok (m, ts, sk)) : delimOk m := by
  unfold stepBare at h
  cases hc : classify c <;>
    simp only [hc, reduceCtorEq, Except.ok.injEq, Prod.mk.injEq] at h <;>
    obtain ⟨h1, h2, h3⟩ := h <;> subst h1 <;>
    first
      | exact classify_quote hc
      | trivial

theorem lexStep_delimOk {opts : ConfettiOptions} {st : LexSt} {c : Char} {st' : LexSt}
    {ts : List Tok} (hI : delimOk st.mode)
    (h : lexStep opts st c = .ok (st', ts)) : delimOk st'.mode := by
  obtain ⟨pos, skip, mode⟩ := st
  unfold lexStep at h
  split at h
  · simp only [Except.ok.injEq, Prod.mk.injEq] at h
    obtain ⟨h1, h2⟩ := h
    subst h1
    exact hI
  · cases mode with
    | normal cont =>
      dsimp only at h
      obtain ⟨m, sk, hr, rfl⟩ := packE_ok h
      exact stepNormal_delim hr
    | bare start acc cont =>
      dsimp only at h
      obtain ⟨m, sk, hr, rfl⟩ := packE_ok h
      exact stepBare_delim hr
    | q2 delim start =>
      dsimp only at h hI
      split_ifs at h
      · obtain ⟨m, sk, hr, rfl⟩ := packE_ok h
        simp only [Except.ok.injEq, Prod.mk.injEq] at hr
        obtain ⟨hm, hts, hsk'⟩ := hr
        subst hm
        exact hI
      · cases hr : stepNormal pos c with
        | error e => rw [hr] at h; exact absurd h (by simp)
        | ok p =>
          obtain ⟨m, ts1, sk⟩ := p
          rw [hr] at h
          simp only [Except.ok.injEq, Prod.mk.injEq] at h
          obtain ⟨h1, h2⟩ := h
          subst h1
          exact stepNormal_delim hr
    | slash start =>
      dsimp only at h
      split_ifs at h <;> try (simp only [reduceCtorEq] at h)
      · obtain ⟨m, sk, hr, rfl⟩ := packE_ok h
        simp only [Except.ok.injEq, Prod.mk.injEq] at hr
        obtain ⟨hm, hts, hsk'⟩ := hr
        subst hm
        trivial
      · obtain ⟨m, sk, hr, rfl⟩ := packE_ok h
        simp only [Except.ok.injEq, Prod.mk.injEq] at hr
        obtain ⟨hm, hts, hsk'⟩ := hr
        subst hm
        trivial
      · obtain ⟨m, sk, hr, rfl⟩ := packE_ok h
        exact stepBare_delim hr
    | bareEsc start acc =>
      dsimp only at h hI
      split_ifs at h <;> try (simp only [reduceCtorEq] at h)
      all_goals obtain ⟨m, sk, hr, rfl⟩ := packE_ok h
      all_goals simp only [Except.ok.injEq, Prod.mk.injEq] at hr
      all_goals obtain ⟨hm, hts, hsk'⟩ := hr
      all_goals subst hm
      all_goals trivial
    | q1 delim start =>
      dsimp only at h hI
      split_ifs at h <;> try (simp only [reduceCtorEq] at h)
      all_goals obtain ⟨m, sk, hr, rfl⟩ := packE_ok h
      all_goals simp only [Except.ok.injEq, Prod.mk.injEq] at hr
      all_goals obtain ⟨hm, hts, hsk'⟩ := hr
      all_goals subst hm
      all_goals exact hI
    | quoted delim start acc =>
      dsimp only at h hI
      split_ifs at h <;> try (simp only [reduceCtorEq] at h)
      all_goals obtain ⟨m, sk, hr, rfl⟩ := packE_ok h
      all_goals simp only [Except.ok.injEq, Prod.mk.injEq] at hr
      all_goals obtain ⟨hm, hts, hsk'⟩ := hr
      all_goals subst hm
      all_goals first
        | trivial
        | exact hI
    | quotedEsc delim start acc =>
      dsimp only at h hI
      split_ifs at h <;> try (simp only [reduceCtorEq] at h)
      all_goals obtain ⟨m, sk, hr, rfl⟩ := packE_ok h
      all_goals simp only [Except.ok.injEq, Prod.mk.injEq] at hr
      all_goals obtain ⟨hm, hts, hsk'⟩ := hr
      all_goals subst hm
      all_goals exact hI
    | triple delim start acc closeCnt =>
      dsimp only at h hI
      split_ifs at h <;> try (simp only [reduceCtorEq] at h)
      all_goals obtain ⟨m, sk, hr, rfl⟩ := packE_ok h
      all_goals simp only [Except.ok.injEq, Prod.mk.injEq] at hr
      all_goals obtain ⟨hm, hts, hsk'⟩ := hr
      all_goals subst hm
      all_goals first
        | trivial
        | exact hI
    | comment start acc =>
      dsimp only at h
      split_ifs at h <;> try (simp only [reduceCtorEq] at h)
      all_goals obtain ⟨m, sk, hr, rfl⟩ := packE_ok h
      all_goals simp only [Except.ok.injEq, Prod.mk.injEq] at hr
      all_goals obtain ⟨hm, hts, hsk'⟩ := hr
      all_goals subst hm
      all_goals trivial
    | blockComment start acc sawStar =>
      dsimp only at h
      split_ifs at h <;> try (simp only [reduceCtorEq] at h)
      all_goals obtain ⟨m, sk, hr, rfl⟩ := packE_ok h
      all_goals simp only [Except.ok.injEq, Prod.mk.injEq] at hr
      all_goals obtain ⟨hm, hts, hsk'⟩ := hr
      all_goals subst hm
      all_goals trivial

theorem lexRun_delimOk {opts : ConfettiOptions} {st : LexSt} {cs : List Char}
    {st' : LexSt} {ts : List Tok} (hI : delimOk st.mode)
    (h : lexRun opts st cs = .ok (st', ts)) : delimOk st'.mode := by
  induction cs generalizing st ts with
  | nil =>
    simp only [lexRun, Except.ok.injEq, Prod.mk.injEq] at h
    obtain ⟨h1, h2⟩ := h
    subst h1
    exact hI
  | cons c cs ih =>
    simp only [lexRun] at h
    cases h1 : lexStep opts st c with
    | error e => rw [h1] at h; exact absurd h (by simp)
    | ok p =>
      obtain ⟨st1, ts1⟩ := p
      rw [h1] at h
      dsimp only at h
      cases h2 : lexRun opts st1 cs with
      | error e => rw [h2] at h; exact absurd h (by simp)
      | ok q =>
        obtain ⟨st2, ts2⟩ := q
        rw [h2] at h
        dsimp only at h
        simp only [Except.ok.injEq, Prod.mk.injEq] at h
        obtain ⟨h3, h4⟩ := h
        subst h3
        exact ih (lexStep_delimOk hI h1) h2

end PyConfetti

namespace PyConfetti

theorem newlineStep {opts : ConfettiOptions} {st : LexSt} {ts2 : List Tok}
    (hsk : skipInv st) (hdl : delimOk st.mode) (hfin : lexFinish st = .ok ts2) :
    ∃ st2 ts3 ts4, lexStep opts st '\n' = .ok (st2, ts3) ∧ lexFinish st2 = .ok ts4 ∧
      (ts3 ++ ts4 = ts2 ∨ ts3 ++ ts4 = ts2 ++ [Tok.term]) := by
  obtain ⟨pos, skip, mode⟩ := st
  cases mode with
  | normal cont =>
    unfold lexFinish at hfin
    dsimp only at hfin
    cases cont with
    | true => simp at hfin
    | false =>
      simp only [if_neg, Bool.false_eq_true, not_false_iff, Except.ok.injEq] at hfin
      subst hfin
      cases skip with
      | true =>
        exact ⟨⟨pos + 1, false, .normal false⟩, [], [], rfl, rfl, Or.inl rfl⟩
      | false =>
        exact ⟨⟨pos + 1, false, .normal false⟩, [.term], [], rfl, rfl, Or.inr rfl⟩
  | bare start acc cont =>
    unfold lexFinish at hfin
    dsimp only at hfin
    cases cont with
    | true => simp at hfin
    | false =>
      simp only [if_neg, Bool.false_eq_true, not_false_iff, Except.ok.injEq] at hfin
      subst hfin
      cases skip with
      | true => exact absurd (hsk rfl) (by simp [skipCompat])
      | false =>
        exact ⟨⟨pos + 1, false, .normal false⟩,
          [.arg acc start (pos - start), .term], [], rfl, rfl, Or.inr rfl⟩
  | bareEsc start acc => simp [lexFinish] at hfin
  | q1 delim start => simp [lexFinish] at hfin
  | quoted delim start acc => simp [lexFinish] at hfin
  | quotedEsc delim start acc => simp [lexFinish] at hfin
  | triple delim start acc closeCnt => simp [lexFinish] at hfin
  | blockComment start acc sawStar => simp [lexFinish] at hfin
  | q2 delim start =>
    unfold lexFinish at hfin
    dsimp only at hfin
    simp only [Except.ok.injEq] at hfin
    subst hfin
    cases skip with
    | true => exact absurd (hsk rfl) (by simp [skipCompat])
    | false =>
      rcases hdl with rfl | rfl
      · exact ⟨⟨pos + 1, false, .normal false⟩, [.arg [] start 2, .term], [],
          rfl, rfl, Or.inr rfl⟩
      · exact ⟨⟨pos + 1, false, .normal false⟩, [.arg [] start 2, .term], [],
          rfl, rfl, Or.inr rfl⟩
  | comment start acc =>
    unfold lexFinish at hfin
    dsimp only at hfin
    simp only [Except.ok.injEq] at hfin
    subst hfin
    cases skip with
    | true => exact absurd (hsk rfl) (by simp [skipCompat])
    | false =>
      exact ⟨⟨pos + 1, false, .normal false⟩,
        [.comment acc start (pos - start), .term], [], rfl, rfl, Or.inr rfl⟩
  | slash start =>
    unfold lexFinish at hfin
    dsimp only at hfin
    simp only [Except.ok.injEq] at hfin
    subst hfin
    cases skip with
    | true => exact absurd (hsk rfl) (by simp [skipCompat])
    | false =>
      exact ⟨⟨pos + 1, false, .normal false⟩,
        [.arg ['/'] start (pos - start), .term], [], rfl, rfl, Or.inr rfl⟩

end PyConfetti

namespace PyConfetti

theorem lexAppendNewline {opts : ConfettiOptions} {input : List Char} {ts : List Tok}
    (h : lex opts input = .ok ts) :
    lex opts (input ++ ['\n']) = .ok ts ∨
      lex opts (input ++ ['\n']) = .ok (ts ++ [Tok.term]) := by
  have main : ∀ (st0 : LexSt) (rest : List Char),
      skipInv st0 → delimOk st0.mode →
      (match lexRun opts st0 rest with
        | Except.error e => Except.error e
        | Except.ok (st, ts1) =>
          match lexFinish st with
          | Except.error e => Except.error e
          | Except.ok ts2 => Except.ok (ts1 ++ ts2)) = Except.ok ts →
      (match lexRun opts st0 (rest ++ ['\n']) with
        | Except.error e => Except.error e
        | Except.ok (st, ts1) =>
          match lexFinish st with
          | Except.error e => Except.error e
          | Except.ok ts2 => Except.ok (ts1 ++ ts2)) = Except.ok ts ∨
      (match lexRun opts st0 (rest ++ ['\n']) with
        | Except.error e => Except.error e
        | Except.ok (st, ts1) =>
          match lexFinish st with
          | Except.error e => Except.error e
          | Except.ok ts2 => Except.ok (ts1 ++ ts2)) = Except.ok (ts ++ [Tok.term]) := by
    intro st0 rest hski hdli hm
    cases h1 : lexRun opts st0 rest with
    | error e => rw [h1] at hm; exact absurd hm (by simp)
    | ok p =>
      obtain ⟨st1, ts1⟩ := p
      rw [h1] at hm
      dsimp only at hm
      cases h2 : lexFinish st1 with
      | error e => rw [h2] at hm; exact absurd hm (by simp)
      | ok ts2 =>
        rw [h2] at hm
        dsimp only at hm
        simp only [Except.ok.injEq] at hm
        subst hm
        have hsk1 : skipInv st1 := lexRun_skipInv hski h1
        have hdl1 : delimOk st1.mode := lexRun_delimOk hdli h1
        obtain ⟨st2, ts3, ts4, hstep, hfin2, hd⟩ := @newlineStep opts _ _ hsk1 hdl1 h2
        have hrun : lexRun opts st0 (rest ++ ['\n']) = .ok (st2, ts1 ++ ts3) := by
          rw [lexRun_append, h1]
          dsimp only
          have : lexRun opts st1 ['\n'] = .ok (st2, ts3) := by
            simp only [lexRun, hstep]
            simp
          rw [this]
        rw [hrun]
        dsimp only
        rw [hfin2]
        dsimp only
        rcases hd with hd | hd
        · left
          rw [List.append_assoc, hd]
        · right
          rw [List.append_assoc, hd, ← List.append_assoc]
  unfold lex at h ⊢
  cases input with
  | nil =>
    simp only [List.nil_append]
    dsimp only at h ⊢
    have hnb : ¬('\n' = bomChar) := by decide
    rw [if_neg hnb]
    exact main initLexSt [] (by intro hf; simp [initLexSt] at hf) trivial h
  | cons c cs =>
    simp only [List.cons_append]
    dsimp only at h ⊢
    by_cases hbom : c = bomChar
    · rw [if_pos hbom] at h ⊢
      exact main ⟨1, false, .normal false⟩ cs
        (by intro hf; simp at hf) trivial h
    · rw [if_neg hbom] at h ⊢
      have := main initLexSt (c :: cs) (by intro hf; simp [initLexSt] at hf) trivial h
      simpa only [List.cons_append] using this

end PyConfetti

namespace PyConfetti

theorem pfinish_term {opts : ConfettiOptions} {n m : Nat} {st : PSt} {u : ConfettiUnit}
    (h : pfinish n st = .ok u) :
    ∃ st', pstep opts st .term = .ok st' ∧ pfinish m st' = .ok u := by
  unfold pfinish at h
  cases hs : st.stack with
  | cons f fs => rw [hs] at h; exact absurd h (by simp)
  | nil =>
    rw [hs] at h
    simp only [Except.ok.injEq] at h
    subst h
    refine ⟨{ st with mode := .args [], done := levelOf st.mode st.done }, rfl, ?_⟩
    unfold pfinish
    dsimp only
    rw [hs]
    rfl

theorem pfinish_ok_any {n m : Nat} {st : PSt} {u : ConfettiUnit}
    (h : pfinish n st = .ok u) : pfinish m st = .ok u := by
  unfold pfinish at h ⊢
  cases hs : st.stack with
  | cons f fs => rw [hs] at h; exact absurd h (by simp)
  | nil =>
    rw [hs] at h
    exact h

theorem parse_append_newline {opts : ConfettiOptions} {input : List Char}
    {u : ConfettiUnit} (h : parse opts input = .ok u) :
    parse opts (input ++ ['\n']) = .ok u := by
  unfold parse at h ⊢
  cases h1 : lex opts input with
  | error e => rw [h1] at h; exact absurd h (by simp)
  | ok ts =>
    rw [h1] at h
    dsimp only at h
    cases h2 : pRun opts initPSt ts with
    | error e => rw [h2] at h; exact absurd h (by simp)
    | ok st =>
      rw [h2] at h
      dsimp only at h
      rcases lexAppendNewline h1 with h3 | h3
      · rw [h3]
        dsimp only
        rw [h2]
        dsimp only
        exact pfinish_ok_any h
      · rw [h3]
        dsimp only
        obtain ⟨st', hstep, hfin⟩ := @pfinish_term opts _ ((input ++ ['\n']).length) _ _ h
        rw [pRun_append, h2]
        dsimp only
        rw [pRun_cons, hstep]
        dsimp only [pRun]
        exact hfin

/-- C5: appending a single trailing newline to a successfully parsed input
leaves the parse result — in particular the flat sequence of argument
values — unchanged (spec §8 quantified invariants; the conformance runner
normalizes inputs this way in `run_test_suite.py`). -/
theorem claim_C5 (opts : ConfettiOptions) (input : List Char) (u : ConfettiUnit)
    (h : parse opts input = .ok u) :
    ∃ u', parse opts (input ++ ['\n']) = .ok u' ∧
      unitArgValues u' = unitArgValues u :=
  ⟨u, parse_append_newline h, rfl⟩

/-- Witness for C5 at the newline-less input `a b`. -/
theorem claim_C5_witness :
    ∃ u', parse defOpts ((("a b").data) ++ ['\n']) = .ok u' ∧
      unitArgValues u' =
        unitArgValues ⟨[Directive.mk [⟨['a'], 0, 1⟩, ⟨['b'], 2, 1⟩] []], []⟩ :=
  claim_C5 defOpts (("a b").data)
    ⟨[Directive.mk [⟨['a'], 0, 1⟩, ⟨['b'], 2, 1⟩] []], []⟩ rfl

end PyConfetti

namespace PyConfetti

/-- The characters `a{` repeated `n` times: `n` nested block openers. -/
def openChars : Nat → List Char
  | 0 => []
  | n + 1 => 'a' :: '{' :: openChars n

/-- A maximally nested input of block depth `n`:
`a{` × n, then `x`, then `}` × n, then LF. -/
def depthInput (n : Nat) : List Char :=
  openChars n ++ ['x'] ++ List.replicate n '}' ++ ['\n']

/-- The token stream of `openChars`. -/
def openToks : Nat → Nat → List Tok
  | _, 0 => []
  | p, n + 1 => .arg ['a'] p 1 :: .lbrace (p + 1) :: openToks (p + 2) n

/-- The token stream of a run of closing braces. -/
def closeToks : Nat → Nat → List Tok
  | _, 0 => []
  | p, n + 1 => .rbrace p :: closeToks (p + 1) n

theorem step_bare_open {opts : ConfettiOptions} {p : Nat} :
    lexStep opts ⟨p, false, .normal false⟩ 'a' =
      .ok (⟨p + 1, false, .bare p ['a'] false⟩, []) := rfl

theorem step_x_open {opts : ConfettiOptions} {p : Nat} :
    lexStep opts ⟨p, false, .normal false⟩ 'x' =
      .ok (⟨p + 1, false, .bare p ['x'] false⟩, []) := rfl

theorem step_lbrace {opts : ConfettiOptions} {p start : Nat} {acc : List Char} :
    lexStep opts ⟨p, false, .bare start acc false⟩ '{' =
      .ok (⟨p + 1, false, .normal false⟩, [.arg acc start (p - start), .lbrace p]) := rfl

theorem step_rbrace_bare {opts : ConfettiOptions} {p start : Nat} {acc : List Char} :
    lexStep opts ⟨p, false, .bare start acc false⟩ '}' =
      .ok (⟨p + 1, false, .normal false⟩, [.arg acc start (p - start), .rbrace p]) := rfl

theorem step_rbrace_normal {opts : ConfettiOptions} {p : Nat} :
    lexStep opts ⟨p, false, .normal false⟩ '}' =
      .ok (⟨p + 1, false, .normal false⟩, [.rbrace p]) := rfl

theorem step_lf_normal {opts : ConfettiOptions} {p : Nat} :
    lexStep opts ⟨p, false, .normal false⟩ '\n' =
      .ok (⟨p + 1, false, .normal false⟩, [.term]) := rfl

theorem lexRun_openChars (opts : ConfettiOptions) :
    ∀ (n p : Nat), lexRun opts ⟨p, false, .normal false⟩ (openChars n) =
      .ok (⟨p + 2 * n, false, .normal false⟩, openToks p n) := by
  intro n
  induction n with
  | zero => intro p; simp [openChars, openToks, lexRun]
  | succ n ih =>
    intro p
    show lexRun opts _ ('a' :: '{' :: openChars n) = _
    simp only [lexRun, step_bare_open, step_lbrace, ih (p + 2)]
    simp only [openToks, Nat.add_sub_cancel_left, List.nil_append, List.cons_append,
      Except.ok.injEq, Prod.mk.injEq, LexSt.mk.injEq]
    refine ⟨⟨by omega, by trivial, by trivial⟩, by simp⟩

theorem lexRun_closeChars (opts : ConfettiOptions) :
    ∀ (n p : Nat), lexRun opts ⟨p, false, .normal false⟩ (List.replicate n '}') =
      .ok (⟨p + n, false, .normal false⟩, closeToks p n) := by
  intro n
  induction n with
  | zero => intro p; simp [closeToks, lexRun]
  | succ n ih =>
    intro p
    show lexRun opts _ ('}' :: List.replicate n '}') = _
    simp only [lexRun, step_rbrace_normal, ih (p + 1)]
    simp only [closeToks, Except.ok.injEq, Prod.mk.injEq, LexSt.mk.injEq]
    refine ⟨⟨by omega, by trivial, by trivial⟩, by simp⟩

theorem lex_depthInput (opts : ConfettiOptions) (n : Nat) (hn : 1 ≤ n) :
    lex opts (depthInput n) =
      .ok (openToks 0 n ++
        .arg ['x'] (2 * n) (2 * n + 1 - 2 * n) :: .rbrace (2 * n + 1) ::
          closeToks (2 * n + 2) (n - 1) ++ [.term]) := by
  obtain ⟨m, rfl⟩ : ∃ m, n = m + 1 := ⟨n - 1, by omega⟩
  unfold lex
  have hne : depthInput (m + 1) = 'a' :: ('{' :: openChars m ++
      ['x'] ++ ('}' :: List.replicate m '}') ++ ['\n']) := by
    simp [depthInput, openChars, List.replicate_succ]
  rw [hne]
  dsimp only
  have hnb : ¬('a' = bomChar) := by decide
  rw [if_neg hnb]
  dsimp only
  have h1 : lexRun opts initLexSt
      ('a' :: ('{' :: openChars m ++ ['x'] ++ ('}' :: List.replicate m '}') ++ ['\n'])) =
      .ok (⟨2 * (m + 1) + m + 3, false, .normal false⟩,
        openToks 0 (m + 1) ++
          .arg ['x'] (2 * (m + 1)) (2 * (m + 1) + 1 - 2 * (m + 1)) ::
            .rbrace (2 * (m + 1) + 1) :: closeToks (2 * (m + 1) + 2) m ++ [.term]) := by
    have e1 : ('a' :: ('{' :: openChars m ++ ['x'] ++ ('}' :: List.replicate m '}') ++ ['\n'])) =
        openChars (m + 1) ++ (['x'] ++ ('}' :: (List.replicate m '}' ++ ['\n']))) := by
      simp [openChars]
    rw [e1, lexRun_append]
    have hop := lexRun_openChars opts (m + 1) 0
    simp only [Nat.zero_add] at hop
    rw [show initLexSt = (⟨0, false, .normal false⟩ : LexSt) from rfl, hop]
    dsimp only
    simp only [lexRun, step_x_open, step_rbrace_bare]
    rw [lexRun_append]
    rw [lexRun_closeChars opts m (2 * (m + 1) + 2)]
    dsimp only
    simp only [lexRun, step_lf_normal]
    simp only [Except.ok.injEq, Prod.mk.injEq, LexSt.mk.injEq]
    refine ⟨⟨by omega, by trivial, by trivial⟩, by simp⟩
  rw [h1]
  dsimp only
  simp [lexFinish]

end PyConfetti

namespace PyConfetti

theorem pstep_arg0 {opts : ConfettiOptions} {done : List Directive}
    {stack : List PFrame} {cms : List Comment} {v : List Char} {o l : Nat} :
    pstep opts ⟨.args [], done, stack, cms⟩ (.arg v o l) =
      .ok ⟨.args [⟨v, o, l⟩], done, stack, cms⟩ := rfl

theorem pstep_lbrace_ok {opts : ConfettiOptions} {a : Argument} {cur : List Argument}
    {done : List Directive} {stack : List PFrame} {cms : List Comment} {o : Nat}
    (h : ¬ opts.max_depth ≤ stack.length) :
    pstep opts ⟨.args (a :: cur), done, stack, cms⟩ (.lbrace o) =
      .ok ⟨.args [], [], ⟨a :: cur, done⟩ :: stack, cms⟩ := by
  unfold pstep
  dsimp only
  rw [if_neg h]

theorem pstep_lbrace_err {opts : ConfettiOptions} {a : Argument} {cur : List Argument}
    {done : List Directive} {stack : List PFrame} {cms : List Comment} {o : Nat}
    (h : opts.max_depth ≤ stack.length) :
    pstep opts ⟨.args (a :: cur), done, stack, cms⟩ (.lbrace o) =
      .error ⟨.NestingTooDeep, o⟩ := by
  unfold pstep
  dsimp only
  rw [if_pos h]

theorem pstep_rbrace' {opts : ConfettiOptions} {mode : PMode} {done : List Directive}
    {f : PFrame} {fs : List PFrame} {cms : List Comment} {o : Nat} :
    pstep opts ⟨mode, done, f :: fs, cms⟩ (.rbrace o) =
      .ok ⟨.afterBlock, f.siblings ++ [.mk f.parentArgs (levelOf mode done)], fs, cms⟩ := rfl

theorem pstep_term' {opts : ConfettiOptions} {mode : PMode} {done : List Directive}
    {stack : List PFrame} {cms : List Comment} :
    pstep opts ⟨mode, done, stack, cms⟩ .term =
      .ok ⟨.args [], levelOf mode done, stack, cms⟩ := rfl

theorem pRun_openToks_ok (opts : ConfettiOptions) :
    ∀ (n p : Nat) (done : List Directive) (stack : List PFrame) (cms : List Comment),
    stack.length + n ≤ opts.max_depth →
    ∃ (done' : List Directive) (stack' : List PFrame),
      pRun opts ⟨.args [], done, stack, cms⟩ (openToks p n) =
          .ok ⟨.args [], done', stack', cms⟩ ∧
        stack'.length = stack.length + n := by
  intro n
  induction n with
  | zero =>
    intro p done stack cms h
    exact ⟨done, stack, rfl, by omega⟩
  | succ n ih =>
    intro p done stack cms h
    have hlb : ¬ opts.max_depth ≤ stack.length := by omega
    obtain ⟨d', s', hrun, hlen⟩ :=
      ih (p + 2) [] (⟨[⟨['a'], p, 1⟩], done⟩ :: stack) cms (by simp; omega)
    refine ⟨d', s', ?_, by simp at hlen; omega⟩
    show pRun opts _ (.arg ['a'] p 1 :: .lbrace (p + 1) :: openToks (p + 2) n) = _
    rw [pRun_cons, pstep_arg0]
    dsimp only
    rw [pRun_cons, pstep_lbrace_ok hlb]
    dsimp only
    exact hrun

theorem pRun_openToks_err (opts : ConfettiOptions) :
    ∀ (n p : Nat) (done : List Directive) (stack : List PFrame) (cms : List Comment),
    stack.length ≤ opts.max_depth → opts.max_depth < stack.length + n →
    ∃ off, pRun opts ⟨.args [], done, stack, cms⟩ (openToks p n) =
      .error ⟨.NestingTooDeep, off⟩ := by
  intro n
  induction n with
  | zero =>
    intro p done stack cms h1 h2
    exact absurd h2 (by omega)
  | succ n ih =>
    intro p done stack cms h1 h2
    by_cases hcap : opts.max_depth ≤ stack.length
    · refine ⟨p + 1, ?_⟩
      show pRun opts _ (.arg ['a'] p 1 :: .lbrace (p + 1) :: openToks (p + 2) n) = _
      rw [pRun_cons, pstep_arg0]
      dsimp only
      rw [pRun_cons, pstep_lbrace_err hcap]
    · obtain ⟨off, hrun⟩ :=
        ih (p + 2) [] (⟨[⟨['a'], p, 1⟩], done⟩ :: stack) cms (by simp; omega) (by simp; omega)
      refine ⟨off, ?_⟩
      show pRun opts _ (.arg ['a'] p 1 :: .lbrace (p + 1) :: openToks (p + 2) n) = _
      rw [pRun_cons, pstep_arg0]
      dsimp only
      rw [pRun_cons, pstep_lbrace_ok hcap]
      dsimp only
      exact hrun

theorem pRun_closeToks (opts : ConfettiOptions) :
    ∀ (stack : List PFrame) (q : Nat) (mode : PMode) (done : List Directive)
      (cms : List Comment),
    ∃ mode' done', pRun opts ⟨mode, done, stack, cms⟩ (closeToks q stack.length) =
      .ok ⟨mode', done', [], cms⟩ := by
  intro stack
  induction stack with
  | nil =>
    intro q mode done cms
    exact ⟨mode, done, rfl⟩
  | cons f fs ih =>
    intro q mode done cms
    obtain ⟨m', d', hrun⟩ := ih (q + 1) .afterBlock
      (f.siblings ++ [.mk f.parentArgs (levelOf mode done)]) cms
    refine ⟨m', d', ?_⟩
    show pRun opts _ (.rbrace q :: closeToks (q + 1) fs.length) = _
    rw [pRun_cons, pstep_rbrace']
    dsimp only
    exact hrun

/-- C7: an input of block-nesting depth exactly 1024 parses successfully,
while the same shape at depth 1025 fails with `NestingTooDeep`
(spec §5 resource model, §8 boundary behaviours). -/
theorem claim_C7 :
    (∃ u, parse defOpts (depthInput 1024) = .ok u) ∧
      (∃ off, parse defOpts (depthInput 1025) = .error ⟨.NestingTooDeep, off⟩) := by
  constructor
  · unfold parse
    rw [lex_depthInput defOpts 1024 (by omega)]
    dsimp only
    rw [pRun_append, pRun_append]
    obtain ⟨d', s', hrun, hlen⟩ := pRun_openToks_ok defOpts 1024 0 [] [] []
      (by simp [defOpts])
    rw [show initPSt = (⟨.args [], [], [], []⟩ : PSt) from rfl, hrun]
    dsimp only
    rw [pRun_cons, pstep_arg0]
    dsimp only
    cases s' with
    | nil => simp at hlen
    | cons f fs =>
      rw [pRun_cons, pstep_rbrace']
      dsimp only
      have hfs : fs.length = 1023 := by simp at hlen; omega
      rw [show (1024 - 1 : Nat) = fs.length from by omega]
      obtain ⟨m', dd, hclose⟩ := pRun_closeToks defOpts fs (2 * 1024 + 2) .afterBlock
        (f.siblings ++
          [.mk f.parentArgs
            (levelOf (.args [⟨['x'], 2 * 1024, 2 * 1024 + 1 - 2 * 1024⟩]) d')]) []
      rw [hclose]
      dsimp only
      rw [pRun_cons, pstep_term']
      dsimp only [pRun]
      exact ⟨_, rfl⟩
  · unfold parse
    rw [lex_depthInput defOpts 1025 (by omega)]
    dsimp only
    obtain ⟨off, herr⟩ := pRun_openToks_err defOpts 1025 0 [] [] []
      (by simp [defOpts]) (by simp [defOpts])
    refine ⟨off, ?_⟩
    rw [pRun_append, pRun_append,
      show initPSt = (⟨.args [], [], [], []⟩ : PSt) from rfl, herr]

end PyConfetti

namespace PyConfetti

/-- Modelled from the spec: the `MappingError` kinds of the missing object
mapper (spec §7). -/
inductive MapErrKind where
  | UnknownField
  | MissingField
  | DuplicateField
  | TypeMismatch
  | EnumOutOfRange
  | ExpectedBlock
  | UnexpectedBlock
  | BadScalar
  | RootMismatch
deriving Repr, DecidableEq

/-- Modelled from the spec: a typed value handled by the mapper (spec §4.5).
`float` is not modelled: floating point is outside this embedding, and the
`map` kind's duplicate-key semantics is unspecified; both are omitted from
the schema language below for the same reason. -/
inductive Value where
  | str (s : List Char)
  | bool (b : Bool)
  | int (n : Int)
  | enumV (name : List Char)
  | structV (fields : List Value)
  | optV (v : Option Value)
  | listV (vs : List Value)
deriving Repr

/-- The primitive scalar kinds of the schema descriptor (spec §4.5). -/
inductive ScalarKind where
  | str
  | bool
  | int
deriving Repr, DecidableEq

mutual

/-- Modelled from the spec: the base (non-wrapper) field kinds of a schema
descriptor: scalar, enum with member names, or nested struct (spec §4.5). -/
inductive BaseKind where
  | scalar (k : ScalarKind)
  | enumK (members : List (List Char))
  | structK (d : Descriptor)

/-- Modelled from the spec: a field kind: a base kind, `option(kind)` or
`list(kind)` (spec §4.5). -/
inductive FieldKind where
  | base (b : BaseKind)
  | option (b : BaseKind)
  | list (b : BaseKind)

/-- Modelled from the spec: one schema field: name, kind, and default value
(`none` marks a required field) (spec §4.5). -/
inductive Field where
  | mk (name : List Char) (kind : FieldKind) (dflt : Option Value)

/-- A schema's field sequence (a bespoke list to keep the mutual recursion
structural). -/
inductive Fields where
  | nil
  | cons (f : Field) (fs : Fields)

/-- Modelled from the spec: a schema descriptor: the directive name of the
target type plus its fields (spec §4.5). -/
inductive Descriptor where
  | mk (typeName : List Char) (fields : Fields)

end

/-- The name of a field. -/
def Field.name : Field → List Char
  | .mk n _ _ => n

/-- The kind of a field. -/
def Field.kind : Field → FieldKind
  | .mk _ k _ => k

/-- The default of a field. -/
def Field.dflt : Field → Option Value
  | .mk _ _ d => d

/-- The directive name of a descriptor's target type. -/
def Descriptor.typeName : Descriptor → List Char
  | .mk n _ => n

/-- The fields of a descriptor. -/
def Descriptor.fields : Descriptor → Fields
  | .mk _ fs => fs

/-- The names of a field sequence, in order. -/
def fieldNames : Fields → List (List Char)
  | .nil => []
  | .cons f fs => f.name :: fieldNames fs

/-- Lower-case a code-point sequence (for case-insensitive matching). -/
def toLowerList (s : List Char) : List Char := s.map Char.toLower

/-- Decimal digit test. -/
def isDigitCh (c : Char) : Bool := 48 ≤ c.toNat && c.toNat ≤ 57

/-- The numeric value of a nonempty all-digit sequence. -/
def digitsVal (ds : List Char) : Option Nat :=
  if ds.isEmpty then none
  else if ds.all isDigitCh then some (ds.foldl (fun a c => 10 * a + (c.toNat - 48)) 0)
  else none

/-- Modelled from the spec: the `int` scalar parser: optional sign plus
decimal digits (spec §4.5; the optional hex extension is not modelled). -/
def parseIntArg : List Char → Option Int
  | '-' :: ds => (digitsVal ds).map (fun n => -(n : Int))
  | '+' :: ds => (digitsVal ds).map (fun n => (n : Int))
  | ds => (digitsVal ds).map (fun n => (n : Int))

/-- Modelled from the spec: the `bool` scalar parser, accepting
`true|false|yes|no|on|off|1|0` case-insensitively (spec §4.5). -/
def parseBoolArg (s : List Char) : Option Bool :=
  let l := toLowerList s
  if l = ("true").data || l = ("yes").data || l = ("on").data || l = ("1").data then
    some true
  else if l = ("false").data || l = ("no").data || l = ("off").data || l = ("0").data then
    some false
  else none

/-- Case-insensitive member lookup, returning the canonical spelling. -/
def ciLookup (members : List (List Char)) (x : List Char) : Option (List Char) :=
  members.find? (fun m => toLowerList m = toLowerList x)

/-- Split on commas (the separators are dropped; `n` commas give `n+1`
pieces). -/
def splitOnComma : List Char → List (List Char)
  | [] => [[]]
  | c :: cs =>
    if c = ',' then [] :: splitOnComma cs
    else
      match splitOnComma cs with
      | g :: gs => (c :: g) :: gs
      | [] => [[c]]

/-- Strip surrounding horizontal whitespace. -/
def trimWs (s : List Char) : List Char :=
  ((s.dropWhile isWhiteCh).reverse.dropWhile isWhiteCh).reverse

/-- The first argument of a directive: the mapper's field key (spec §4.5). -/
def keyOf (c : Directive) : Option (List Char) :=
  match c.arguments with
  | a :: _ => some a.value
  | [] => none

end PyConfetti

namespace PyConfetti

/-- The `list(string)` comma-splitting special case (spec §4.5): a single
occurrence whose single argument carries a comma splits into trimmed
pieces; `none` means the general per-occurrence rule applies. -/
def strListSplit (b : BaseKind) (c : Directive) : Option Value :=
  match b, c.arguments, c.subdirectives with
  | .scalar .str, [_, a], [] =>
    if a.value.contains ',' then
      some (.listV ((splitOnComma a.value).map (fun s => .str (trimWs s))))
    else none
  | _, _, _ => none

mutual

/-- Modelled from the spec: load one base-kind value from a child directive
(spec §4.5 step 3): scalars require exactly one remaining argument and no
block; enums match members case-insensitively; structs recurse into the
block. -/
def loadBase (b : BaseKind) (c : Directive) : Except MapErrKind Value :=
  match b with
  | .scalar sk =>
    match c.subdirectives with
    | _ :: _ => .error .UnexpectedBlock
    | [] =>
      match c.arguments with
      | [_, a] =>
        match sk with
        | .str => .ok (.str a.value)
        | .bool =>
          match parseBoolArg a.value with
          | some b => .ok (.bool b)
          | none => .error .BadScalar
        | .int =>
          match parseIntArg a.value with
          | some n => .ok (.int n)
          | none => .error .BadScalar
      | _ => .error .TypeMismatch
  | .enumK members =>
    match c.subdirectives with
    | _ :: _ => .error .UnexpectedBlock
    | [] =>
      match c.arguments with
      | [_, a] =>
        match ciLookup members a.value with
        | some m => .ok (.enumV m)
        | none => .error .EnumOutOfRange
      | _ => .error .TypeMismatch
  | .structK d =>
    match c.arguments with
    | [_] => loadStruct d c.subdirectives
    | _ => .error .TypeMismatch
termination_by (sizeOf b, 0)

/-- Load every occurrence of a list field's key as one element each
(spec §4.5, `list(K)`). -/
def loadElems (b : BaseKind) (cs : List Directive) : Except MapErrKind (List Value) :=
  match cs with
  | [] => .ok []
  | c :: rest =>
    match loadBase b c with
    | .error e => .error e
    | .ok v =>
      match loadElems b rest with
      | .error e => .error e
      | .ok vs => .ok (v :: vs)
termination_by (sizeOf b, cs.length + 1)

/-- Modelled from the spec: load a plain (base-kind) field from its key's
occurrences (spec §4.5 steps 3-5): at most one occurrence (`DuplicateField`
beyond), default or `MissingField` when absent. -/
def loadOne (b : BaseKind) (dflt : Option Value) (occ : List Directive) :
    Except MapErrKind Value :=
  match occ with
  | [] =>
    match dflt with
    | some v => .ok v
    | none => .error .MissingField
  | [c] => loadBase b c
  | _ => .error .DuplicateField
termination_by (sizeOf b, 1)

/-- Modelled from the spec: load an `option(K)` field: absent means none
(spec §4.5). -/
def loadOpt (b : BaseKind) (dflt : Option Value) (occ : List Directive) :
    Except MapErrKind Value :=
  match occ with
  | [] =>
    match dflt with
    | some v => .ok v
    | none => .ok (.optV none)
  | [c] =>
    match loadBase b c with
    | .error e => .error e
    | .ok v => .ok (.optV (some v))
  | _ => .error .DuplicateField
termination_by (sizeOf b, 1)

/-- Modelled from the spec: load a `list(K)` field: one element per
occurrence of the key, and for `list(string)` a single occurrence with a
single comma-carrying argument is split on `,` with surrounding whitespace
trimmed (spec §4.5). -/
def loadList (b : BaseKind) (dflt : Option Value) (occ : List Directive) :
    Except MapErrKind Value :=
  match occ with
  | [] =>
    match dflt with
    | some v => .ok v
    | none => .ok (.listV [])
  | [c] =>
    match strListSplit b c with
    | some v => .ok v
    | none =>
      match loadBase b c with
      | .error e => .error e
      | .ok v => .ok (.listV [v])
  | cs =>
    match loadElems b cs with
    | .error e => .error e
    | .ok vs => .ok (.listV vs)
termination_by (sizeOf b, occ.length + 2)

/-- Load a field sequence positionally from the children of a block
(spec §4.5 steps 1-2: the first argument of each child is the key; the
occurrences of a field are the children carrying its name). -/
def loadFields (fs : Fields) (children : List Directive) :
    Except MapErrKind (List Value) :=
  match fs with
  | .nil => .ok []
  | .cons (.mk nm (.base b) dflt) fs' =>
    match loadOne b dflt (children.filter (fun c => decide (keyOf c = some nm))) with
    | .error e => .error e
    | .ok v =>
      match loadFields fs' children with
      | .error e => .error e
      | .ok vs => .ok (v :: vs)
  | .cons (.mk nm (.option b) dflt) fs' =>
    match loadOpt b dflt (children.filter (fun c => decide (keyOf c = some nm))) with
    | .error e => .error e
    | .ok v =>
      match loadFields fs' children with
      | .error e => .error e
      | .ok vs => .ok (v :: vs)
  | .cons (.mk nm (.list b) dflt) fs' =>
    match loadList b dflt (children.filter (fun c => decide (keyOf c = some nm))) with
    | .error e => .error e
    | .ok v =>
      match loadFields fs' children with
      | .error e => .error e
      | .ok vs => .ok (v :: vs)
termination_by (sizeOf fs, 0)

/-- Modelled from the spec: load a struct from the children of its block
(spec §4.5): any child whose key resolves to no field is `UnknownField`;
each field then takes its occurrences. -/
def loadStruct (d : Descriptor) (children : List Directive) :
    Except MapErrKind Value :=
  match d with
  | .mk _ fs =>
    if children.all (fun c =>
        match keyOf c with
        | some k => (fieldNames fs).contains k
        | none => false) then
      match loadFields fs children with
      | .error e => .error e
      | .ok vs => .ok (.structV vs)
    else .error .UnknownField
termination_by (sizeOf d, 0)

end

end PyConfetti

namespace PyConfetti

/-- Modelled from the spec: load the root: the unit must hold exactly one
top-level directive whose first argument is the target type's directive
name; its block is the field source (spec §4.5). -/
def loadUnit (d : Descriptor) (u : ConfettiUnit) : Except MapErrKind Value :=
  match u.directives with
  | [dir] =>
    match dir.arguments with
    | a :: _ =>
      if a.value = d.typeName then loadStruct d dir.subdirectives
      else .error .RootMismatch
    | [] => .error .RootMismatch
  | _ => .error .RootMismatch

/-- A failure of `load_confetti`: a parse error or a mapping error. -/
inductive LoadError where
  | parseErr (e : ConfettiError)
  | mapErr (e : MapErrKind)
deriving Repr, DecidableEq

/-- Modelled from the spec: the `load_confetti` entry point: parse the text
with default options, then map the AST onto the target type (spec §4.5). -/
def load_confetti (input : List Char) (d : Descriptor) : Except LoadError Value :=
  match parse defOpts input with
  | .error e => .error (.parseErr e)
  | .ok u =>
    match loadUnit d u with
    | .error e => .error (.mapErr e)
    | .ok v => .ok v

/-- Does a dumped string need double quotes (spec §4.6): it is empty or
contains whitespace or punctuators. -/
def strNeedsQuote (s : List Char) : Bool :=
  s.isEmpty || s.any (fun c => isWhiteCh c || isPunctCh c)

/-- Modelled from the spec: render one scalar string for dumping: bare when
safe, double-quoted otherwise (spec §4.6). -/
def renderStr (s : List Char) : List Char :=
  if strNeedsQuote s then '"' :: (s ++ ['"']) else s

/-- Decimal digit character. -/
def digitCh (d : Nat) : Char := Char.ofNat (48 + d)

/-- Decimal rendering of a natural number. -/
def natChars (n : Nat) : List Char :=
  if n = 0 then ['0'] else ((Nat.digits 10 n).map digitCh).reverse

/-- Modelled from the spec: the inverse of the `int` scalar parser:
sign plus decimal digits (spec §4.6). -/
def intChars (n : Int) : List Char :=
  if n < 0 then '-' :: natChars n.natAbs else natChars n.toNat

/-- Render one scalar value (spec §4.6): inverse of the scalar parsers. -/
def renderScalar (sk : ScalarKind) (v : Value) : List Char :=
  match sk, v with
  | .str, .str s => renderStr s
  | .bool, .bool b => if b then ("true").data else ("false").data
  | .int, .int n => intChars n
  | _, _ => []

/-- Four spaces per nesting level (spec §4.6). -/
def indentOf (n : Nat) : List Char := List.replicate (4 * n) ' '

mutual

/-- Modelled from the spec: dump one base-kind field line (or block) at an
indentation level (spec §4.6): scalars and enums render on one line; a
struct renders a nested block. -/
def dumpBase (name : List Char) (b : BaseKind) (v : Value) (ind : Nat) : List Char :=
  match b with
  | .scalar sk => indentOf ind ++ name ++ ' ' :: (renderScalar sk v ++ ['\n'])
  | .enumK _ =>
    match v with
    | .enumV nm => indentOf ind ++ name ++ ' ' :: (nm ++ ['\n'])
    | _ => []
  | .structK d =>
    match d, v with
    | .mk _ fs, .structV vs =>
      indentOf ind ++ name ++ ' ' :: '{' :: '\n' ::
        (dumpFields fs vs (ind + 1) ++ (indentOf ind ++ '}' :: '\n' :: []))
    | _, _ => []
termination_by (sizeOf b, 0)

/-- Dump a list field: one directive per element (spec §4.6). -/
def dumpElems (name : List Char) (b : BaseKind) (vs : List Value) (ind : Nat) :
    List Char :=
  match vs with
  | [] => []
  | v :: rest => dumpBase name b v ind ++ dumpElems name b rest ind
termination_by (sizeOf b, vs.length + 1)

/-- Modelled from the spec: dump a field sequence, one entry per field
present; `none` options are omitted (spec §4.6). -/
def dumpFields (fs : Fields) (vs : List Value) (ind : Nat) : List Char :=
  match fs, vs with
  | .cons (.mk nm (.base b) _) fs', v :: vs' =>
    dumpBase nm b v ind ++ dumpFields fs' vs' ind
  | .cons (.mk nm (.option b) _) fs', v :: vs' =>
    (match v with
      | .optV (some w) => dumpBase nm b w ind
      | _ => []) ++ dumpFields fs' vs' ind
  | .cons (.mk nm (.list b) _) fs', v :: vs' =>
    (match v with
      | .listV ws => dumpElems nm b ws ind
      | _ => []) ++ dumpFields fs' vs' ind
  | _, _ => []
termination_by (sizeOf fs, 0)

end

/-- Modelled from the spec: the `dump_confetti` entry point: canonical text
with the type's directive name at top level and one line per field present
(spec §4.6). -/
def dump_confetti (d : Descriptor) (v : Value) : List Char :=
  match d, v with
  | .mk tn fs, .structV vs =>
    tn ++ ' ' :: '{' :: '\n' :: (dumpFields fs vs 1 ++ '}' :: '\n' :: [])
  | _, _ => []

end PyConfetti

namespace PyConfetti

/-- The schema used for the concrete C9 scenario: one `list(string)` field
`origins` on a type `cfg`. -/
def originsDesc : Descriptor :=
  .mk ("cfg").data
    (.cons (.mk ("origins").data (.list (.scalar .str)) (some (.listV []))) .nil)

theorem parseBoolArg_eq (s : List Char) :
    parseBoolArg s =
      (if toLowerList s ∈ [("true").data, ("yes").data, ("on").data, ("1").data] then
        some true
      else if toLowerList s ∈
          [("false").data, ("no").data, ("off").data, ("0").data] then
        some false
      else none) := by
  unfold parseBoolArg
  dsimp only
  simp only [Bool.or_eq_true, decide_eq_true_eq, List.mem_cons, List.not_mem_nil,
    or_false, or_assoc]

/-- Two lower-case spellings cannot coincide across the true-list and the
false-list. -/
theorem boolSpellingsDisjoint {l : List Char}
    (h1 : l ∈ [("true").data, ("yes").data, ("on").data, ("1").data])
    (h2 : l ∈ [("false").data, ("no").data, ("off").data, ("0").data]) : False := by
  simp only [List.mem_cons, List.not_mem_nil, or_false] at h1 h2
  rcases h1 with h | h | h | h <;> rcases h2 with hc | hc | hc | hc <;>
    rw [h] at hc <;> simp at hc

/-- C8: loading a `bool` scalar accepts exactly the spellings
`true|false|yes|no|on|off|1|0`, case-insensitively, mapping them to the
corresponding boolean; anything else is `BadScalar` (spec §4.5). -/
theorem claim_C8 (a k : Argument) :
    (loadBase (.scalar .bool) (.mk [k, a] []) = .ok (.bool true) ↔
      toLowerList a.value ∈
        [("true").data, ("yes").data, ("on").data, ("1").data]) ∧
    (loadBase (.scalar .bool) (.mk [k, a] []) = .ok (.bool false) ↔
      toLowerList a.value ∈
        [("false").data, ("no").data, ("off").data, ("0").data]) ∧
    (toLowerList a.value ∉
        [("true").data, ("yes").data, ("on").data, ("1").data,
         ("false").data, ("no").data, ("off").data, ("0").data] →
      loadBase (.scalar .bool) (.mk [k, a] []) = .error .BadScalar) := by
  have hred : loadBase (.scalar .bool) (.mk [k, a] []) =
      (match parseBoolArg a.value with
        | some b => .ok (.bool b)
        | none => .error .BadScalar) := by
    simp [loadBase, Directive.arguments, Directive.subdirectives]
  rw [hred, parseBoolArg_eq]
  by_cases h1 : toLowerList a.value ∈
      [("true").data, ("yes").data, ("on").data, ("1").data]
  · rw [if_pos h1]
    dsimp only
    have hnot2 : toLowerList a.value ∉
        [("false").data, ("no").data, ("off").data, ("0").data] :=
      fun hc => boolSpellingsDisjoint h1 hc
    refine ⟨iff_of_true rfl h1, iff_of_false (by simp) hnot2, fun hn => ?_⟩
    simp only [List.mem_cons, List.not_mem_nil, or_false] at h1 hn
    exact absurd (by tauto) hn
  · by_cases h2 : toLowerList a.value ∈
        [("false").data, ("no").data, ("off").data, ("0").data]
    · rw [if_neg h1, if_pos h2]
      dsimp only
      refine ⟨iff_of_false (by simp) h1, iff_of_true rfl h2, fun hn => ?_⟩
      simp only [List.mem_cons, List.not_mem_nil, or_false] at h2 hn
      exact absurd (by tauto) hn
    · rw [if_neg h1, if_neg h2]
      dsimp only
      exact ⟨iff_of_false (by simp) h1, iff_of_false (by simp) h2, fun _ => rfl⟩

/-- Witness for C8: the spelling `YES` loads as true. -/
theorem claim_C8_witness :
    loadBase (.scalar .bool)
        (.mk [⟨("enabled").data, 0, 0⟩, ⟨("YES").data, 0, 0⟩] []) =
      .ok (.bool true) :=
  (claim_C8 ⟨("YES").data, 0, 0⟩ ⟨("enabled").data, 0, 0⟩).1.mpr (by decide)

/-- C9: a `list(string)` field loaded from a single occurrence whose single
argument contains a comma is split on `,` with surrounding whitespace
trimmed, one element per piece (spec §4.5); concretely,
`origins "a, b,c"` loads as the three strings `a`, `b`, `c`. -/
theorem claim_C9 :
    (∀ (k a : Argument) (dflt : Option Value),
      a.value.contains ',' = true →
      loadList (.scalar .str) dflt [.mk [k, a] []] =
        .ok (.listV ((splitOnComma a.value).map (fun s => .str (trimWs s))))) ∧
      load_confetti (("cfg \x7b\n origins \"a, b,c\"\n\x7d\n").data) originsDesc =
        .ok (.structV [.listV [.str ("a").data, .str ("b").data, .str ("c").data]]) := by
  constructor
  · intro k a dflt h
    have h' : ',' ∈ a.value := by simpa using h
    simp [loadList, strListSplit, Directive.arguments, Directive.subdirectives, h']
  · have hp : parse defOpts (("cfg \x7b\n origins \"a, b,c\"\n\x7d\n").data) =
        .ok ⟨[Directive.mk [⟨("cfg").data, 0, 3⟩]
          [Directive.mk [⟨("origins").data, 7, 7⟩, ⟨("a, b,c").data, 15, 8⟩] []]], []⟩ := rfl
    simp [load_confetti, hp, loadUnit, loadStruct, loadFields, loadList, loadOne,
      strListSplit, originsDesc, keyOf, fieldNames, Directive.arguments,
      Directive.subdirectives, Descriptor.typeName, Descriptor.fields, Field.name,
      splitOnComma, trimWs, isWhiteCh]

/-- Witness for C9's quantified part at the argument value `x,y`. -/
theorem claim_C9_witness :
    loadList (.scalar .str) none [.mk [⟨("f").data, 0, 0⟩, ⟨("x,y").data, 0, 0⟩] []] =
      .ok (.listV [.str ("x").data, .str ("y").data]) :=
  claim_C9.1 ⟨("f").data, 0, 0⟩ ⟨("x,y").data, 0, 0⟩ none (by decide)

end PyConfetti

namespace PyConfetti

/-- A code point that may sit anywhere inside a bare argument: no
whitespace, no line terminator, no control, no punctuator. -/
def bareDataCh (c : Char) : Bool :=
  !isWhiteCh c && !isLineTermCh c && !isControlCh c && !isPunctCh c

/-- A word that lexes back as one bare argument: nonempty bare-data code
points not starting with `/` (a token-initial `/` is comment-reserved). -/
def bareWordOk (w : List Char) : Bool :=
  !w.isEmpty && w.all bareDataCh && !(w.head? = some '/')

/-- A code point safe inside a double-quoted dumped argument. -/
def quotedOkCh (c : Char) : Bool :=
  !isLineTermCh c && c ≠ '"' && c ≠ '\\'

/-- A string value that survives the dump/parse cycle: quoted strings must
avoid the unescapable code points, bare strings must be bare-safe. -/
def stringOk (s : List Char) : Bool :=
  if strNeedsQuote s then s.all quotedOkCh else bareWordOk s

mutual

/-- The block-nesting depth a descriptor's dump reaches below its own
block. -/
def descDepth : Descriptor → Nat
  | .mk _ fs => 1 + fieldsDepth fs
termination_by d => sizeOf d

/-- Depth over a field sequence. -/
def fieldsDepth : Fields → Nat
  | .nil => 0
  | .cons (.mk _ (.base b) _) fs => max (baseDepth b) (fieldsDepth fs)
  | .cons (.mk _ (.option b) _) fs => max (baseDepth b) (fieldsDepth fs)
  | .cons (.mk _ (.list b) _) fs => max (baseDepth b) (fieldsDepth fs)
termination_by fs => sizeOf fs

/-- Depth of one base kind. -/
def baseDepth : BaseKind → Nat
  | .scalar _ => 0
  | .enumK _ => 0
  | .structK d => descDepth d
termination_by b => sizeOf b

end

mutual

/-- Round-trippability of one base-kind value (spec §4.6 round-trip):
strings must be dumpable, enum spellings must be canonical under the
case-insensitive lookup and bare-safe, structs recurse. -/
def rtBase : BaseKind → Value → Bool
  | .scalar .str, .str s => stringOk s
  | .scalar .bool, .bool _ => true
  | .scalar .int, .int _ => true
  | .enumK ms, .enumV nm => bareWordOk nm && decide (ciLookup ms nm = some nm)
  | .structK d, v => rtStructV d v
  | _, _ => false
termination_by b _ => (sizeOf b, 0)

/-- Round-trippability of the elements of a list field. -/
def rtElems (b : BaseKind) (vs : List Value) : Bool :=
  match vs with
  | [] => true
  | v :: rest => rtBase b v && rtElems b rest
termination_by (sizeOf b, vs.length + 1)

/-- Round-trippability of one field and its value: the name must lex back
as one bare word, absent-representable values need a matching default, and
a single-element `list(string)` must avoid the comma-splitting rule. -/
def rtField : Field → Value → Bool
  | .mk name (.base b) _, v => bareWordOk name && rtBase b v
  | .mk name (.option _) dflt, .optV none =>
    bareWordOk name &&
      (match dflt with
        | none => true
        | some (.optV none) => true
        | _ => false)
  | .mk name (.option b) _, .optV (some w) => bareWordOk name && rtBase b w
  | .mk name (.list _) dflt, .listV [] =>
    bareWordOk name &&
      (match dflt with
        | none => true
        | some (.listV []) => true
        | _ => false)
  | .mk name (.list (.scalar .str)) _, .listV [.str s] =>
    bareWordOk name && stringOk s && !(s.contains ',')
  | .mk name (.list b) _, .listV [w] =>
    bareWordOk name && rtBase b w
  | .mk name (.list b) _, .listV (v :: w :: rest) =>
    bareWordOk name && rtElems b (v :: w :: rest)
  | _, _ => false
termination_by f _ => (sizeOf f, 0)

/-- Round-trippability of a field sequence against a positional value
list. -/
def rtFields : Fields → List Value → Bool
  | .nil, [] => true
  | .cons f fs, v :: vs => rtField f v && rtFields fs vs
  | _, _ => false
termination_by fs _ => (sizeOf fs, 0)

/-- Round-trippability of a struct value against its descriptor. -/
def rtStructV : Descriptor → Value → Bool
  | .mk _ fs, .structV vs => rtFields fs vs
  | _, _ => false
termination_by d _ => (sizeOf d, 0)

end

/-- Field names pairwise distinct. -/
def namesNodupB : Fields → Bool
  | .nil => true
  | .cons f fs => !((fieldNames fs).contains f.name) && namesNodupB fs

mutual

/-- Names distinct recursively, at every struct level below a base kind. -/
def nodupBase : BaseKind → Bool
  | .scalar _ => true
  | .enumK _ => true
  | .structK d => nodupDesc d
termination_by b => sizeOf b

def nodupFields : Fields → Bool
  | .nil => true
  | .cons (.mk _ (.base b) _) fs => nodupBase b && nodupFields fs
  | .cons (.mk _ (.option b) _) fs => nodupBase b && nodupFields fs
  | .cons (.mk _ (.list b) _) fs => nodupBase b && nodupFields fs
termination_by fs => sizeOf fs

def nodupDesc : Descriptor → Bool
  | .mk _ fs => namesNodupB fs && nodupFields fs
termination_by d => sizeOf d

end

/-- Modelled from the spec: the round-trippable side condition of the
round-trip property (spec §4.6): the claim ranges over values whose schema
and value dump to text that the default-options parser and the mapper
recover exactly.  It requires dumpable names and strings, canonical enum
spellings, matching defaults for absent-representable values, no
comma-splitting hazard, globally distinct sibling field names, a type name
that does not begin with U+FEFF (which the lexer strips at offset 0), and a
nesting depth within the parser's 1024 cap. -/
def roundTrippable (d : Descriptor) (v : Value) : Bool :=
  bareWordOk d.typeName && !(d.typeName.head? = some bomChar) &&
    rtStructV d v && nodupDesc d && decide (descDepth d ≤ 1024)

end PyConfetti

namespace PyConfetti

/-- The logical (post-quote-processing) argument value a dumped scalar
parses back to. -/
def scalarVal (sk : ScalarKind) (v : Value) : List Char :=
  match sk, v with
  | .str, .str s => s
  | .bool, .bool b => if b then ("true").data else ("false").data
  | .int, .int n => intChars n
  | _, _ => []

mutual

/-- The value-level shape of the directive a dumped base-kind field parses
back to. -/
def baseTree (name : List Char) (b : BaseKind) (v : Value) : DTree :=
  match b with
  | .scalar sk => .node [name, scalarVal sk v] []
  | .enumK _ =>
    match v with
    | .enumV nm => .node [name, nm] []
    | _ => .node [name] []
  | .structK d =>
    match d, v with
    | .mk _ fs, .structV vs => .node [name] (fieldTrees fs vs)
    | _, _ => .node [name] []
termination_by (sizeOf b, 0)

/-- The shapes of the directives a dumped list field parses back to. -/
def elemTrees (name : List Char) (b : BaseKind) (vs : List Value) : List DTree :=
  match vs with
  | [] => []
  | v :: rest => baseTree name b v :: elemTrees name b rest
termination_by (sizeOf b, vs.length + 1)

/-- The shapes of the directives a dumped field sequence parses back to. -/
def fieldTrees : Fields → List Value → List DTree
  | .cons (.mk nm (.base b) _) fs', v :: vs' =>
    baseTree nm b v :: fieldTrees fs' vs'
  | .cons (.mk nm (.option b) _) fs', v :: vs' =>
    (match v with
      | .optV (some w) => [baseTree nm b w]
      | _ => []) ++ fieldTrees fs' vs'
  | .cons (.mk nm (.list b) _) fs', v :: vs' =>
    (match v with
      | .listV ws => elemTrees nm b ws
      | _ => []) ++ fieldTrees fs' vs'
  | _, _ => []
termination_by fs _ => (sizeOf fs, 0)

end

theorem classify_bareData {c : Char} (h : bareDataCh c = true) :
    classify c = CharClass.slashC ∨ classify c = CharClass.data := by
  unfold bareDataCh at h
  simp only [Bool.and_eq_true, Bool.not_eq_true'] at h
  obtain ⟨⟨⟨hw, hl⟩, hc⟩, hp⟩ := h
  have hp' : ¬(isPunctCh c = true) := by simp [hp]
  unfold isPunctCh at hp'
  simp only [Bool.or_eq_true, decide_eq_true_eq] at hp'
  push_neg at hp'
  obtain ⟨⟨⟨⟨⟨⟨hp1, hp2⟩, hp3⟩, hp4⟩, hp5⟩, hp6⟩, hp7⟩ := hp'
  unfold classify
  rw [if_neg (by simp [hl]), if_neg (by simp [hw]), if_neg (by simp [hp1]),
    if_neg (by simp [hp2]), if_neg (by simp [hp3]), if_neg (by simp [hp4]),
    if_neg (by simp [hp5, hp6]), if_neg (by simp [hp7])]
  by_cases hs : c = '/'
  · rw [if_pos hs]
    exact Or.inl rfl
  · rw [if_neg hs, if_neg (by simp [hc])]
    exact Or.inr rfl

theorem classify_bareData_head {c : Char} (h : bareDataCh c = true)
    (hs : ¬(c = '/')) : classify c = CharClass.data := by
  rcases classify_bareData h with hc | hc
  · exfalso
    unfold classify at hc
    split_ifs at hc <;> simp_all
  · exact hc

theorem stepBare_data {opts : ConfettiOptions} {p start : Nat} {acc : List Char}
    {c : Char} (h : bareDataCh c = true) :
    lexStep opts ⟨p, false, .bare start acc false⟩ c =
      .ok (⟨p + 1, false, .bare start (acc ++ [c]) false⟩, []) := by
  unfold lexStep
  rw [if_neg (by simp)]
  dsimp only
  unfold stepBare
  rcases classify_bareData h with hc | hc <;> rw [hc] <;> rfl

theorem lexRun_bareData {opts : ConfettiOptions} :
    ∀ (w : List Char) (p start : Nat) (acc : List Char),
    w.all bareDataCh = true →
    lexRun opts ⟨p, false, .bare start acc false⟩ w =
      .ok (⟨p + w.length, false, .bare start (acc ++ w) false⟩, []) := by
  intro w
  induction w with
  | nil => intro p start acc h; simp [lexRun]
  | cons c cs ih =>
    intro p start acc h
    simp only [List.all_cons, Bool.and_eq_true] at h
    simp only [lexRun, stepBare_data h.1]
    rw [ih (p + 1) start (acc ++ [c]) h.2]
    have harr : p + 1 + cs.length = p + (c :: cs).length := by
      simp only [List.length_cons]
      omega
    have happ : (acc ++ [c]) ++ cs = acc ++ (c :: cs) := by simp
    rw [harr, happ]
    rfl

theorem stepQuoted_data {opts : ConfettiOptions} {p start : Nat} {acc : List Char}
    {c : Char} (h : quotedOkCh c = true) :
    lexStep opts ⟨p, false, .quoted '"' start acc⟩ c =
      .ok (⟨p + 1, false, .quoted '"' start (acc ++ [c])⟩, []) := by
  unfold quotedOkCh at h
  simp only [Bool.and_eq_true, Bool.not_eq_true', decide_eq_true_eq] at h
  obtain ⟨⟨hl, hq⟩, hb⟩ := h
  unfold lexStep
  rw [if_neg (by simp)]
  dsimp only
  rw [if_neg (by simp [hq]), if_neg (by simp [hl]), if_neg (by simp [hb])]
  rfl

theorem lexRun_quotedData {opts : ConfettiOptions} :
    ∀ (w : List Char) (p start : Nat) (acc : List Char),
    w.all quotedOkCh = true →
    lexRun opts ⟨p, false, .quoted '"' start acc⟩ w =
      .ok (⟨p + w.length, false, .quoted '"' start (acc ++ w)⟩, []) := by
  intro w
  induction w with
  | nil => intro p start acc h; simp [lexRun]
  | cons c cs ih =>
    intro p start acc h
    simp only [List.all_cons, Bool.and_eq_true] at h
    simp only [lexRun, stepQuoted_data h.1]
    rw [ih (p + 1) start (acc ++ [c]) h.2]
    have harr : p + 1 + cs.length = p + (c :: cs).length := by
      simp only [List.length_cons]
      omega
    have happ : (acc ++ [c]) ++ cs = acc ++ (c :: cs) := by simp
    rw [harr, happ]
    rfl

theorem lexRun_spaces {opts : ConfettiOptions} :
    ∀ (n p : Nat),
    lexRun opts ⟨p, false, .normal false⟩ (List.replicate n ' ') =
      .ok (⟨p + n, false, .normal false⟩, []) := by
  intro n
  induction n with
  | zero => intro p; simp [lexRun]
  | succ n ih =>
    intro p
    show lexRun opts _ (' ' :: List.replicate n ' ') = _
    have hstep : lexStep opts ⟨p, false, .normal false⟩ ' ' =
        .ok (⟨p + 1, false, .normal false⟩, []) := rfl
    simp only [lexRun, hstep]
    rw [ih (p + 1)]
    have harr : p + 1 + n = p + (n + 1) := by omega
    rw [harr]
    rfl


/-- The mapper's key of a directive is the head of its stripped argument
values. -/
theorem keyOf_strip (c : Directive) : keyOf c = (Directive.strip c).args.head? := by
  cases c with
  | mk args subs =>
    cases args with
    | nil => rfl
    | cons a as => rfl

/-- An empty strip comes only from an empty directive list. -/
theorem stripList_nil {cs : List Directive} (h : stripList cs = []) : cs = [] := by
  cases cs with
  | nil => rfl
  | cons c cs' => simp [stripList] at h

/-- A singleton strip comes only from a singleton directive list. -/
theorem stripList_one {cs : List Directive} {t : DTree} (h : stripList cs = [t]) :
    ∃ c, cs = [c] ∧ Directive.strip c = t := by
  cases cs with
  | nil => simp [stripList] at h
  | cons c cs' =>
    simp only [stripList, List.cons.injEq] at h
    exact ⟨c, by rw [stripList_nil h.2], h.1⟩

/-- A two-or-more strip comes only from a two-or-more directive list. -/
theorem stripList_two {cs : List Directive} {t1 t2 : DTree} {ts : List DTree}
    (h : stripList cs = t1 :: t2 :: ts) :
    ∃ c1 c2 cs', cs = c1 :: c2 :: cs' := by
  cases cs with
  | nil => simp [stripList] at h
  | cons c1 cs1 =>
    cases cs1 with
    | nil => simp [stripList] at h
    | cons c2 cs' => exact ⟨c1, c2, cs', rfl⟩

/-- Stripping commutes with the mapper's key filter. -/
theorem stripList_filter (nm : List Char) (cs : List Directive) :
    stripList (cs.filter (fun c => decide (keyOf c = some nm))) =
      (stripList cs).filter (fun t => decide (t.args.head? = some nm)) := by
  induction cs with
  | nil => rfl
  | cons c cs' ih =>
    simp only [keyOf_strip] at ih ⊢
    by_cases h : (Directive.strip c).args.head? = some nm
    · simp [List.filter_cons, h, stripList, ih]
    · simp [List.filter_cons, h, stripList, ih]

/-- Every expected directive shape of a dumped base-kind field starts with
the field name. -/
theorem baseTree_head (nm : List Char) (b : BaseKind) (v : Value) :
    (baseTree nm b v).args.head? = some nm := by
  cases b with
  | scalar sk => simp [baseTree, DTree.args]
  | enumK ms => cases v <;> simp [baseTree, DTree.args]
  | structK d =>
    cases d with
    | mk tn fs => cases v <;> simp [baseTree, DTree.args]

/-- Every expected shape of a dumped list field starts with the field
name. -/
theorem elemTrees_head (nm : List Char) (b : BaseKind) (vs : List Value) :
    ∀ t ∈ elemTrees nm b vs, t.args.head? = some nm := by
  induction vs with
  | nil => intro t ht; simp [elemTrees] at ht
  | cons v vs' ih =>
    intro t ht
    simp only [elemTrees, List.mem_cons] at ht
    rcases ht with rfl | ht
    · exact baseTree_head nm b v
    · exact ih t ht

/-- Every expected shape of a dumped field sequence starts with one of the
field names. -/
theorem fieldTrees_head : ∀ (fs : Fields) (vs : List Value),
    ∀ t ∈ fieldTrees fs vs, ∃ n, n ∈ fieldNames fs ∧ t.args.head? = some n
  | .nil, vs => by intro t ht; simp [fieldTrees] at ht
  | .cons (.mk nm (.base b) dflt) fs', [] => by
    intro t ht; simp [fieldTrees] at ht
  | .cons (.mk nm (.option b) dflt) fs', [] => by
    intro t ht; simp [fieldTrees] at ht
  | .cons (.mk nm (.list b) dflt) fs', [] => by
    intro t ht; simp [fieldTrees] at ht
  | .cons (.mk nm (.base b) dflt) fs', v :: vs' => by
    intro t ht
    simp only [fieldTrees, List.mem_cons] at ht
    rcases ht with rfl | ht
    · exact ⟨nm, by simp [fieldNames, Field.name], baseTree_head nm b v⟩
    · obtain ⟨n, hn, hh⟩ := fieldTrees_head fs' vs' t ht
      exact ⟨n, by simp [fieldNames, hn], hh⟩
  | .cons (.mk nm (.option b) dflt) fs', v :: vs' => by
    intro t ht
    have tail : t ∈ fieldTrees fs' vs' →
        ∃ n, n ∈ fieldNames (.cons (.mk nm (.option b) dflt) fs') ∧
          t.args.head? = some n := by
      intro ht'
      obtain ⟨n, hn, hh⟩ := fieldTrees_head fs' vs' t ht'
      exact ⟨n, by simp [fieldNames, hn], hh⟩
    cases v with
    | optV ow =>
      cases ow with
      | none =>
        simp only [fieldTrees, List.nil_append] at ht
        exact tail ht
      | some w =>
        simp only [fieldTrees, List.singleton_append, List.mem_cons] at ht
        rcases ht with rfl | ht
        · exact ⟨nm, by simp [fieldNames, Field.name], baseTree_head nm b w⟩
        · exact tail ht
    | str a => simp only [fieldTrees, List.nil_append] at ht; exact tail ht
    | bool a => simp only [fieldTrees, List.nil_append] at ht; exact tail ht
    | int a => simp only [fieldTrees, List.nil_append] at ht; exact tail ht
    | enumV a => simp only [fieldTrees, List.nil_append] at ht; exact tail ht
    | structV a => simp only [fieldTrees, List.nil_append] at ht; exact tail ht
    | listV a => simp only [fieldTrees, List.nil_append] at ht; exact tail ht
  | .cons (.mk nm (.list b) dflt) fs', v :: vs' => by
    intro t ht
    have tail : t ∈ fieldTrees fs' vs' →
        ∃ n, n ∈ fieldNames (.cons (.mk nm (.list b) dflt) fs') ∧
          t.args.head? = some n := by
      intro ht'
      obtain ⟨n, hn, hh⟩ := fieldTrees_head fs' vs' t ht'
      exact ⟨n, by simp [fieldNames, hn], hh⟩
    cases v with
    | listV ws =>
      simp only [fieldTrees, List.mem_append] at ht
      rcases ht with ht | ht
      · exact ⟨nm, by simp [fieldNames, Field.name], elemTrees_head nm b ws t ht⟩
      · exact tail ht
    | str a => simp only [fieldTrees, List.nil_append] at ht; exact tail ht
    | bool a => simp only [fieldTrees, List.nil_append] at ht; exact tail ht
    | int a => simp only [fieldTrees, List.nil_append] at ht; exact tail ht
    | enumV a => simp only [fieldTrees, List.nil_append] at ht; exact tail ht
    | structV a => simp only [fieldTrees, List.nil_append] at ht; exact tail ht
    | optV a => simp only [fieldTrees, List.nil_append] at ht; exact tail ht
termination_by fs _ => sizeOf fs

/-- A head-name filter keeps every tree that carries that head name. -/
theorem filter_head_all {nm : List Char} : ∀ {ts : List DTree},
    (∀ t ∈ ts, t.args.head? = some nm) →
    ts.filter (fun t => decide (t.args.head? = some nm)) = ts := by
  intro ts
  induction ts with
  | nil => intro h; rfl
  | cons t ts' ih =>
    intro h
    have ht := h t (by simp)
    simp [List.filter_cons, ht, ih (fun u hu => h u (by simp [hu]))]

/-- A head-name filter for a different name drops every tree that carries
this head name. -/
theorem filter_head_ne {nm nm' : List Char} (hne : ¬nm' = nm) : ∀ {ts : List DTree},
    (∀ t ∈ ts, t.args.head? = some nm) →
    ts.filter (fun t => decide (t.args.head? = some nm')) = [] := by
  intro ts
  induction ts with
  | nil => intro h; rfl
  | cons t ts' ih =>
    intro h
    have ht := h t (by simp)
    have hne' : ¬(t.args.head? = some nm') := by
      rw [ht]
      simp only [Option.some.injEq]
      exact fun e => hne e.symm
    simp [List.filter_cons, hne', ih (fun u hu => h u (by simp [hu]))]

/-- The bool renderings parse back (spec §4.5, §4.6). -/
theorem parseBool_true : parseBoolArg ['t', 'r', 'u', 'e'] = some true := by decide

/-- The false rendering parses back. -/
theorem parseBool_false : parseBoolArg ['f', 'a', 'l', 's', 'e'] = some false := by
  decide

/-- Digit characters are digits, decode to their value, and are bare-safe. -/
theorem digitCh_facts {d : Nat} (h : d < 10) :
    isDigitCh (digitCh d) = true ∧ (digitCh d).toNat - 48 = d ∧
      bareDataCh (digitCh d) = true ∧ ¬(digitCh d = '/') := by
  interval_cases d <;> exact ⟨by decide, by decide, by decide, by decide⟩

/-- The decimal accumulator over the rendered digits recovers the value. -/
theorem foldl_digits : ∀ (ds : List Nat), (∀ d ∈ ds, d < 10) → ∀ (a : Nat),
    ((ds.map digitCh).reverse).foldl (fun x c => 10 * x + (c.toNat - 48)) a
      = a * 10 ^ ds.length + Nat.ofDigits 10 ds := by
  intro ds
  induction ds with
  | nil => intro _ a; simp [Nat.ofDigits]
  | cons d ds' ih =>
    intro h a
    have hd : d < 10 := h d (by simp)
    have h' : ∀ x ∈ ds', x < 10 := fun x hx => h x (by simp [hx])
    have hdd := (digitCh_facts hd).2.1
    simp only [List.map_cons, List.reverse_cons, List.foldl_append, List.foldl_cons,
      List.foldl_nil, List.length_cons, Nat.ofDigits_cons]
    rw [ih h' a, hdd]
    ring

/-- The decimal rendering of a natural is nonempty. -/
theorem natChars_ne_nil (m : Nat) : natChars m ≠ [] := by
  unfold natChars
  by_cases h0 : m = 0
  · simp [h0]
  · rw [if_neg h0]
    have hne : Nat.digits 10 m ≠ [] := Nat.digits_ne_nil_iff_ne_zero.mpr h0
    simp [hne]

/-- The decimal rendering of a natural is all digit characters. -/
theorem natChars_all_digit (m : Nat) : (natChars m).all isDigitCh = true := by
  unfold natChars
  by_cases h0 : m = 0
  · simp only [h0, if_pos]
    decide
  · rw [if_neg h0]
    rw [List.all_eq_true]
    intro c hc
    rw [List.mem_reverse, List.mem_map] at hc
    obtain ⟨d, hd, rfl⟩ := hc
    exact (digitCh_facts (Nat.digits_lt_base (by norm_num) hd)).1

/-- The decimal rendering of a natural decodes back to it. -/
theorem digitsVal_natChars (m : Nat) : digitsVal (natChars m) = some m := by
  by_cases h0 : m = 0
  · subst h0; decide
  · have hlt : ∀ d ∈ Nat.digits 10 m, d < 10 :=
      fun d hd => Nat.digits_lt_base (by norm_num) hd
    have hne : Nat.digits 10 m ≠ [] := Nat.digits_ne_nil_iff_ne_zero.mpr h0
    have hemp : (natChars m).isEmpty = false := by
      rw [List.isEmpty_eq_false_iff_exists_mem]
      rcases List.exists_mem_of_ne_nil _ (natChars_ne_nil m) with ⟨c, hc⟩
      exact ⟨c, hc⟩
    unfold digitsVal
    rw [hemp, natChars_all_digit m]
    simp only [Bool.false_eq_true, if_false, if_true]
    unfold natChars
    rw [if_neg h0, foldl_digits _ hlt 0]
    simp [Nat.ofDigits_digits]

/-- The integer parser on a list not starting with a sign character. -/
theorem parseIntArg_cons {c : Char} {cs : List Char} (h1 : ¬(c = '-')) (h2 : ¬(c = '+')) :
    parseIntArg (c :: cs) = (digitsVal (c :: cs)).map (fun n => (n : Int)) := by
  unfold parseIntArg
  split
  · rename_i ds heq
    rw [List.cons.injEq] at heq
    exact absurd heq.1 h1
  · rename_i ds heq
    rw [List.cons.injEq] at heq
    exact absurd heq.1 h2
  · rfl

/-- The integer parser on an explicit minus sign. -/
theorem parseIntArg_neg (ds : List Char) :
    parseIntArg ('-' :: ds) = (digitsVal ds).map (fun n => -(n : Int)) := rfl

/-- The decimal rendering of a natural parses back as an integer. -/
theorem parseIntArg_natChars (m : Nat) : parseIntArg (natChars m) = some (m : Int) := by
  cases hc : natChars m with
  | nil => exact absurd hc (natChars_ne_nil m)
  | cons c cs =>
    have hd : isDigitCh c = true := by
      have hall := natChars_all_digit m
      rw [hc, List.all_cons, Bool.and_eq_true] at hall
      exact hall.1
    have h1 : ¬(c = '-') := fun e => by rw [e] at hd; exact absurd hd (by decide)
    have h2 : ¬(c = '+') := fun e => by rw [e] at hd; exact absurd hd (by decide)
    rw [parseIntArg_cons h1 h2, ← hc, digitsVal_natChars]
    rfl

/-- The canonical integer rendering parses back exactly (spec §4.5, §4.6). -/
theorem parseIntArg_intChars (n : Int) : parseIntArg (intChars n) = some n := by
  unfold intChars
  by_cases hn : n < 0
  · rw [if_pos hn]
    have h2 : -((n.natAbs : Nat) : Int) = n := by omega
    rw [parseIntArg_neg, digitsVal_natChars]
    show some (-((n.natAbs : Nat) : Int)) = some n
    rw [h2]
  · rw [if_neg hn]
    rw [parseIntArg_natChars]
    have h2 : ((n.toNat : Nat) : Int) = n := by omega
    rw [h2]


/-- Equation: the dumped-shape expectation of a plain field entry. -/
theorem fieldTrees_base (nm : List Char) (b : BaseKind) (dflt : Option Value)
    (fs' : Fields) (v : Value) (vs' : List Value) :
    fieldTrees (.cons (.mk nm (.base b) dflt) fs') (v :: vs') =
      baseTree nm b v :: fieldTrees fs' vs' := by
  rw [fieldTrees.eq_def]

/-- Equation: an absent option field dumps no directive. -/
theorem fieldTrees_optNone (nm : List Char) (b : BaseKind) (dflt : Option Value)
    (fs' : Fields) (vs' : List Value) :
    fieldTrees (.cons (.mk nm (.option b) dflt) fs') (.optV none :: vs') =
      fieldTrees fs' vs' := by
  rw [fieldTrees.eq_def]
  rfl

/-- Equation: a present option field dumps one directive. -/
theorem fieldTrees_optSome (nm : List Char) (b : BaseKind) (dflt : Option Value)
    (fs' : Fields) (vs' : List Value) (w : Value) :
    fieldTrees (.cons (.mk nm (.option b) dflt) fs') (.optV (some w) :: vs') =
      baseTree nm b w :: fieldTrees fs' vs' := by
  rw [fieldTrees.eq_def]
  rfl

/-- Equation: a list field dumps one directive per element. -/
theorem fieldTrees_listV (nm : List Char) (b : BaseKind) (dflt : Option Value)
    (fs' : Fields) (vs' : List Value) (ws : List Value) :
    fieldTrees (.cons (.mk nm (.list b) dflt) fs') (.listV ws :: vs') =
      elemTrees nm b ws ++ fieldTrees fs' vs' := by
  rw [fieldTrees.eq_def]

/-- Stripping maps membership. -/
theorem strip_mem {c : Directive} : ∀ {cs : List Directive}, c ∈ cs →
    Directive.strip c ∈ stripList cs := by
  intro cs
  induction cs with
  | nil => intro h; simp at h
  | cons d ds ih =>
    intro h
    rw [List.mem_cons] at h
    rcases h with rfl | h
    · simp [stripList]
    · simp [stripList, ih h]

/-- Membership gives a true `contains` test. -/
theorem contains_of_mem {a : List Char} {l : List (List Char)} (h : a ∈ l) :
    l.contains a = true := by
  simpa using h

/-- A head-name filter over trees that all miss the name is empty. -/
theorem filter_not_head {nm : List Char} : ∀ {ts : List DTree},
    (∀ t ∈ ts, ¬(t.args.head? = some nm)) →
    ts.filter (fun t => decide (t.args.head? = some nm)) = [] := by
  intro ts
  induction ts with
  | nil => intro h; rfl
  | cons t ts' ih =>
    intro h
    have ht := h t (by simp)
    simp [List.filter_cons, ht, ih (fun u hu => h u (by simp [hu]))]

/-- The trees of a field sequence that misses a name do not answer that
name's filter. -/
theorem filter_fieldTrees_notin {nm : List Char} {fs : Fields} {vs : List Value}
    (h : ¬nm ∈ fieldNames fs) :
    (fieldTrees fs vs).filter (fun t => decide (t.args.head? = some nm)) = [] := by
  apply filter_not_head
  intro t ht hEq
  obtain ⟨n, hn, hh⟩ := fieldTrees_head fs vs t ht
  rw [hh, Option.some.injEq] at hEq
  exact h (hEq ▸ hn)

/-- Splitting a head-name filter over a fragment of that name followed by
other trees. -/
theorem filter_split {nm : List Char} {H T : List DTree}
    (hH : ∀ t ∈ H, t.args.head? = some nm) :
    (H ++ T).filter (fun t => decide (t.args.head? = some nm)) =
      H ++ T.filter (fun t => decide (t.args.head? = some nm)) := by
  rw [List.filter_append, filter_head_all hH]

/-- A different name's filter skips a fragment of this name. -/
theorem filter_split_ne {nm nm' : List Char} {H T : List DTree}
    (hne : ¬nm' = nm) (hH : ∀ t ∈ H, t.args.head? = some nm) :
    (H ++ T).filter (fun t => decide (t.args.head? = some nm')) =
      T.filter (fun t => decide (t.args.head? = some nm')) := by
  rw [List.filter_append, filter_head_ne hne hH, List.nil_append]

/-- A one-argument directive from its stripped values. -/
theorem map_value_one {args : List Argument} {x : List Char}
    (h : args.map Argument.value = [x]) :
    ∃ a1, args = [a1] ∧ a1.value = x := by
  cases args with
  | nil => simp at h
  | cons a1 rest =>
    cases rest with
    | nil =>
      simp only [List.map_cons, List.map_nil, List.cons.injEq, and_true] at h
      exact ⟨a1, rfl, h⟩
    | cons a2 rest2 => simp at h

/-- A two-argument directive from its stripped values. -/
theorem map_value_two {args : List Argument} {x y : List Char}
    (h : args.map Argument.value = [x, y]) :
    ∃ a1 a2, args = [a1, a2] ∧ a1.value = x ∧ a2.value = y := by
  cases args with
  | nil => simp at h
  | cons a1 rest =>
    cases rest with
    | nil => simp at h
    | cons a2 rest2 =>
      cases rest2 with
      | nil =>
        simp only [List.map_cons, List.map_nil, List.cons.injEq, and_true] at h
        exact ⟨a1, a2, rfl, h.1, h.2⟩
      | cons a3 rest3 => simp at h

/-- A two-argument block-less directive from its stripped shape. -/
theorem strip_two {c : Directive} {x y : List Char}
    (h : Directive.strip c = DTree.node [x, y] []) :
    ∃ a1 a2, c = Directive.mk [a1, a2] [] ∧ a1.value = x ∧ a2.value = y := by
  obtain ⟨args, subs⟩ := c
  simp only [Directive.strip] at h
  rw [DTree.node.injEq] at h
  obtain ⟨a1, a2, rfl, h1, h2⟩ := map_value_two h.1
  exact ⟨a1, a2, by rw [stripList_nil h.2], h1, h2⟩

/-- A one-argument directive from its stripped shape. -/
theorem strip_one {c : Directive} {x : List Char} {ts : List DTree}
    (h : Directive.strip c = DTree.node [x] ts) :
    ∃ a1 subs, c = Directive.mk [a1] subs ∧ a1.value = x ∧ stripList subs = ts := by
  obtain ⟨args, subs⟩ := c
  simp only [Directive.strip] at h
  rw [DTree.node.injEq] at h
  obtain ⟨a1, rfl, h1⟩ := map_value_one h.1
  exact ⟨a1, subs, rfl, h1, h.2⟩

mutual

/-- Modelled from the spec: the mapper recovers a base-kind value from any
directive whose stripped shape is the dumped expectation (spec §4.5 read
against §4.6). -/
theorem loadBase_ok : ∀ (nm : List Char) (b : BaseKind) (v : Value) (c : Directive),
    rtBase b v = true → nodupBase b = true → Directive.strip c = baseTree nm b v →
    loadBase b c = Except.ok v
  | nm, .scalar sk, v, c => by
    intro hrt hnd hs
    cases sk with
    | str =>
      cases v
      case str s =>
        rw [show baseTree nm (.scalar .str) (.str s) = DTree.node [nm, s] [] from by
          simp [baseTree, scalarVal]] at hs
        obtain ⟨a1, a2, rfl, ha1, ha2⟩ := strip_two hs
        simp [loadBase, Directive.subdirectives, Directive.arguments, ha2]
      all_goals exact absurd hrt (by simp [rtBase])
    | bool =>
      cases v
      case bool x =>
        cases x with
        | true =>
          rw [show baseTree nm (.scalar .bool) (.bool true) =
              DTree.node [nm, ("true").data] [] from by simp [baseTree, scalarVal]] at hs
          obtain ⟨a1, a2, rfl, ha1, ha2⟩ := strip_two hs
          simp [loadBase, Directive.subdirectives, Directive.arguments, ha2,
            parseBool_true]
        | false =>
          rw [show baseTree nm (.scalar .bool) (.bool false) =
              DTree.node [nm, ("false").data] [] from by simp [baseTree, scalarVal]] at hs
          obtain ⟨a1, a2, rfl, ha1, ha2⟩ := strip_two hs
          simp [loadBase, Directive.subdirectives, Directive.arguments, ha2,
            parseBool_false]
      all_goals exact absurd hrt (by simp [rtBase])
    | int =>
      cases v
      case int n =>
        rw [show baseTree nm (.scalar .int) (.int n) = DTree.node [nm, intChars n] []
          from by simp [baseTree, scalarVal]] at hs
        obtain ⟨a1, a2, rfl, ha1, ha2⟩ := strip_two hs
        simp [loadBase, Directive.subdirectives, Directive.arguments, ha2,
          parseIntArg_intChars]
      all_goals exact absurd hrt (by simp [rtBase])
  | nm, .enumK ms, v, c => by
    intro hrt hnd hs
    cases v
    case enumV e =>
      have hrt' : bareWordOk e = true ∧ ciLookup ms e = some e := by
        simpa [rtBase, Bool.and_eq_true] using hrt
      rw [show baseTree nm (.enumK ms) (.enumV e) = DTree.node [nm, e] [] from by
        simp [baseTree]] at hs
      obtain ⟨a1, a2, rfl, ha1, ha2⟩ := strip_two hs
      simp [loadBase, Directive.subdirectives, Directive.arguments, ha2, hrt'.2]
    all_goals exact absurd hrt (by simp [rtBase])
  | nm, .structK (.mk tn2 fs2), v, c => by
    intro hrt hnd hs
    cases v
    case structV vs2 =>
      have hrt2 : rtFields fs2 vs2 = true := by
        simpa [rtBase, rtStructV] using hrt
      have hnd2 : namesNodupB fs2 = true ∧ nodupFields fs2 = true := by
        simpa [nodupBase, nodupDesc, Bool.and_eq_true] using hnd
      rw [show baseTree nm (.structK (.mk tn2 fs2)) (.structV vs2) =
          DTree.node [nm] (fieldTrees fs2 vs2) from by simp [baseTree]] at hs
      obtain ⟨a1, subs, rfl, ha1, hsubs⟩ := strip_one hs
      have hres := loadStruct_ok tn2 fs2 vs2 subs hrt2 hnd2.1 hnd2.2 hsubs
      simp [loadBase, Directive.arguments, Directive.subdirectives, hres]
    all_goals exact absurd hrt (by simp [rtBase, rtStructV])
termination_by nm b v c => (sizeOf b, 0)
decreasing_by
  all_goals simp_wf
  all_goals first
    | (apply Prod.Lex.right; first | omega | (simp; omega))
    | (apply Prod.Lex.left; first | omega | (simp; omega))

/-- Element-wise loading of a dumped list field's occurrence directives. -/
theorem loadElems_ok : ∀ (nm : List Char) (b : BaseKind) (vs : List Value)
    (cs : List Directive), rtElems b vs = true → nodupBase b = true →
    stripList cs = elemTrees nm b vs → loadElems b cs = Except.ok vs
  | nm, b, [], cs => by
    intro hrt hnd hs
    rw [show elemTrees nm b ([] : List Value) = [] from by simp [elemTrees]] at hs
    rw [stripList_nil hs]
    simp [loadElems]
  | nm, b, v :: vs', [] => by
    intro hrt hnd hs
    rw [show elemTrees nm b (v :: vs') = baseTree nm b v :: elemTrees nm b vs' from by
      simp [elemTrees]] at hs
    simp [stripList] at hs
  | nm, b, v :: vs', cHead :: cs' => by
    intro hrt hnd hs
    rw [show elemTrees nm b (v :: vs') = baseTree nm b v :: elemTrees nm b vs' from by
      simp [elemTrees]] at hs
    simp only [stripList, List.cons.injEq] at hs
    have hrt' : rtBase b v = true ∧ rtElems b vs' = true := by
      simpa [rtElems, Bool.and_eq_true] using hrt
    have h1 := loadBase_ok nm b v cHead hrt'.1 hnd hs.1
    have h2 := loadElems_ok nm b vs' cs' hrt'.2 hnd hs.2
    simp [loadElems, h1, h2]
termination_by nm b vs cs => (sizeOf b, cs.length + 1)
decreasing_by
  all_goals simp_wf
  all_goals first
    | (apply Prod.Lex.right; first | omega | (simp; omega))
    | (apply Prod.Lex.left; first | omega | (simp; omega))

/-- Modelled from the spec: positional field loading recovers the values
when every field name's filtered strips equal the dumped expectations
(spec §4.5 steps 1-5 read against §4.6). -/
theorem loadFields_ok : ∀ (fs : Fields) (vs : List Value) (children : List Directive),
    rtFields fs vs = true → nodupFields fs = true → namesNodupB fs = true →
    (∀ nm, nm ∈ fieldNames fs →
      stripList (children.filter (fun c => decide (keyOf c = some nm))) =
        (fieldTrees fs vs).filter (fun t => decide (t.args.head? = some nm))) →
    loadFields fs children = Except.ok vs
  | .nil, vs, children => by
    intro hrt hnd hnn hs
    cases vs with
    | nil => simp [loadFields]
    | cons v vs' => exact absurd hrt (by simp [rtFields])
  | .cons (.mk nm (.base b) dflt) fs', vs, children => by
    intro hrt hnd hnn hs
    cases vs with
    | nil => exact absurd hrt (by simp [rtFields])
    | cons v vs' =>
      have hrtp : rtField (.mk nm (.base b) dflt) v = true ∧ rtFields fs' vs' = true := by
        simpa [rtFields, Bool.and_eq_true] using hrt
      have hnnp : (fieldNames fs').contains nm = false ∧ namesNodupB fs' = true := by
        simpa [namesNodupB, Field.name, Bool.and_eq_true, Bool.not_eq_true'] using hnn
      have hnotin : ¬nm ∈ fieldNames fs' := by
        intro hm
        have hcm := contains_of_mem hm
        rw [hnnp.1] at hcm
        exact absurd hcm (by simp)
      have hmemhead : nm ∈ fieldNames (Fields.cons (.mk nm (.base b) dflt) fs') := by
        simp [fieldNames, Field.name]
      have hrtb : bareWordOk nm = true ∧ rtBase b v = true := by
        simpa [rtField, Bool.and_eq_true] using hrtp.1
      have hndp : nodupBase b = true ∧ nodupFields fs' = true := by
        simpa [nodupFields, Bool.and_eq_true] using hnd
      have hHheads : ∀ t ∈ [baseTree nm b v], t.args.head? = some nm := by
        intro t ht
        rw [List.mem_singleton] at ht
        subst ht
        exact baseTree_head nm b v
      have hfe : fieldTrees (Fields.cons (.mk nm (.base b) dflt) fs') (v :: vs') =
          [baseTree nm b v] ++ fieldTrees fs' vs' := by
        rw [fieldTrees_base, List.singleton_append]
      have hshead := hs nm hmemhead
      rw [hfe, filter_split hHheads, filter_fieldTrees_notin hnotin,
        List.append_nil] at hshead
      obtain ⟨c0, hc0, hstrip⟩ := stripList_one hshead
      have hstail : ∀ nm', nm' ∈ fieldNames fs' →
          stripList (children.filter (fun c => decide (keyOf c = some nm'))) =
            (fieldTrees fs' vs').filter (fun t => decide (t.args.head? = some nm')) := by
        intro nm' hm'
        have hne : ¬(nm' = nm) := fun e => hnotin (e ▸ hm')
        have hthis := hs nm' (by simp [fieldNames, Field.name, hm'])
        rw [hfe, filter_split_ne hne hHheads] at hthis
        exact hthis
      have h1 : loadBase b c0 = .ok v := loadBase_ok nm b v c0 hrtb.2 hndp.1 hstrip
      have hone : loadOne b dflt [c0] = .ok v := by simp [loadOne, h1]
      have hrec := loadFields_ok fs' vs' children hrtp.2 hndp.2 hnnp.2 hstail
      simp [loadFields, hc0, hone, hrec]
  | .cons (.mk nm (.option b) dflt) fs', vs, children => by
    intro hrt hnd hnn hs
    cases vs with
    | nil => exact absurd hrt (by simp [rtFields])
    | cons v vs' =>
      have hrtp : rtField (.mk nm (.option b) dflt) v = true ∧
          rtFields fs' vs' = true := by
        simpa [rtFields, Bool.and_eq_true] using hrt
      have hnnp : (fieldNames fs').contains nm = false ∧ namesNodupB fs' = true := by
        simpa [namesNodupB, Field.name, Bool.and_eq_true, Bool.not_eq_true'] using hnn
      have hnotin : ¬nm ∈ fieldNames fs' := by
        intro hm
        have hcm := contains_of_mem hm
        rw [hnnp.1] at hcm
        exact absurd hcm (by simp)
      have hmemhead : nm ∈ fieldNames (Fields.cons (.mk nm (.option b) dflt) fs') := by
        simp [fieldNames, Field.name]
      have hndp : nodupBase b = true ∧ nodupFields fs' = true := by
        simpa [nodupFields, Bool.and_eq_true] using hnd
      cases v
      case optV ow =>
        cases ow with
        | none =>
          have hHheads : ∀ t ∈ ([] : List DTree), t.args.head? = some nm := by simp
          have hfe : fieldTrees (Fields.cons (.mk nm (.option b) dflt) fs')
              (.optV none :: vs') = ([] : List DTree) ++ fieldTrees fs' vs' := by
            rw [fieldTrees_optNone, List.nil_append]
          have hshead := hs nm hmemhead
          rw [hfe, filter_split hHheads, filter_fieldTrees_notin hnotin,
            List.append_nil] at hshead
          have hc0 := stripList_nil hshead
          have hopt : loadOpt b dflt [] = .ok (.optV none) := by
            cases dflt with
            | none => simp [loadOpt]
            | some dv =>
              cases dv
              case optV iv =>
                cases iv with
                | none => simp [loadOpt]
                | some w' => exact absurd hrtp.1 (by simp [rtField])
              all_goals exact absurd hrtp.1 (by simp [rtField])
          have hstail : ∀ nm', nm' ∈ fieldNames fs' →
              stripList (children.filter (fun c => decide (keyOf c = some nm'))) =
                (fieldTrees fs' vs').filter (fun t => decide (t.args.head? = some nm')) := by
            intro nm' hm'
            have hne : ¬(nm' = nm) := fun e => hnotin (e ▸ hm')
            have hthis := hs nm' (by simp [fieldNames, Field.name, hm'])
            rw [hfe, filter_split_ne hne hHheads] at hthis
            exact hthis
          have hrec := loadFields_ok fs' vs' children hrtp.2 hndp.2 hnnp.2 hstail
          simp [loadFields, hc0, hopt, hrec]
        | some w =>
          have hrtb : bareWordOk nm = true ∧ rtBase b w = true := by
            simpa [rtField, Bool.and_eq_true] using hrtp.1
          have hHheads : ∀ t ∈ [baseTree nm b w], t.args.head? = some nm := by
            intro t ht
            rw [List.mem_singleton] at ht
            subst ht
            exact baseTree_head nm b w
          have hfe : fieldTrees (Fields.cons (.mk nm (.option b) dflt) fs')
              (.optV (some w) :: vs') = [baseTree nm b w] ++ fieldTrees fs' vs' := by
            rw [fieldTrees_optSome, List.singleton_append]
          have hshead := hs nm hmemhead
          rw [hfe, filter_split hHheads, filter_fieldTrees_notin hnotin,
            List.append_nil] at hshead
          obtain ⟨c0, hc0, hstrip⟩ := stripList_one hshead
          have h1 : loadBase b c0 = .ok w := loadBase_ok nm b w c0 hrtb.2 hndp.1 hstrip
          have hopt : loadOpt b dflt [c0] = .ok (.optV (some w)) := by
            simp [loadOpt, h1]
          have hstail : ∀ nm', nm' ∈ fieldNames fs' →
              stripList (children.filter (fun c => decide (keyOf c = some nm'))) =
                (fieldTrees fs' vs').filter (fun t => decide (t.args.head? = some nm')) := by
            intro nm' hm'
            have hne : ¬(nm' = nm) := fun e => hnotin (e ▸ hm')
            have hthis := hs nm' (by simp [fieldNames, Field.name, hm'])
            rw [hfe, filter_split_ne hne hHheads] at hthis
            exact hthis
          have hrec := loadFields_ok fs' vs' children hrtp.2 hndp.2 hnnp.2 hstail
          simp [loadFields, hc0, hopt, hrec]
      all_goals exact absurd hrtp.1 (by simp [rtField])
  | .cons (.mk nm (.list b) dflt) fs', vs, children => by
    intro hrt hnd hnn hs
    cases vs with
    | nil => exact absurd hrt (by simp [rtFields])
    | cons v vs' =>
      have hrtp : rtField (.mk nm (.list b) dflt) v = true ∧
          rtFields fs' vs' = true := by
        simpa [rtFields, Bool.and_eq_true] using hrt
      have hnnp : (fieldNames fs').contains nm = false ∧ namesNodupB fs' = true := by
        simpa [namesNodupB, Field.name, Bool.and_eq_true, Bool.not_eq_true'] using hnn
      have hnotin : ¬nm ∈ fieldNames fs' := by
        intro hm
        have hcm := contains_of_mem hm
        rw [hnnp.1] at hcm
        exact absurd hcm (by simp)
      have hmemhead : nm ∈ fieldNames (Fields.cons (.mk nm (.list b) dflt) fs') := by
        simp [fieldNames, Field.name]
      have hndp : nodupBase b = true ∧ nodupFields fs' = true := by
        simpa [nodupFields, Bool.and_eq_true] using hnd
      cases v
      case listV ws =>
        have hHheads := elemTrees_head nm b ws
        have hfe : fieldTrees (Fields.cons (.mk nm (.list b) dflt) fs')
            (.listV ws :: vs') = elemTrees nm b ws ++ fieldTrees fs' vs' :=
          fieldTrees_listV nm b dflt fs' vs' ws
        have hshead := hs nm hmemhead
        rw [hfe, filter_split hHheads, filter_fieldTrees_notin hnotin,
          List.append_nil] at hshead
        have hstail : ∀ nm', nm' ∈ fieldNames fs' →
            stripList (children.filter (fun c => decide (keyOf c = some nm'))) =
              (fieldTrees fs' vs').filter (fun t => decide (t.args.head? = some nm')) := by
          intro nm' hm'
          have hne : ¬(nm' = nm) := fun e => hnotin (e ▸ hm')
          have hthis := hs nm' (by simp [fieldNames, Field.name, hm'])
          rw [hfe, filter_split_ne hne hHheads] at hthis
          exact hthis
        have hrec := loadFields_ok fs' vs' children hrtp.2 hndp.2 hnnp.2 hstail
        cases ws with
        | nil =>
          rw [show elemTrees nm b ([] : List Value) = [] from by
            simp [elemTrees]] at hshead
          have hc0 := stripList_nil hshead
          have hlst : loadList b dflt [] = .ok (.listV []) := by
            cases dflt with
            | none => simp [loadList]
            | some dv =>
              cases dv
              case listV lv =>
                cases lv with
                | nil => simp [loadList]
                | cons z zs => exact absurd hrtp.1 (by simp [rtField])
              all_goals exact absurd hrtp.1 (by simp [rtField])
          simp [loadFields, hc0, hlst, hrec]
        | cons w1 ws' =>
          cases ws' with
          | nil =>
            rw [show elemTrees nm b [w1] = [baseTree nm b w1] from by
              simp [elemTrees]] at hshead
            obtain ⟨c0, hc0, hstrip⟩ := stripList_one hshead
            cases b with
            | scalar sk =>
              cases sk with
              | str =>
                cases w1
                case str s =>
                  have hrs : (bareWordOk nm = true ∧ stringOk s = true) ∧
                      s.contains ',' = false := by
                    simpa [rtField, Bool.and_eq_true, Bool.not_eq_true'] using hrtp.1
                  rw [show baseTree nm (.scalar .str) (.str s) = DTree.node [nm, s] []
                    from by simp [baseTree, scalarVal]] at hstrip
                  obtain ⟨a1, a2, heq, ha1, ha2⟩ := strip_two hstrip
                  subst heq
                  have hnc : ¬(',' ∈ s) := by
                    simpa using hrs.2
                  have hsplit : strListSplit (.scalar .str) (Directive.mk [a1, a2] []) =
                      none := by
                    simp [strListSplit, Directive.arguments, Directive.subdirectives,
                      ha2, hnc]
                  have h1 : loadBase (.scalar .str) (Directive.mk [a1, a2] []) =
                      .ok (.str s) := by
                    simp [loadBase, Directive.subdirectives, Directive.arguments, ha2]
                  have hlst : loadList (.scalar .str) dflt [Directive.mk [a1, a2] []] =
                      .ok (.listV [.str s]) := by
                    simp [loadList, hsplit, h1]
                  simp [loadFields, hc0, hlst, hrec]
                all_goals exact absurd hrtp.1 (by simp [rtField, rtBase])
              | bool =>
                have hrb : bareWordOk nm = true ∧ rtBase (.scalar .bool) w1 = true := by
                  simpa [rtField, Bool.and_eq_true] using hrtp.1
                have h1 := loadBase_ok nm (.scalar .bool) w1 c0 hrb.2
                  (by simp [nodupBase]) hstrip
                cases w1
                case bool x =>
                  rw [show baseTree nm (.scalar .bool) (.bool x) =
                      DTree.node [nm, scalarVal .bool (.bool x)] [] from by
                    simp [baseTree]] at hstrip
                  obtain ⟨a1, a2, heq, ha1, ha2⟩ := strip_two hstrip
                  subst heq
                  have hsplit : strListSplit (.scalar .bool)
                      (Directive.mk [a1, a2] []) = none := by
                    simp [strListSplit, Directive.arguments, Directive.subdirectives]
                  have hlst : loadList (.scalar .bool) dflt
                      [Directive.mk [a1, a2] []] = .ok (.listV [.bool x]) := by
                    simp [loadList, hsplit, h1]
                  simp [loadFields, hc0, hlst, hrec]
                all_goals exact absurd hrb.2 (by simp [rtBase])
              | int =>
                have hrb : bareWordOk nm = true ∧ rtBase (.scalar .int) w1 = true := by
                  simpa [rtField, Bool.and_eq_true] using hrtp.1
                have h1 := loadBase_ok nm (.scalar .int) w1 c0 hrb.2
                  (by simp [nodupBase]) hstrip
                cases w1
                case int n =>
                  rw [show baseTree nm (.scalar .int) (.int n) =
                      DTree.node [nm, intChars n] [] from by
                    simp [baseTree, scalarVal]] at hstrip
                  obtain ⟨a1, a2, heq, ha1, ha2⟩ := strip_two hstrip
                  subst heq
                  have hsplit : strListSplit (.scalar .int)
                      (Directive.mk [a1, a2] []) = none := by
                    simp [strListSplit, Directive.arguments, Directive.subdirectives]
                  have hlst : loadList (.scalar .int) dflt
                      [Directive.mk [a1, a2] []] = .ok (.listV [.int n]) := by
                    simp [loadList, hsplit, h1]
                  simp [loadFields, hc0, hlst, hrec]
                all_goals exact absurd hrb.2 (by simp [rtBase])
            | enumK ms =>
              have hrb : bareWordOk nm = true ∧ rtBase (.enumK ms) w1 = true := by
                simpa [rtField, Bool.and_eq_true] using hrtp.1
              have h1 := loadBase_ok nm (.enumK ms) w1 c0 hrb.2
                (by simp [nodupBase]) hstrip
              cases w1
              case enumV e =>
                rw [show baseTree nm (.enumK ms) (.enumV e) = DTree.node [nm, e] []
                  from by simp [baseTree]] at hstrip
                obtain ⟨a1, a2, heq, ha1, ha2⟩ := strip_two hstrip
                subst heq
                have hsplit : strListSplit (.enumK ms) (Directive.mk [a1, a2] []) =
                    none := by
                  simp [strListSplit, Directive.arguments, Directive.subdirectives]
                have hlst : loadList (.enumK ms) dflt [Directive.mk [a1, a2] []] =
                    .ok (.listV [.enumV e]) := by
                  simp [loadList, hsplit, h1]
                simp [loadFields, hc0, hlst, hrec]
              all_goals exact absurd hrb.2 (by simp [rtBase])
            | structK d =>
              obtain ⟨tn2, fs2⟩ := d
              have hrb : bareWordOk nm = true ∧
                  rtBase (.structK (.mk tn2 fs2)) w1 = true := by
                simpa [rtField, Bool.and_eq_true] using hrtp.1
              have h1 := loadBase_ok nm (.structK (.mk tn2 fs2)) w1 c0 hrb.2
                hndp.1 hstrip
              cases w1
              case structV vs2 =>
                rw [show baseTree nm (.structK (.mk tn2 fs2)) (.structV vs2) =
                    DTree.node [nm] (fieldTrees fs2 vs2) from by
                  simp [baseTree]] at hstrip
                obtain ⟨a1, subs0, heq, ha1, hsub⟩ := strip_one hstrip
                subst heq
                have hsplit : strListSplit (.structK (.mk tn2 fs2))
                    (Directive.mk [a1] subs0) = none := by
                  simp [strListSplit, Directive.arguments, Directive.subdirectives]
                have hlst : loadList (.structK (.mk tn2 fs2)) dflt
                    [Directive.mk [a1] subs0] = .ok (.listV [.structV vs2]) := by
                  simp [loadList, hsplit, h1]
                simp [loadFields, hc0, hlst, hrec]
              all_goals exact absurd hrb.2 (by simp [rtBase, rtStructV])
          | cons w2 ws'' =>
            have hrte : bareWordOk nm = true ∧ rtElems b (w1 :: w2 :: ws'') = true := by
              simpa [rtField, Bool.and_eq_true] using hrtp.1
            have hexp : elemTrees nm b (w1 :: w2 :: ws'') =
                baseTree nm b w1 :: baseTree nm b w2 :: elemTrees nm b ws'' := by
              simp [elemTrees]
            obtain ⟨c1, c2, cs', hc0⟩ := stripList_two (hshead.trans hexp)
            rw [hc0] at hshead
            have helems := loadElems_ok nm b (w1 :: w2 :: ws'') (c1 :: c2 :: cs')
              hrte.2 hndp.1 hshead
            have hlst : loadList b dflt (c1 :: c2 :: cs') =
                .ok (.listV (w1 :: w2 :: ws'')) := by
              simp [loadList, helems]
            simp [loadFields, hc0, hlst, hrec]
      all_goals exact absurd hrtp.1 (by simp [rtField])
termination_by fs vs children => (sizeOf fs, 0)
decreasing_by
  all_goals simp_wf
  all_goals first
    | (apply Prod.Lex.right; first | omega | (simp; omega))
    | (apply Prod.Lex.left; first | omega | (simp; omega))

/-- Modelled from the spec: struct loading from children whose strips equal
the dumped expectations (spec §4.5 read against §4.6). -/
theorem loadStruct_ok (tn : List Char) (fs : Fields) (vs : List Value)
    (subs : List Directive) (hrt : rtFields fs vs = true)
    (hnn : namesNodupB fs = true) (hnd : nodupFields fs = true)
    (hs : stripList subs = fieldTrees fs vs) :
    loadStruct (.mk tn fs) subs = Except.ok (.structV vs) := by
  have hall : subs.all (fun c =>
      match keyOf c with
      | some k => (fieldNames fs).contains k
      | none => false) = true := by
    rw [List.all_eq_true]
    intro c hc
    have hmem : Directive.strip c ∈ fieldTrees fs vs := by
      rw [← hs]
      exact strip_mem hc
    obtain ⟨n, hn, hh⟩ := fieldTrees_head fs vs _ hmem
    rw [keyOf_strip, hh]
    show (fieldNames fs).contains n = true
    exact contains_of_mem hn
  have hrec : loadFields fs subs = .ok vs := by
    refine loadFields_ok fs vs subs hrt hnd hnn ?_
    intro nm _
    rw [stripList_filter, hs]
  simp only [loadStruct]
  rw [hall]
  simp [hrec]
termination_by (sizeOf fs + 1, 0)
decreasing_by
  all_goals simp_wf
  all_goals first
    | (apply Prod.Lex.right; first | omega | (simp; omega))
    | (apply Prod.Lex.left; first | omega | (simp; omega))

end

/-- A dumped argument word: either a bare-safe word (its own value) or a
double-quoted run of quote-safe code points (value is the inside). -/
def ArgWord (w val : List Char) : Prop :=
  (bareWordOk w = true ∧ val = w) ∨
  (∃ s, w = '"' :: (s ++ ['"']) ∧ s.all quotedOkCh = true ∧ val = s)

/-- Code points 43-57 (signs, digits and neighbours) are bare-safe. -/
theorem bareDataCh_code {c : Char} (h1 : 43 ≤ c.toNat) (h2 : c.toNat ≤ 57) :
    bareDataCh c = true := by
  have hw : isWhiteCh c = false := by
    rw [Bool.eq_false_iff]
    intro hx
    unfold isWhiteCh at hx
    simp only [Bool.or_eq_true, Bool.and_eq_true, decide_eq_true_eq] at hx
    rcases hx with ((((((hx | hx) | hx) | hx) | hx) | hx) | hx) | hx <;>
      first
        | omega
        | (subst hx; revert h1 h2; decide)
  have hl : isLineTermCh c = false := by
    rw [Bool.eq_false_iff]
    intro hx
    unfold isLineTermCh at hx
    simp only [Bool.or_eq_true, decide_eq_true_eq] at hx
    rcases hx with (((hx | hx) | hx) | hx) | hx <;>
      first
        | omega
        | (subst hx; revert h1 h2; decide)
  have hc : isControlCh c = false := by
    rw [Bool.eq_false_iff]
    intro hx
    unfold isControlCh at hx
    simp only [Bool.and_eq_true, Bool.or_eq_true, decide_eq_true_eq] at hx
    rcases hx.1 with hx1 | hx1 <;> omega
  have hp : isPunctCh c = false := by
    rw [Bool.eq_false_iff]
    intro hx
    unfold isPunctCh at hx
    simp only [Bool.or_eq_true, decide_eq_true_eq] at hx
    rcases hx with (((((hx | hx) | hx) | hx) | hx) | hx) | hx <;>
      (subst hx; revert h1 h2; decide)
  unfold bareDataCh
  rw [hw, hl, hc, hp]
  rfl

/-- A digit character is not the comment-reserved slash. -/
theorem digit_ne_slash {c : Char} (h : isDigitCh c = true) : ¬(c = '/') :=
  fun e => by subst e; exact absurd h (by decide)

/-- Digit characters are bare-safe. -/
theorem digit_bareData {c : Char} (h : isDigitCh c = true) : bareDataCh c = true := by
  unfold isDigitCh at h
  simp only [Bool.and_eq_true, decide_eq_true_eq] at h
  exact bareDataCh_code (by omega) h.2

/-- The canonical integer rendering lexes back as one bare word. -/
theorem intChars_bareWordOk (n : Int) : bareWordOk (intChars n) = true := by
  have hne : intChars n ≠ [] := by
    unfold intChars
    by_cases hn : n < 0
    · rw [if_pos hn]
      simp
    · rw [if_neg hn]
      exact natChars_ne_nil _
  have hall : (intChars n).all bareDataCh = true := by
    unfold intChars
    by_cases hn : n < 0
    · rw [if_pos hn]
      rw [List.all_cons, Bool.and_eq_true]
      refine ⟨bareDataCh_code (by decide) (by decide), ?_⟩
      have hd := natChars_all_digit n.natAbs
      rw [List.all_eq_true] at hd ⊢
      exact fun x hx => digit_bareData (hd x hx)
    · rw [if_neg hn]
      have hd := natChars_all_digit n.toNat
      rw [List.all_eq_true] at hd ⊢
      exact fun x hx => digit_bareData (hd x hx)
  have hhead : ¬((intChars n).head? = some '/') := by
    unfold intChars
    by_cases hn : n < 0
    · rw [if_pos hn]
      simp
    · rw [if_neg hn]
      cases hnc : natChars n.toNat with
      | nil => exact absurd hnc (natChars_ne_nil _)
      | cons c0 cs0 =>
        have hd0 : isDigitCh c0 = true := by
          have hx := natChars_all_digit n.toNat
          rw [hnc, List.all_cons, Bool.and_eq_true] at hx
          exact hx.1
        simp only [List.head?, Option.some.injEq]
        intro hx
        exact digit_ne_slash hd0 hx
  simp only [bareWordOk, Bool.and_eq_true, Bool.not_eq_true', decide_eq_false_iff_not]
  refine ⟨⟨?_, hall⟩, hhead⟩
  simp [List.isEmpty_iff, hne]

/-- A bare-safe word is a dumped argument word for itself. -/
theorem argWord_bare {w : List Char} (h : bareWordOk w = true) : ArgWord w w :=
  Or.inl ⟨h, rfl⟩

/-- The rendered scalar of a round-trippable scalar value is a dumped
argument word for the value's logical spelling. -/
theorem argWord_scalar {sk : ScalarKind} {v : Value}
    (h : rtBase (.scalar sk) v = true) :
    ArgWord (renderScalar sk v) (scalarVal sk v) := by
  cases sk with
  | str =>
    cases v
    case str s =>
      have hso : stringOk s = true := by simpa [rtBase] using h
      unfold stringOk at hso
      by_cases hq : strNeedsQuote s = true
      · rw [if_pos hq] at hso
        right
        exact ⟨s, by simp [renderScalar, renderStr, hq], hso, by simp [scalarVal]⟩
      · rw [if_neg hq] at hso
        left
        constructor
        · show bareWordOk (renderStr s) = true
          unfold renderStr
          rw [if_neg hq]
          exact hso
        · show s = renderStr s
          unfold renderStr
          rw [if_neg hq]
    all_goals exact absurd h (by simp [rtBase])
  | bool =>
    cases v
    case bool x =>
      left
      cases x with
      | true => exact ⟨by decide, rfl⟩
      | false => exact ⟨by decide, rfl⟩
    all_goals exact absurd h (by simp [rtBase])
  | int =>
    cases v
    case int n => exact Or.inl ⟨intChars_bareWordOk n, rfl⟩
    all_goals exact absurd h (by simp [rtBase])

/-- One lexer step from clean state over a bare-safe head character. -/
theorem stepNormal_bareHead {opts : ConfettiOptions} {c : Char} {p : Nat}
    (hb : bareDataCh c = true) (hsl : ¬(c = '/')) :
    lexStep opts ⟨p, false, .normal false⟩ c =
      .ok (⟨p + 1, false, .bare p [c] false⟩, []) := by
  unfold lexStep
  rw [if_neg (by simp)]
  dsimp only
  unfold stepNormal
  rw [classify_bareData_head hb hsl]
  rfl

/-- Lexing a bare-safe word from clean state accumulates it. -/
theorem lexRun_bareWord {opts : ConfettiOptions} {w : List Char}
    (h : bareWordOk w = true) (p : Nat) :
    lexRun opts ⟨p, false, .normal false⟩ w =
      .ok (⟨p + w.length, false, .bare p w false⟩, []) := by
  cases w with
  | nil => simp [bareWordOk] at h
  | cons c cs =>
    have h' : ((bareDataCh c = true ∧ cs.all bareDataCh = true)) ∧ ¬(c = '/') := by
      simpa [bareWordOk, List.all_cons, Bool.and_eq_true, Bool.not_eq_true',
        List.head?, decide_eq_false_iff_not] using h
    have hstep := @stepNormal_bareHead opts c p h'.1.1 h'.2
    simp only [lexRun, hstep]
    rw [lexRun_bareData cs (p + 1) p [c] h'.1.2]
    have harr : p + 1 + cs.length = p + (c :: cs).length := by
      simp only [List.length_cons]
      omega
    have happ : ([c] : List Char) ++ cs = c :: cs := by simp
    rw [harr, happ]
    rfl

/-- The opening brace token from clean state. -/
theorem step_lbrace_normal {opts : ConfettiOptions} {p : Nat} :
    lexStep opts ⟨p, false, .normal false⟩ '{' =
      .ok (⟨p + 1, false, .normal false⟩, [.lbrace p]) := rfl

/-- A double quote from clean state opens a quoted argument. -/
theorem step_quote_normal {opts : ConfettiOptions} {p : Nat} :
    lexStep opts ⟨p, false, .normal false⟩ '"' =
      .ok (⟨p + 1, false, .q1 '"' p⟩, []) := rfl

/-- A space ends a bare argument. -/
theorem stepBare_space {opts : ConfettiOptions} {p start : Nat} {acc : List Char} :
    lexStep opts ⟨p, false, .bare start acc false⟩ ' ' =
      .ok (⟨p + 1, false, .normal false⟩, [.arg acc start (p - start)]) := rfl

/-- A line feed ends a bare argument and the directive. -/
theorem stepBare_lf {opts : ConfettiOptions} {p start : Nat} {acc : List Char} :
    lexStep opts ⟨p, false, .bare start acc false⟩ '\n' =
      .ok (⟨p + 1, false, .normal false⟩, [.arg acc start (p - start), .term]) := rfl

/-- A quote-safe code point right after the opening quote. -/
theorem stepQ1_data {opts : ConfettiOptions} {p start : Nat} {c : Char}
    (h : quotedOkCh c = true) :
    lexStep opts ⟨p, false, .q1 '"' start⟩ c =
      .ok (⟨p + 1, false, .quoted '"' start [c]⟩, []) := by
  unfold quotedOkCh at h
  simp only [Bool.and_eq_true, Bool.not_eq_true', decide_eq_true_eq] at h
  obtain ⟨⟨hl, hq⟩, hb⟩ := h
  unfold lexStep
  rw [if_neg (by simp)]
  dsimp only
  rw [if_neg (by simp [hq]), if_neg (by simp [hl]), if_neg (by simp [hb])]
  rfl

/-- An immediately repeated quote: the empty-argument mode. -/
theorem stepQ1_close {opts : ConfettiOptions} {p start : Nat} :
    lexStep opts ⟨p, false, .q1 '"' start⟩ '"' =
      .ok (⟨p + 1, false, .q2 '"' start⟩, []) := rfl

/-- The closing quote emits the quoted argument. -/
theorem stepQuoted_close {opts : ConfettiOptions} {p start : Nat} {acc : List Char} :
    lexStep opts ⟨p, false, .quoted '"' start acc⟩ '"' =
      .ok (⟨p + 1, false, .normal false⟩, [.arg acc start (p + 1 - start)]) := rfl

/-- A space after an empty quoted pair emits the empty argument. -/
theorem stepQ2_space {opts : ConfettiOptions} {p start : Nat} :
    lexStep opts ⟨p, false, .q2 '"' start⟩ ' ' =
      .ok (⟨p + 1, false, .normal false⟩, [.arg [] start 2]) := rfl

/-- A line feed after an empty quoted pair emits the empty argument and the
terminator. -/
theorem stepQ2_lf {opts : ConfettiOptions} {p start : Nat} :
    lexStep opts ⟨p, false, .q2 '"' start⟩ '\n' =
      .ok (⟨p + 1, false, .normal false⟩, [.arg [] start 2, .term]) := rfl

/-- Lexing one dumped argument word plus its delimiter from clean state:
yields the argument token (and the terminator on a line feed) and returns
to clean state. -/
theorem lexRun_argWord {opts : ConfettiOptions} {w val : List Char} (h : ArgWord w val)
    {d : Char} (hd : d = ' ' ∨ d = '\n') (p : Nat) :
    lexRun opts ⟨p, false, .normal false⟩ (w ++ [d]) =
      .ok (⟨p + w.length + 1, false, .normal false⟩,
        .arg val p w.length :: (if d = '\n' then [.term] else [])) := by
  rcases h with ⟨hb, rfl⟩ | hQ
  · rw [lexRun_append, lexRun_bareWord hb p]
    rcases hd with rfl | rfl
    · have hstep : lexStep opts ⟨p + val.length, false, .bare p val false⟩ ' ' =
          .ok (⟨p + val.length + 1, false, .normal false⟩, [.arg val p val.length]) := by
        have h0 := @stepBare_space opts (p + val.length) p val
        rw [show p + val.length - p = val.length from by omega] at h0
        exact h0
      simp only [lexRun, hstep]
      simp
    · have hstep : lexStep opts ⟨p + val.length, false, .bare p val false⟩ '\n' =
          .ok (⟨p + val.length + 1, false, .normal false⟩,
            [.arg val p val.length, .term]) := by
        have h0 := @stepBare_lf opts (p + val.length) p val
        rw [show p + val.length - p = val.length from by omega] at h0
        exact h0
      simp only [lexRun, hstep]
      simp
  · obtain ⟨s, hw, hq, hv⟩ := hQ
    subst hw
    subst hv
    cases val with
    | nil =>
      have hshape : (('"' :: (([] : List Char) ++ ['"'])) ++ [d] : List Char) =
          '"' :: '"' :: [d] := by simp
      rw [hshape]
      rw [show (('"' :: (([] : List Char) ++ ['"'])).length) = 2 from by simp]
      have h1 := @step_quote_normal opts p
      have h2 := @stepQ1_close opts (p + 1) p
      rcases hd with rfl | rfl
      · have h3 := @stepQ2_space opts (p + 1 + 1) p
        simp only [lexRun, h1, h2, h3]
        simp only [List.nil_append, List.append_nil]
        rw [Except.ok.injEq, Prod.mk.injEq, LexSt.mk.injEq]
        refine ⟨⟨by omega, rfl, rfl⟩, by simp⟩
      · have h3 := @stepQ2_lf opts (p + 1 + 1) p
        simp only [lexRun, h1, h2, h3]
        simp only [List.nil_append, List.append_nil]
        rw [Except.ok.injEq, Prod.mk.injEq, LexSt.mk.injEq]
        refine ⟨⟨by omega, rfl, rfl⟩, by simp⟩
    | cons c0 s' =>
      have hq' : quotedOkCh c0 = true ∧ s'.all quotedOkCh = true := by
        simpa [List.all_cons, Bool.and_eq_true] using hq
      have hshape : (('"' :: ((c0 :: s') ++ ['"'])) ++ [d] : List Char) =
          '"' :: c0 :: (s' ++ ['"', d]) := by simp
      rw [hshape]
      have h1 := @step_quote_normal opts p
      have h2 := @stepQ1_data opts (p + 1) p c0 hq'.1
      simp only [lexRun, h1, h2]
      rw [lexRun_append]
      rw [lexRun_quotedData s' (p + 1 + 1) p [c0] hq'.2]
      have h4 : lexStep opts ⟨p + 1 + 1 + s'.length, false,
          .quoted '"' p ([c0] ++ s')⟩ '"' =
          .ok (⟨p + 1 + 1 + s'.length + 1, false, .normal false⟩,
            [.arg (c0 :: s') p (('"' :: ((c0 :: s') ++ ['"'])).length)]) := by
        have h0 := @stepQuoted_close opts (p + 1 + 1 + s'.length) p ([c0] ++ s')
        rw [show p + 1 + 1 + s'.length + 1 - p =
            ('"' :: ((c0 :: s') ++ ['"'])).length from by
          simp only [List.length_cons, List.length_append, List.length_nil]
          omega] at h0
        rw [show ([c0] ++ s' : List Char) = c0 :: s' from by simp] at h0
        exact h0
      rcases hd with rfl | rfl
      · have h5 : lexStep opts ⟨p + 1 + 1 + s'.length + 1, false, .normal false⟩ ' ' =
            .ok (⟨p + 1 + 1 + s'.length + 1 + 1, false, .normal false⟩, []) := rfl
        simp only [lexRun, h4, h5]
        simp only [List.nil_append, List.append_nil]
        rw [Except.ok.injEq, Prod.mk.injEq, LexSt.mk.injEq]
        refine ⟨⟨?_, rfl, rfl⟩, by simp⟩
        simp only [List.length_cons, List.length_append, List.length_nil]
        omega
      · have h5 : lexStep opts ⟨p + 1 + 1 + s'.length + 1, false, .normal false⟩ '\n' =
            .ok (⟨p + 1 + 1 + s'.length + 1 + 1, false, .normal false⟩, [.term]) :=
          step_lf_normal
        simp only [lexRun, h4, h5]
        simp only [List.nil_append, List.append_nil]
        rw [Except.ok.injEq, Prod.mk.injEq, LexSt.mk.injEq]
        refine ⟨⟨?_, rfl, rfl⟩, by simp⟩
        simp only [List.length_cons, List.length_append, List.length_nil]
        omega

/-- Equation: dumping a scalar field renders one line. -/
theorem dumpBase_scalar (name : List Char) (sk : ScalarKind) (v : Value) (ind : Nat) :
    dumpBase name (.scalar sk) v ind =
      indentOf ind ++ name ++ ' ' :: (renderScalar sk v ++ ['\n']) := by
  rw [dumpBase.eq_def]

/-- Equation: dumping an enum field renders one line. -/
theorem dumpBase_enum (name : List Char) (ms : List (List Char)) (nm' : List Char)
    (ind : Nat) :
    dumpBase name (.enumK ms) (.enumV nm') ind =
      indentOf ind ++ name ++ ' ' :: (nm' ++ ['\n']) := by
  rw [dumpBase.eq_def]
  try rfl

/-- Equation: dumping a struct field renders an open line, the nested
fields, and a close line. -/
theorem dumpBase_struct (name tn : List Char) (fs : Fields) (vs : List Value)
    (ind : Nat) :
    dumpBase name (.structK (.mk tn fs)) (.structV vs) ind =
      indentOf ind ++ name ++ ' ' :: '{' :: '\n' ::
        (dumpFields fs vs (ind + 1) ++ (indentOf ind ++ '}' :: '\n' :: [])) := by
  rw [dumpBase.eq_def]
  try rfl

/-- Equation: an empty list field dumps nothing. -/
theorem dumpElems_nil (name : List Char) (b : BaseKind) (ind : Nat) :
    dumpElems name b [] ind = [] := by
  rw [dumpElems.eq_def]

/-- Equation: a list field dumps elementwise. -/
theorem dumpElems_cons (name : List Char) (b : BaseKind) (v : Value)
    (vs : List Value) (ind : Nat) :
    dumpElems name b (v :: vs) ind = dumpBase name b v ind ++ dumpElems name b vs ind := by
  rw [dumpElems.eq_def]

/-- Equation: an empty field sequence dumps nothing. -/
theorem dumpFields_nil (vs : List Value) (ind : Nat) :
    dumpFields .nil vs ind = [] := by
  rw [dumpFields.eq_def]
  try rfl

/-- Equation: a plain field entry dumps its line then the rest. -/
theorem dumpFields_base (nm : List Char) (b : BaseKind) (dflt : Option Value)
    (fs' : Fields) (v : Value) (vs' : List Value) (ind : Nat) :
    dumpFields (.cons (.mk nm (.base b) dflt) fs') (v :: vs') ind =
      dumpBase nm b v ind ++ dumpFields fs' vs' ind := by
  rw [dumpFields.eq_def]

/-- Equation: an absent option field dumps nothing of its own. -/
theorem dumpFields_optNone (nm : List Char) (b : BaseKind) (dflt : Option Value)
    (fs' : Fields) (vs' : List Value) (ind : Nat) :
    dumpFields (.cons (.mk nm (.option b) dflt) fs') (.optV none :: vs') ind =
      dumpFields fs' vs' ind := by
  rw [dumpFields.eq_def]
  try rfl

/-- Equation: a present option field dumps one entry. -/
theorem dumpFields_optSome (nm : List Char) (b : BaseKind) (dflt : Option Value)
    (fs' : Fields) (w : Value) (vs' : List Value) (ind : Nat) :
    dumpFields (.cons (.mk nm (.option b) dflt) fs') (.optV (some w) :: vs') ind =
      dumpBase nm b w ind ++ dumpFields fs' vs' ind := by
  rw [dumpFields.eq_def]
  try rfl

/-- Equation: a list field dumps its elements. -/
theorem dumpFields_listV (nm : List Char) (b : BaseKind) (dflt : Option Value)
    (fs' : Fields) (ws : List Value) (vs' : List Value) (ind : Nat) :
    dumpFields (.cons (.mk nm (.list b) dflt) fs') (.listV ws :: vs') ind =
      dumpElems nm b ws ind ++ dumpFields fs' vs' ind := by
  rw [dumpFields.eq_def]
  try rfl

/-- Lexing one dumped scalar or enum line from clean state: a name token, a
value token, and a terminator. -/
theorem lexRun_line {opts : ConfettiOptions} {name w val : List Char}
    (hn : bareWordOk name = true) (hw : ArgWord w val) (ind p : Nat) :
    ∃ q o1 o2, lexRun opts ⟨p, false, .normal false⟩
      (indentOf ind ++ ((name ++ [' ']) ++ (w ++ ['\n']))) =
      .ok (⟨q, false, .normal false⟩,
        [.arg name o1 name.length, .arg val o2 w.length, .term]) := by
  have ha1 := @lexRun_argWord opts name name (argWord_bare hn) ' ' (Or.inl rfl)
    (p + 4 * ind)
  have ha2 := @lexRun_argWord opts w val hw '\n' (Or.inr rfl)
    (p + 4 * ind + name.length + 1)
  refine ⟨p + 4 * ind + name.length + 1 + w.length + 1, p + 4 * ind,
    p + 4 * ind + name.length + 1, ?_⟩
  rw [lexRun_append]
  rw [show indentOf ind = List.replicate (4 * ind) ' ' from rfl]
  rw [lexRun_spaces]
  dsimp only
  rw [lexRun_append, ha1]
  dsimp only
  rw [ha2]
  simp

/-- Lexing one dumped block-open line from clean state. -/
theorem lexRun_open {opts : ConfettiOptions} {name : List Char}
    (hn : bareWordOk name = true) (ind p : Nat) :
    ∃ q o1 o2, lexRun opts ⟨p, false, .normal false⟩
      (indentOf ind ++ ((name ++ [' ']) ++ ['{', '\n'])) =
      .ok (⟨q, false, .normal false⟩,
        [.arg name o1 name.length, .lbrace o2, .term]) := by
  have ha1 := @lexRun_argWord opts name name (argWord_bare hn) ' ' (Or.inl rfl)
    (p + 4 * ind)
  have h1 := @step_lbrace_normal opts (p + 4 * ind + name.length + 1)
  have h2 := @step_lf_normal opts (p + 4 * ind + name.length + 1 + 1)
  refine ⟨p + 4 * ind + name.length + 1 + 1 + 1, p + 4 * ind,
    p + 4 * ind + name.length + 1, ?_⟩
  rw [lexRun_append]
  rw [show indentOf ind = List.replicate (4 * ind) ' ' from rfl]
  rw [lexRun_spaces]
  dsimp only
  rw [lexRun_append, ha1]
  dsimp only
  simp only [lexRun, h1, h2]
  simp

/-- Lexing one dumped block-close line from clean state. -/
theorem lexRun_close {opts : ConfettiOptions} (ind p : Nat) :
    ∃ q o, lexRun opts ⟨p, false, .normal false⟩ (indentOf ind ++ ['}', '\n']) =
      .ok (⟨q, false, .normal false⟩, [.rbrace o, .term]) := by
  have h1 := @step_rbrace_normal opts (p + 4 * ind)
  have h2 := @step_lf_normal opts (p + 4 * ind + 1)
  refine ⟨p + 4 * ind + 1 + 1, p + 4 * ind, ?_⟩
  rw [lexRun_append]
  rw [show indentOf ind = List.replicate (4 * ind) ' ' from rfl]
  rw [lexRun_spaces]
  dsimp only
  simp only [lexRun, h1, h2]
  simp

/-- Parsing a dumped scalar line appends one argument-only directive. -/
theorem pRun_scalarLine (opts : ConfettiOptions) (n a : List Char)
    (o1 l1 o2 l2 : Nat) (done : List Directive) (stack : List PFrame)
    (com : List Comment) :
    pRun opts ⟨.args [], done, stack, com⟩ [.arg n o1 l1, .arg a o2 l2, .term] =
      .ok ⟨.args [], done ++ [.mk [⟨n, o1, l1⟩, ⟨a, o2, l2⟩] []], stack, com⟩ := rfl

/-- Parsing a dumped open line pushes one frame. -/
theorem pRun_openLine (opts : ConfettiOptions) (n : List Char) (o1 l1 o2 : Nat)
    (done : List Directive) (stack : List PFrame) (com : List Comment)
    (hd : stack.length < opts.max_depth) :
    pRun opts ⟨.args [], done, stack, com⟩ [.arg n o1 l1, .lbrace o2, .term] =
      .ok ⟨.args [], [], ⟨[⟨n, o1, l1⟩], done⟩ :: stack, com⟩ := by
  have h1 : pstep opts ⟨.args [], done, stack, com⟩ (.arg n o1 l1) =
      .ok ⟨.args [⟨n, o1, l1⟩], done, stack, com⟩ := rfl
  have h2 : pstep opts ⟨.args [⟨n, o1, l1⟩], done, stack, com⟩ (.lbrace o2) =
      .ok ⟨.args [], [], ⟨[⟨n, o1, l1⟩], done⟩ :: stack, com⟩ := by
    unfold pstep
    dsimp only
    rw [if_neg (by omega)]
  have h3 : pstep opts ⟨.args [], [], ⟨[⟨n, o1, l1⟩], done⟩ :: stack, com⟩ .term =
      .ok ⟨.args [], [], ⟨[⟨n, o1, l1⟩], done⟩ :: stack, com⟩ := rfl
  simp only [pRun, h1, h2, h3]

/-- Parsing a dumped close line pops the frame and finalizes the block. -/
theorem pRun_closeLine (opts : ConfettiOptions) (o : Nat) (done2 : List Directive)
    (pargs : List Argument) (sib : List Directive) (stack : List PFrame)
    (com : List Comment) :
    pRun opts ⟨.args [], done2, ⟨pargs, sib⟩ :: stack, com⟩ [.rbrace o, .term] =
      .ok ⟨.args [], sib ++ [.mk pargs done2], stack, com⟩ := rfl

/-- A round-trippable list field carries a bare-safe name and
round-trippable elements. -/
theorem rtField_list_parts {nm : List Char} {b : BaseKind} {dflt : Option Value}
    {ws : List Value} (h : rtField (.mk nm (.list b) dflt) (.listV ws) = true) :
    bareWordOk nm = true ∧ rtElems b ws = true := by
  cases ws with
  | nil =>
    refine ⟨?_, by simp [rtElems]⟩
    cases dflt with
    | none => simpa [rtField] using h
    | some dv =>
      cases dv
      case listV lv =>
        cases lv with
        | nil => simpa [rtField] using h
        | cons z zs => exact absurd h (by simp [rtField])
      all_goals exact absurd h (by simp [rtField])
  | cons w1 ws1 =>
    cases ws1 with
    | nil =>
      cases b with
      | scalar sk =>
        cases sk with
        | str =>
          cases w1
          case str s =>
            have h' : (bareWordOk nm = true ∧ stringOk s = true) ∧
                s.contains ',' = false := by
              simpa [rtField, Bool.and_eq_true, Bool.not_eq_true'] using h
            exact ⟨h'.1.1, by simp [rtElems, rtBase, h'.1.2]⟩
          all_goals exact absurd h (by simp [rtField, rtBase])
        | bool =>
          have h' : bareWordOk nm = true ∧ rtBase (.scalar .bool) w1 = true := by
            simpa [rtField, Bool.and_eq_true] using h
          exact ⟨h'.1, by simp [rtElems, h'.2]⟩
        | int =>
          have h' : bareWordOk nm = true ∧ rtBase (.scalar .int) w1 = true := by
            simpa [rtField, Bool.and_eq_true] using h
          exact ⟨h'.1, by simp [rtElems, h'.2]⟩
      | enumK ms =>
        have h' : bareWordOk nm = true ∧ rtBase (.enumK ms) w1 = true := by
          simpa [rtField, Bool.and_eq_true] using h
        exact ⟨h'.1, by simp [rtElems, h'.2]⟩
      | structK d =>
        have h' : bareWordOk nm = true ∧ rtBase (.structK d) w1 = true := by
          simpa [rtField, Bool.and_eq_true] using h
        exact ⟨h'.1, by simp [rtElems, h'.2]⟩
    | cons w2 ws2 =>
      have h' : bareWordOk nm = true ∧ rtElems b (w1 :: w2 :: ws2) = true := by
        simpa [rtField, Bool.and_eq_true] using h
      exact ⟨h'.1, h'.2⟩

mutual

/-- Modelled from the spec: lexing and parsing one dumped base-kind field
entry appends exactly one directive whose stripped shape is the expected
tree, from any clean lexer state and any argument-free parser level
(spec §4.6 text against §4.1-§4.3). -/
theorem fragBase : ∀ (opts : ConfettiOptions) (name : List Char) (b : BaseKind)
    (v : Value) (ind p : Nat), bareWordOk name = true → rtBase b v = true →
    ∃ q toks c, lexRun opts ⟨p, false, .normal false⟩ (dumpBase name b v ind) =
        .ok (⟨q, false, .normal false⟩, toks) ∧
      Directive.strip c = baseTree name b v ∧
      ∀ done stack com, stack.length + baseDepth b ≤ opts.max_depth →
        pRun opts ⟨.args [], done, stack, com⟩ toks =
          .ok ⟨.args [], done ++ [c], stack, com⟩
  | opts, name, .scalar sk, v, ind, p => by
    intro hn hrt
    have hsh : dumpBase name (.scalar sk) v ind =
        indentOf ind ++ ((name ++ [' ']) ++ (renderScalar sk v ++ ['\n'])) := by
      rw [dumpBase_scalar]
      simp
    obtain ⟨q, o1, o2, hline⟩ := @lexRun_line opts name (renderScalar sk v)
      (scalarVal sk v) hn (argWord_scalar hrt) ind p
    refine ⟨q, [.arg name o1 name.length,
      .arg (scalarVal sk v) o2 (renderScalar sk v).length, .term],
      Directive.mk [⟨name, o1, name.length⟩,
        ⟨scalarVal sk v, o2, (renderScalar sk v).length⟩] [], ?_, ?_, ?_⟩
    · rw [hsh]
      exact hline
    · rw [show baseTree name (.scalar sk) v = DTree.node [name, scalarVal sk v] []
        from by simp [baseTree]]
      simp [Directive.strip, stripList]
    · intro done stack com hdep
      exact pRun_scalarLine opts name (scalarVal sk v) o1 name.length o2
        (renderScalar sk v).length done stack com
  | opts, name, .enumK ms, v, ind, p => by
    intro hn hrt
    cases v
    case enumV e =>
      have hrt' : bareWordOk e = true ∧ ciLookup ms e = some e := by
        simpa [rtBase, Bool.and_eq_true] using hrt
      have hsh : dumpBase name (.enumK ms) (.enumV e) ind =
          indentOf ind ++ ((name ++ [' ']) ++ (e ++ ['\n'])) := by
        rw [dumpBase_enum]
        simp
      obtain ⟨q, o1, o2, hline⟩ := @lexRun_line opts name e e hn
        (argWord_bare hrt'.1) ind p
      refine ⟨q, [.arg name o1 name.length, .arg e o2 e.length, .term],
        Directive.mk [⟨name, o1, name.length⟩, ⟨e, o2, e.length⟩] [], ?_, ?_, ?_⟩
      · rw [hsh]
        exact hline
      · rw [show baseTree name (.enumK ms) (.enumV e) = DTree.node [name, e] []
          from by simp [baseTree]]
        simp [Directive.strip, stripList]
      · intro done stack com hdep
        exact pRun_scalarLine opts name e o1 name.length o2 e.length done stack com
    all_goals exact absurd hrt (by simp [rtBase])
  | opts, name, .structK (.mk tn2 fs2), v, ind, p => by
    intro hn hrt
    cases v
    case structV vs2 =>
      have hrtf : rtFields fs2 vs2 = true := by
        simpa [rtBase, rtStructV] using hrt
      have hsh : dumpBase name (.structK (.mk tn2 fs2)) (.structV vs2) ind =
          (indentOf ind ++ ((name ++ [' ']) ++ ['{', '\n'])) ++
            (dumpFields fs2 vs2 (ind + 1) ++ (indentOf ind ++ ['}', '\n'])) := by
        rw [dumpBase_struct]
        simp
      obtain ⟨q1, o1, o2, hopen⟩ := @lexRun_open opts name hn ind p
      obtain ⟨q2, toks2, ds2, hlex2, hstrip2, hpar2⟩ :=
        fragFields opts fs2 vs2 (ind + 1) q1 hrtf
      obtain ⟨q3, o3, hclose⟩ := @lexRun_close opts ind q2
      refine ⟨q3, [.arg name o1 name.length, .lbrace o2, .term] ++
        (toks2 ++ [.rbrace o3, .term]),
        Directive.mk [⟨name, o1, name.length⟩] ds2, ?_, ?_, ?_⟩
      · rw [hsh, lexRun_append, hopen]
        dsimp only
        rw [lexRun_append, hlex2]
        dsimp only
        rw [hclose]
      · rw [show baseTree name (.structK (.mk tn2 fs2)) (.structV vs2) =
            DTree.node [name] (fieldTrees fs2 vs2) from by simp [baseTree]]
        simp [Directive.strip, stripList, hstrip2]
      · intro done stack com hdep
        have hbd : baseDepth (.structK (.mk tn2 fs2)) = 1 + fieldsDepth fs2 := by
          simp [baseDepth, descDepth]
        rw [hbd] at hdep
        rw [pRun_append]
        rw [pRun_openLine opts name o1 name.length o2 done stack com (by omega)]
        dsimp only
        rw [pRun_append]
        rw [hpar2 [] (⟨[⟨name, o1, name.length⟩], done⟩ :: stack) com
          (by simp only [List.length_cons]; omega)]
        dsimp only
        rw [pRun_closeLine]
        simp
    all_goals exact absurd hrt (by simp [rtBase, rtStructV])
termination_by opts name b v ind p => (sizeOf b, 0)
decreasing_by
  all_goals simp_wf
  all_goals first
    | (apply Prod.Lex.right; first | omega | (simp; omega))
    | (apply Prod.Lex.left; first | omega | (simp; omega))

/-- Lexing and parsing the dumped elements of a list field appends one
directive per element. -/
theorem fragElems : ∀ (opts : ConfettiOptions) (name : List Char) (b : BaseKind)
    (vs : List Value) (ind p : Nat), bareWordOk name = true → rtElems b vs = true →
    ∃ q toks cs, lexRun opts ⟨p, false, .normal false⟩ (dumpElems name b vs ind) =
        .ok (⟨q, false, .normal false⟩, toks) ∧
      stripList cs = elemTrees name b vs ∧
      ∀ done stack com, stack.length + baseDepth b ≤ opts.max_depth →
        pRun opts ⟨.args [], done, stack, com⟩ toks =
          .ok ⟨.args [], done ++ cs, stack, com⟩
  | opts, name, b, [], ind, p => by
    intro hn hrt
    refine ⟨p, [], [], ?_, ?_, ?_⟩
    · rw [dumpElems_nil]
      rfl
    · rw [show elemTrees name b ([] : List Value) = [] from by simp [elemTrees]]
      rfl
    · intro done stack com hdep
      simp [pRun]
  | opts, name, b, v :: vs', ind, p => by
    intro hn hrt
    have hrt' : rtBase b v = true ∧ rtElems b vs' = true := by
      simpa [rtElems, Bool.and_eq_true] using hrt
    obtain ⟨q1, toks1, c1, hlex1, hstrip1, hpar1⟩ :=
      fragBase opts name b v ind p hn hrt'.1
    obtain ⟨q2, toks2, cs2, hlex2, hstrip2, hpar2⟩ :=
      fragElems opts name b vs' ind q1 hn hrt'.2
    refine ⟨q2, toks1 ++ toks2, c1 :: cs2, ?_, ?_, ?_⟩
    · rw [dumpElems_cons, lexRun_append, hlex1]
      dsimp only
      rw [hlex2]
    · rw [show elemTrees name b (v :: vs') =
          baseTree name b v :: elemTrees name b vs' from by simp [elemTrees]]
      simp only [stripList, hstrip1, hstrip2]
    · intro done stack com hdep
      rw [pRun_append, hpar1 done stack com hdep]
      dsimp only
      rw [hpar2 (done ++ [c1]) stack com hdep]
      simp
termination_by opts name b vs ind p => (sizeOf b, vs.length + 1)
decreasing_by
  all_goals simp_wf
  all_goals first
    | (apply Prod.Lex.right; first | omega | (simp; omega))
    | (apply Prod.Lex.left; first | omega | (simp; omega))

/-- Modelled from the spec: lexing and parsing a dumped field sequence
appends exactly the expected directives (spec §4.6 text against
§4.1-§4.3). -/
theorem fragFields : ∀ (opts : ConfettiOptions) (fs : Fields) (vs : List Value)
    (ind p : Nat), rtFields fs vs = true →
    ∃ q toks cs, lexRun opts ⟨p, false, .normal false⟩ (dumpFields fs vs ind) =
        .ok (⟨q, false, .normal false⟩, toks) ∧
      stripList cs = fieldTrees fs vs ∧
      ∀ done stack com, stack.length + fieldsDepth fs ≤ opts.max_depth →
        pRun opts ⟨.args [], done, stack, com⟩ toks =
          .ok ⟨.args [], done ++ cs, stack, com⟩
  | opts, .nil, vs, ind, p => by
    intro hrt
    cases vs with
    | nil =>
      refine ⟨p, [], [], ?_, ?_, ?_⟩
      · rw [dumpFields_nil]
        rfl
      · rw [show fieldTrees .nil ([] : List Value) = [] from by simp [fieldTrees]]
        rfl
      · intro done stack com hdep
        simp [pRun]
    | cons v vs' => exact absurd hrt (by simp [rtFields])
  | opts, .cons (.mk nm (.base b) dflt) fs', vs, ind, p => by
    intro hrt
    cases vs with
    | nil => exact absurd hrt (by simp [rtFields])
    | cons v vs' =>
      have hrtp : rtField (.mk nm (.base b) dflt) v = true ∧
          rtFields fs' vs' = true := by
        simpa [rtFields, Bool.and_eq_true] using hrt
      have hrtb : bareWordOk nm = true ∧ rtBase b v = true := by
        simpa [rtField, Bool.and_eq_true] using hrtp.1
      obtain ⟨q1, toks1, c1, hlex1, hstrip1, hpar1⟩ :=
        fragBase opts nm b v ind p hrtb.1 hrtb.2
      obtain ⟨q2, toks2, cs2, hlex2, hstrip2, hpar2⟩ :=
        fragFields opts fs' vs' ind q1 hrtp.2
      refine ⟨q2, toks1 ++ toks2, c1 :: cs2, ?_, ?_, ?_⟩
      · rw [dumpFields_base, lexRun_append, hlex1]
        dsimp only
        rw [hlex2]
      · rw [fieldTrees_base]
        simp only [stripList, hstrip1, hstrip2]
      · intro done stack com hdep
        have hfd : fieldsDepth (Fields.cons (.mk nm (.base b) dflt) fs') =
            max (baseDepth b) (fieldsDepth fs') := by
          simp [fieldsDepth]
        rw [hfd] at hdep
        rw [pRun_append, hpar1 done stack com (by omega)]
        dsimp only
        rw [hpar2 (done ++ [c1]) stack com (by omega)]
        simp
  | opts, .cons (.mk nm (.option b) dflt) fs', vs, ind, p => by
    intro hrt
    cases vs with
    | nil => exact absurd hrt (by simp [rtFields])
    | cons v vs' =>
      have hrtp : rtField (.mk nm (.option b) dflt) v = true ∧
          rtFields fs' vs' = true := by
        simpa [rtFields, Bool.and_eq_true] using hrt
      cases v
      case optV ow =>
        cases ow with
        | none =>
          obtain ⟨q2, toks2, cs2, hlex2, hstrip2, hpar2⟩ :=
            fragFields opts fs' vs' ind p hrtp.2
          refine ⟨q2, toks2, cs2, ?_, ?_, ?_⟩
          · rw [dumpFields_optNone]
            exact hlex2
          · rw [fieldTrees_optNone]
            exact hstrip2
          · intro done stack com hdep
            have hfd : fieldsDepth (Fields.cons (.mk nm (.option b) dflt) fs') =
                max (baseDepth b) (fieldsDepth fs') := by
              simp [fieldsDepth]
            rw [hfd] at hdep
            exact hpar2 done stack com (by omega)
        | some w =>
          have hrtb : bareWordOk nm = true ∧ rtBase b w = true := by
            simpa [rtField, Bool.and_eq_true] using hrtp.1
          obtain ⟨q1, toks1, c1, hlex1, hstrip1, hpar1⟩ :=
            fragBase opts nm b w ind p hrtb.1 hrtb.2
          obtain ⟨q2, toks2, cs2, hlex2, hstrip2, hpar2⟩ :=
            fragFields opts fs' vs' ind q1 hrtp.2
          refine ⟨q2, toks1 ++ toks2, c1 :: cs2, ?_, ?_, ?_⟩
          · rw [dumpFields_optSome, lexRun_append, hlex1]
            dsimp only
            rw [hlex2]
          · rw [fieldTrees_optSome]
            simp only [stripList, hstrip1, hstrip2]
          · intro done stack com hdep
            have hfd : fieldsDepth (Fields.cons (.mk nm (.option b) dflt) fs') =
                max (baseDepth b) (fieldsDepth fs') := by
              simp [fieldsDepth]
            rw [hfd] at hdep
            rw [pRun_append, hpar1 done stack com (by omega)]
            dsimp only
            rw [hpar2 (done ++ [c1]) stack com (by omega)]
            simp
      all_goals exact absurd hrtp.1 (by simp [rtField])
  | opts, .cons (.mk nm (.list b) dflt) fs', vs, ind, p => by
    intro hrt
    cases vs with
    | nil => exact absurd hrt (by simp [rtFields])
    | cons v vs' =>
      have hrtp : rtField (.mk nm (.list b) dflt) v = true ∧
          rtFields fs' vs' = true := by
        simpa [rtFields, Bool.and_eq_true] using hrt
      cases v
      case listV ws =>
        obtain ⟨hnm, hre⟩ := rtField_list_parts hrtp.1
        obtain ⟨q1, toks1, cs1, hlex1, hstrip1, hpar1⟩ :=
          fragElems opts nm b ws ind p hnm hre
        obtain ⟨q2, toks2, cs2, hlex2, hstrip2, hpar2⟩ :=
          fragFields opts fs' vs' ind q1 hrtp.2
        refine ⟨q2, toks1 ++ toks2, cs1 ++ cs2, ?_, ?_, ?_⟩
        · rw [dumpFields_listV, lexRun_append, hlex1]
          dsimp only
          rw [hlex2]
        · rw [fieldTrees_listV]
          rw [stripList_append, hstrip1, hstrip2]
        · intro done stack com hdep
          have hfd : fieldsDepth (Fields.cons (.mk nm (.list b) dflt) fs') =
              max (baseDepth b) (fieldsDepth fs') := by
            simp [fieldsDepth]
          rw [hfd] at hdep
          rw [pRun_append, hpar1 done stack com (by omega)]
          dsimp only
          rw [hpar2 (done ++ cs1) stack com (by omega)]
          simp
      all_goals exact absurd hrtp.1 (by simp [rtField])
termination_by opts fs vs ind p => (sizeOf fs, 0)
decreasing_by
  all_goals simp_wf
  all_goals first
    | (apply Prod.Lex.right; first | omega | (simp; omega))
    | (apply Prod.Lex.left; first | omega | (simp; omega))

end

/-- Lexing an input that does not start with the byte-order mark runs the
state machine from the initial state. -/
theorem lex_eq {opts : ConfettiOptions} {c : Char} {cs : List Char}
    (h : ¬(c = bomChar)) :
    lex opts (c :: cs) =
      match lexRun opts initLexSt (c :: cs) with
      | .error e => .error e
      | .ok (st, ts) =>
        match lexFinish st with
        | .error e => .error e
        | .ok ts' => .ok (ts ++ ts') := by
  unfold lex
  dsimp only
  rw [if_neg h]

/-- C1: for every schema descriptor and round-trippable value,
`load_confetti` applied to `dump_confetti`'s canonical text with the same
descriptor recovers exactly the original value (spec §8 property 1, §4.5
against §4.6). -/
theorem claim_C1 (d : Descriptor) (v : Value)
    (h : roundTrippable d v = true) :
    load_confetti (dump_confetti d v) d = Except.ok v := by
  obtain ⟨tn, fs⟩ := d
  have hps : (((bareWordOk tn = true ∧ ¬(tn.head? = some bomChar)) ∧
      rtStructV (.mk tn fs) v = true) ∧ nodupDesc (.mk tn fs) = true) ∧
      descDepth (.mk tn fs) ≤ 1024 := by
    simpa [roundTrippable, Descriptor.typeName, Bool.and_eq_true,
      Bool.not_eq_true', decide_eq_true_eq, decide_eq_false_iff_not] using h
  obtain ⟨⟨⟨⟨hbw, hbom⟩, hsv⟩, hnodup⟩, hdepth⟩ := hps
  cases v
  case structV vs =>
    have hrtf : rtFields fs vs = true := by simpa [rtStructV] using hsv
    have hnds : namesNodupB fs = true ∧ nodupFields fs = true := by
      simpa [nodupDesc, Bool.and_eq_true] using hnodup
    have hdd : descDepth (.mk tn fs) = 1 + fieldsDepth fs := by simp [descDepth]
    rw [hdd] at hdepth
    have hmd : defOpts.max_depth = 1024 := rfl
    cases htn : tn with
    | nil => rw [htn] at hbw; simp [bareWordOk] at hbw
    | cons t0 tn' =>
      subst htn
      have hbom' : ¬(t0 = bomChar) := fun e => hbom (by simp [List.head?, e])
      have hsh : (t0 :: (tn' ++ ' ' :: '{' :: '\n' ::
            (dumpFields fs vs 1 ++ '}' :: '\n' :: [])) : List Char) =
          (indentOf 0 ++ (((t0 :: tn') ++ [' ']) ++ ['{', '\n'])) ++
            (dumpFields fs vs 1 ++ (indentOf 0 ++ ['}', '\n'])) := by
        simp [indentOf]
      obtain ⟨q1, o1, o2, hopen⟩ := @lexRun_open defOpts (t0 :: tn') hbw 0 0
      obtain ⟨q2, toksF, dsF, hlexF, hstripF, hparF⟩ :=
        fragFields defOpts fs vs 1 q1 hrtf
      obtain ⟨q3, o3, hclose⟩ := @lexRun_close defOpts 0 q2
      have hlex : lex defOpts (t0 :: (tn' ++ ' ' :: '{' :: '\n' ::
            (dumpFields fs vs 1 ++ '}' :: '\n' :: []))) =
          .ok ([.arg (t0 :: tn') o1 (t0 :: tn').length, .lbrace o2, .term] ++
            (toksF ++ [.rbrace o3, .term])) := by
        rw [lex_eq hbom']
        rw [show initLexSt = (⟨0, false, .normal false⟩ : LexSt) from rfl]
        rw [hsh]
        rw [lexRun_append, hopen]
        dsimp only
        rw [lexRun_append, hlexF]
        dsimp only
        rw [hclose]
        dsimp only
        rw [show lexFinish ⟨q3, false, .normal false⟩ = .ok [] from rfl]
        simp
      have hpar : pRun defOpts initPSt
          ([.arg (t0 :: tn') o1 (t0 :: tn').length, .lbrace o2, .term] ++
            (toksF ++ [.rbrace o3, .term])) =
          .ok ⟨.args [], [Directive.mk [⟨t0 :: tn', o1, (t0 :: tn').length⟩] dsF],
            [], []⟩ := by
        rw [show initPSt = (⟨.args [], [], [], []⟩ : PSt) from rfl]
        rw [pRun_append]
        rw [pRun_openLine defOpts (t0 :: tn') o1 (t0 :: tn').length o2 [] [] []
          (by simp [hmd])]
        dsimp only
        rw [pRun_append]
        rw [hparF [] [⟨[⟨t0 :: tn', o1, (t0 :: tn').length⟩], []⟩] []
          (by simp only [List.length_cons, List.length_nil, hmd]; omega)]
        dsimp only
        rw [pRun_closeLine defOpts o3 ([] ++ dsF)
          [⟨t0 :: tn', o1, (t0 :: tn').length⟩] [] [] []]
        simp
      have hparse : parse defOpts (t0 :: (tn' ++ ' ' :: '{' :: '\n' ::
            (dumpFields fs vs 1 ++ '}' :: '\n' :: []))) =
          .ok ⟨[Directive.mk [⟨t0 :: tn', o1, (t0 :: tn').length⟩] dsF], []⟩ := by
        unfold parse
        rw [hlex]
        dsimp only
        rw [hpar]
        dsimp only
        rfl
      have hloadU : loadUnit (.mk (t0 :: tn') fs)
          ⟨[Directive.mk [⟨t0 :: tn', o1, (t0 :: tn').length⟩] dsF], []⟩ =
          .ok (.structV vs) := by
        simp only [loadUnit, Directive.arguments, Directive.subdirectives,
          Descriptor.typeName]
        exact loadStruct_ok (t0 :: tn') fs vs dsF hrtf hnds.1 hnds.2 hstripF
      have hdump : dump_confetti (.mk (t0 :: tn') fs) (.structV vs) =
          (t0 :: (tn' ++ ' ' :: '{' :: '\n' ::
            (dumpFields fs vs 1 ++ '}' :: '\n' :: []))) := rfl
      unfold load_confetti
      rw [hdump, hparse]
      dsimp only
      rw [hloadU]
  all_goals exact absurd hsv (by simp [rtStructV])

/-- C1 witness: a concrete one-string-field schema and value round-trip. -/
theorem claim_C1_witness :
    roundTrippable (Descriptor.mk ("app").data
        (.cons (.mk ("name").data (.base (.scalar .str)) none) .nil))
      (.structV [.str ("x").data]) = true ∧
    load_confetti (dump_confetti (Descriptor.mk ("app").data
        (.cons (.mk ("name").data (.base (.scalar .str)) none) .nil))
        (.structV [.str ("x").data]))
      (Descriptor.mk ("app").data
        (.cons (.mk ("name").data (.base (.scalar .str)) none) .nil)) =
      Except.ok (.structV [.str ("x").data]) := by
  have h1 : roundTrippable (Descriptor.mk ("app").data
      (.cons (.mk ("name").data (.base (.scalar .str)) none) .nil))
      (.structV [.str ("x").data]) = true := by
    simp only [roundTrippable, rtStructV, rtFields, rtField, rtBase, nodupDesc,
      nodupFields, nodupBase, namesNodupB, descDepth, fieldsDepth, baseDepth]
    decide
  exact ⟨h1, claim_C1 _ _ h1⟩

end PyConfetti
